import Mathlib

/-!
Verification of the hyphe-traph core structures: a shallow embedding of the
LRU trie (lru_trie.py, lru_trie_node.py) and of the Traph coordinator
(traph.py), together with theorems about the claims of the specification.

Conventions of the embedding:
- an LRU is a list of byte codes (List Nat), one element per character, as
  produced by ord() in the source;
- the trie block storage is a list of node records, the list index being the
  block index; storage read is list lookup, in-place write is List.set and
  append-write grows the list, mirroring the storage contract of spec 4.1
  (file_storage.py and memory_storage.py are not under src);
- while loops of the source that walk sibling chains carry a fuel argument;
  a fuel of (store length + 1) is always sufficient on stores satisfying the
  structural invariant proved below, since chains visit strictly increasing
  block indices;
- fallible paths return Option: a none result models either a raised
  exception or a diverging loop on a corrupt store.
-/

namespace HypheTraph

/-- Trie node record. The fields char, flags, next, child, parent mirror the
packed record of lru_trie_node.py (format 2B3Q, positions 0 to 4).
Modelled from the spec: the fields webentity_id, outlinks and inlinks and the
flag bits beyond is_page are absent from the packed format in
lru_trie_node.py but are required by the callers in lru_trie.py and traph.py
(has_webentity, set_webentity, outlinks and so on); they are taken from the
record description of spec section 3. -/
structure NodeData where
  char : Nat
  flags : Nat
  next : Nat
  child : Nat
  parent : Nat
  webentity_id : Nat
  outlinks : Nat
  inlinks : Nat
deriving Repr, DecidableEq, Inhabited

/-- Default record data, mirroring LRUTrieNode.__set_default_data: the given
character and every other field zero. -/
def defaultNode (c : Nat) : NodeData :=
  ⟨c, 0, 0, 0, 0, 0, 0, 0⟩

/-- Flag bit for is_page, from lru_trie_node.py (LRU_TRIE_NODE_FLAG_PAGE). -/
def FLAG_PAGE : Nat := 0

/-- Modelled from the spec: flag bit for has_webentity; the source record
defines only the page bit, spec section 3 asks for this flag. -/
def FLAG_WEBENTITY : Nat := 1

/-- Modelled from the spec: flag bit for is_webentity_creation_rule. -/
def FLAG_RULE : Nat := 2

/-- Test of a flag bit, mirroring the helper test() of lru_trie_node.py. -/
def testFlag (flags pos : Nat) : Bool :=
  flags.testBit pos

/-- Setting of a flag bit, mirroring the helper flag() of lru_trie_node.py. -/
def setFlag (flags pos : Nat) : Nat :=
  flags ||| (1 <<< pos)

/-- The trie block storage: one node record per block index. -/
abbrev Store := List NodeData

/-- Number of reserved header blocks of the trie store. Modelled from the
spec: the constant LRU_TRIE_NODE_HEADER_BLOCKS is imported by lru_trie.py but
not defined in lru_trie_node.py under src; spec section 3 reserves block 0 as
the NULL sentinel and spec invariant 1 puts the root at the first post-header
block, hence one header block. -/
def LRU_TRIE_NODE_HEADER_BLOCKS : Nat := 1

/-- In-memory view of a node object, mirroring the mutable state of a
LRUTrieNode instance: its block (none while unwritten), its existence flag
and its record data. -/
structure NodeView where
  block : Option Nat
  exs : Bool
  data : NodeData
deriving Repr, DecidableEq, Inhabited

/-- Reading a node at a block, mirroring LRUTrieNode.read: a missing block
yields a non-existing view holding default data and no block. -/
def nodeRead (s : Store) (b : Nat) : NodeView :=
  match s[b]? with
  | none => ⟨none, false, defaultNode 0⟩
  | some d => ⟨some b, true, d⟩

/-- Writing a node view, mirroring LRUTrieNode.write plus the storage write
contract: an unwritten view is appended at end of store and receives the new
block index, a written view overwrites its block in place. -/
def nodeWrite (s : Store) (v : NodeView) : Store × NodeView :=
  match v.block with
  | some b => (s.set b v.data, ⟨some b, true, v.data⟩)
  | none => (s ++ [v.data], ⟨some s.length, true, v.data⟩)

/-- Root view, mirroring LRUTrie.__root: the node at the first post-header
block. -/
def rootRead (s : Store) : NodeView :=
  nodeRead s LRU_TRIE_NODE_HEADER_BLOCKS

/-- The store right after LRUTrie.__ensure_headers on an empty storage: the
single header block written with default data. -/
def emptyStore : Store :=
  [defaultNode 0]

/-- Result of the sibling scan loop of LRUTrie.__ensure_char_from_siblings:
either the sibling carrying the sought character, or the last sibling of the
chain when no sibling carries it. -/
inductive ScanResult where
  | found (v : NodeView)
  | last (v : NodeView)
deriving Repr, DecidableEq

/-- Sibling scan loop, mirroring the while loop of
LRUTrie.__ensure_char_from_siblings (and the inner while of
LRUTrie.lru_node): test the character first, then follow next. The fuel
argument bounds the walk; none models divergence on a corrupt store. -/
def scanGo (s : Store) (c : Nat) : NodeView → Nat → Option ScanResult
  | _, 0 => none
  | v, fuel + 1 =>
    if v.data.char = c then some (.found v)
    else if v.data.next ≠ 0 then scanGo s c (nodeRead s v.data.next) fuel
    else some (.last v)

/-- Result of a mutating trie step: the relevant node view, the resulting
store, and the snapshots of the store taken right after each storage write
(in write order), used to state the write-ordering property. -/
structure EnsureResult where
  node : NodeView
  store : Store
  snaps : List Store
deriving Repr, DecidableEq

/-- Mirror of LRUTrie.__ensure_char_from_siblings. A non-existing node is
given the character and written (append). Otherwise the sibling chain is
scanned; on a match the matching view is returned without writing; otherwise
a new sibling is written first (append) and only then the old chain tail is
rewritten in place to point at it. -/
def ensureCharFromSiblings (s : Store) (v : NodeView) (c : Nat) : Option EnsureResult :=
  if v.exs = false then
    let w := { v with data := { v.data with char := c } }
    let p := nodeWrite s w
    some ⟨p.2, p.1, [p.1]⟩
  else
    match scanGo s c v (s.length + 1) with
    | none => none
    | some (.found w) => some ⟨w, s, []⟩
    | some (.last w) =>
      let sib : NodeView := ⟨none, false, { defaultNode c with parent := w.data.parent }⟩
      let p := nodeWrite s sib
      let w2 := { w with data := { w.data with next := p.2.block.getD 0 } }
      let q := nodeWrite p.1 w2
      some ⟨p.2, q.1, [p.1, q.1]⟩

/-- Walk history accumulated along a trie walk. Modelled from the spec:
lru_trie_walk_history.py is not under src; fields follow spec section 4.4
(webentity is none before any has_webentity node is met, the position is the
index passed by lru_trie.py, rule prefixes accumulate in walk order). -/
structure WalkHistory where
  webentity : Option Nat
  webentityLru : List Nat
  webentity_position : Nat
  rules_to_apply : List (List Nat)
  page_was_created : Bool
deriving Repr, DecidableEq, Inhabited

/-- Fresh walk history at the start of a walk. -/
def initHistory : WalkHistory :=
  ⟨none, [], 0, [], false⟩

/-- Modelled from the spec: LRUTrieWalkHistory.update_webentity; a later
observation overrides the earlier one (spec section 4.4). The call site in
lru_trie.py passes the id, the consumed prefix lru[:i] and the index i. -/
def updateWebentity (h : WalkHistory) (weid : Nat) (pre : List Nat) (i : Nat) : WalkHistory :=
  { h with webentity := some weid, webentityLru := pre, webentity_position := i }

/-- Modelled from the spec: LRUTrieWalkHistory.update_webentity_creation_rule;
rule observations accumulate in walk order (spec section 4.4). The rule
prefix of a node visited at index i of the walk of lru is lru[:i+1]. -/
def updateRule (h : WalkHistory) (rp : List Nat) : WalkHistory :=
  { h with rules_to_apply := h.rules_to_apply ++ [rp] }

/-- The two history updates performed on the matched node at each step of
LRUTrie.add_lru, with pre the consumed strict prefix and c the current
character. -/
def historyStep (h : WalkHistory) (w : NodeView) (pre : List Nat) (c : Nat) : WalkHistory :=
  let h1 := if testFlag w.data.flags FLAG_WEBENTITY then
    updateWebentity h w.data.webentity_id pre pre.length else h
  if testFlag w.data.flags FLAG_RULE then updateRule h1 (pre ++ [c]) else h1

/-- Result of add_lru and add_page: terminal node view, walk history, final
store, and the snapshots after each storage write in order. -/
structure AddResult where
  node : NodeView
  history : WalkHistory
  store : Store
  snaps : List Store
deriving Repr, DecidableEq

/-- Mirror of the second while loop of LRUTrie.add_lru (tail extension): for
each remaining character, a child holding the character and parented to the
current node is written first (append), then the current node is rewritten in
place with its child pointer set to the new block. -/
def addLruTail (s : Store) (v : NodeView) (snaps : List Store) :
    List Nat → NodeView × Store × List Store
  | [] => (v, s, snaps)
  | c :: cs =>
    let child : NodeView := ⟨none, false, { defaultNode c with parent := v.block.getD 0 }⟩
    let p := nodeWrite s child
    let v2 := { v with data := { v.data with child := p.2.block.getD 0 } }
    let q := nodeWrite p.1 v2
    addLruTail q.1 p.2 (snaps ++ [p.1, q.1]) cs

/-- Mirror of the first while loop of LRUTrie.add_lru (descent): ensure a
sibling for the current character, update the history from the matched node,
then descend into its child when more characters remain and a child exists,
otherwise switch to the tail extension loop. -/
def addLruGo (s : Store) (v : NodeView) (pre : List Nat) (h : WalkHistory)
    (snaps : List Store) : List Nat → Option AddResult
  | [] => some ⟨v, h, s, snaps⟩
  | c :: cs =>
    match ensureCharFromSiblings s v c with
    | none => none
    | some er =>
      let h1 := historyStep h er.node pre c
      let snaps1 := snaps ++ er.snaps
      match cs with
      | [] => some ⟨er.node, h1, er.store, snaps1⟩
      | _ :: _ =>
        if er.node.data.child ≠ 0 then
          addLruGo er.store (nodeRead er.store er.node.data.child) (pre ++ [c]) h1 snaps1 cs
        else
          let t := addLruTail er.store er.node snaps1 cs
          some ⟨t.1, h1, t.2.1, t.2.2⟩

/-- Mirror of LRUTrie.add_lru: walk from the root. -/
def addLru (s : Store) (lru : List Nat) : Option AddResult :=
  addLruGo s (rootRead s) [] initHistory [] lru

/-- Mirror of LRUTrie.add_page: add_lru, then set the is_page flag on the
terminal node if not already set, recording page_was_created. -/
def addPage (s : Store) (lru : List Nat) : Option AddResult :=
  match addLru s lru with
  | none => none
  | some r =>
    if testFlag r.node.data.flags FLAG_PAGE = false then
      let v := { r.node with data :=
        { r.node.data with flags := setFlag r.node.data.flags FLAG_PAGE } }
      let p := nodeWrite r.store v
      some ⟨p.2, { r.history with page_was_created := true }, p.1, r.snaps ++ [p.1]⟩
    else some r

/-- Mirror of the loop of LRUTrie.lru_node: at each character scan the
current sibling chain, return absent (inner none) when the chain has no match
or when a child is needed and missing; descend through child between
characters. The outer none models a diverging scan on a corrupt store. -/
def lruNodeGo (s : Store) (v : NodeView) : List Nat → Option (Option NodeView)
  | [] => some (some v)
  | c :: cs =>
    match scanGo s c v (s.length + 1) with
    | none => none
    | some (.last _) => some none
    | some (.found w) =>
      match cs with
      | [] => some (some w)
      | _ :: _ =>
        if w.data.child ≠ 0 then lruNodeGo s (nodeRead s w.data.child) cs
        else some none

/-- Mirror of LRUTrie.lru_node: point lookup from the root. -/
def lruNode (s : Store) (lru : List Nat) : Option (Option NodeView) :=
  lruNodeGo s (rootRead s) lru

/-- Mirror of LRUTrieNode.is_root: the block index equals zero (a view whose
block is none is not the root, as None does not equal 0 in the source). -/
def isRootView (v : NodeView) : Bool :=
  v.block = some 0

/-- Mirror of the loop of LRUTrie.dfs_iter: when descending, yield the node
together with the lru built so far extended by the node character; descend
into child if any, else follow next, else bubble up through parent dropping
the last character, stopping at the node whose block is 0. Yields are
accumulated as (block, lru) pairs. The signature of dfs_iter in lru_trie.py
takes no start node and no lru argument: traversal always begins at the
root. -/
def dfsGo (s : Store) : NodeView → Bool → List Nat → List (Nat × List Nat) → Nat →
    Option (List (Nat × List Nat))
  | _, _, _, _, 0 => none
  | v, descending, lru, acc, fuel + 1 =>
    let acc1 := if descending then acc ++ [(v.block.getD 0, lru ++ [v.data.char])] else acc
    if descending ∧ v.data.child ≠ 0 then
      dfsGo s (nodeRead s v.data.child) true (lru ++ [v.data.char]) acc1 fuel
    else if v.data.next ≠ 0 then
      dfsGo s (nodeRead s v.data.next) true lru acc1 fuel
    else if isRootView v = false then
      dfsGo s (nodeRead s v.data.parent) false lru.dropLast acc1 fuel
    else
      some acc1

/-- Mirror of LRUTrie.dfs_iter: start at the root, return immediately when
the root node does not exist. -/
def dfsIter (s : Store) (fuel : Nat) : Option (List (Nat × List Nat)) :=
  let v := rootRead s
  if v.exs = false then some []
  else dfsGo s v true [] [] fuel

/-!
Constants of the packed record of lru_trie_node.py, kept verbatim for the
claims about the on-disk format.
-/

/-- The struct format string of the trie node record in lru_trie_node.py. -/
def LRU_TRIE_NODE_FORMAT : String := "2B3Q"

/-- Field position of char in the packed record (lru_trie_node.py). -/
def LRU_TRIE_NODE_CHAR : Nat := 0

/-- Field position of flags in the packed record (lru_trie_node.py). -/
def LRU_TRIE_NODE_FLAGS : Nat := 1

/-- Field position of next in the packed record (lru_trie_node.py). -/
def LRU_TRIE_NODE_NEXT_BLOCK : Nat := 2

/-- Field position of child in the packed record (lru_trie_node.py). -/
def LRU_TRIE_NODE_CHILD_BLOCK : Nat := 3

/-- Field position of parent in the packed record (lru_trie_node.py). -/
def LRU_TRIE_NODE_PARENT_BLOCK : Nat := 4

/-- Mirror of LRUTrieNode.__set_default_data: the raw record data is the list
of the five field values, character first and parent block last; the packed
record of lru_trie_node.py holds no further field. -/
def lruTrieNodeRawData (c : Nat) : List Nat :=
  [c, 0, 0, 0, 0]

/-- Block size of the trie record: struct.calcsize of the format 2B3Q with
native alignment (two bytes, six padding bytes, three 8-byte words). -/
def LRU_TRIE_NODE_BLOCK_SIZE : Nat := 32

/-- Modelled from the spec: block size of the link store record;
link_store_node.py is not under src. The record holds target, next, weight
and flags (spec section 3); the concrete byte count stands in for
struct.calcsize of its format, and the claims depend only on divisibility by
a fixed positive block size. -/
def LINK_STORE_NODE_BLOCK_SIZE : Nat := 32

/-!
The Traph coordinator (traph.py) and its collaborators.
-/

/-- A compiled creation-rule pattern applied to an lru: the candidate is the
matched group of regexp.search, or none when the pattern does not match
(Traph.__apply_webentity_creation_rule). Patterns are inputs to the core. -/
abbrev Rule := List Nat → Option (List Nat)

/-- Modelled from the spec: link store record (link_store_node.py is not
under src); fields target, next, weight, flags from spec section 3. -/
structure LinkNodeData where
  target : Nat
  next : Nat
  weight : Nat
  flags : Nat
deriving Repr, DecidableEq, Inhabited

/-- Modelled from the spec: write report (traph_write_report.py is not under
src); a report carries the number of pages created, the number of link
records created and the created webentities mapping, and reports sum-merge
(spec section 6). Traph.__add_page builds a fresh report and fills only
created_webentities. -/
structure TraphWriteReport where
  pages_created : Nat
  links_created : Nat
  created_webentities : List (Nat × List (List Nat))
deriving Repr, DecidableEq, Inhabited

/-- A fresh report, all counters zero. -/
def emptyReport : TraphWriteReport :=
  ⟨0, 0, []⟩

/-- Sum-merge of two reports, mirroring report addition. -/
def mergeReport (a b : TraphWriteReport) : TraphWriteReport :=
  ⟨a.pages_created + b.pages_created, a.links_created + b.links_created,
    a.created_webentities ++ b.created_webentities⟩

/-- State of a Traph instance: the two stores, the monotonic
last-webentity-id counter (modelled from the spec: the source reads it
through self.lru_trie.header, which lru_trie.py does not define; spec
sections 3 and 9 place it in a store header), and the in-RAM rule
configuration (default creation rule, rule mapping, lru_variations policy,
the latter two being external inputs per spec section 4.6). -/
structure TraphState where
  trie : Store
  links : List LinkNodeData
  lastWebentityId : Nat
  defaultRule : Rule
  rules : List (List Nat × Rule)
  variations : List Nat → List (List Nat)

/-- Mirror of the candidate-selection loop of Traph.__add_page (lines 169 to
174): for each triggered rule prefix look the pattern up in the rule mapping
and apply it to the full lru; keep a candidate when it is non-empty and
strictly longer than the best so far. A missing rule key models the KeyError
of the source dict access. -/
def longestCandidateGo (t : TraphState) (lru : List Nat) (acc : List Nat) :
    List (List Nat) → Option (List Nat)
  | [] => some acc
  | p :: ps =>
    match t.rules.lookup p with
    | none => none
    | some r =>
      match r lru with
      | none => longestCandidateGo t lru acc ps
      | some c =>
        longestCandidateGo t lru (if c ≠ [] ∧ acc.length < c.length then c else acc) ps

/-- Mirror of node.set_webentity followed by node.write in
Traph.__add_prefixes; set_webentity is modelled from the spec: it stores the
id and raises the has_webentity flag on the terminal node (spec sections 3
and 4.6 step 6). -/
def setWebentityWrite (s : Store) (v : NodeView) (weid : Nat) : Store :=
  (nodeWrite s { v with data := { v.data with
    flags := setFlag v.data.flags FLAG_WEBENTITY, webentity_id := weid } }).1

/-- The prefix loop of Traph.__add_prefixes: add each prefix to the trie and
write the webentity id on its terminal node. -/
def addPrefixesGo (weid : Nat) : Store → List (List Nat) → Option Store
  | s, [] => some s
  | s, p :: ps =>
    match addLru s p with
    | none => none
    | some r => addPrefixesGo weid (setWebentityWrite r.store r.node weid) ps

/-- Mirror of Traph.__add_prefixes: allocate the next webentity id from the
header counter, then flag every prefix terminal with it. -/
def addPrefixes (t : TraphState) (pfxs : List (List Nat)) : Option (Nat × TraphState) :=
  let weid := t.lastWebentityId + 1
  match addPrefixesGo weid t.trie pfxs with
  | none => none
  | some s2 => some (weid, { t with trie := s2, lastWebentityId := weid })

/-- Mirror of Traph.__add_page: trie add_page, then creation-rule
resolution. The longest candidate over the triggered rules is selected; a
non-empty candidate not longer than webentity_position + 1 returns without
creating anything; a longer one is expanded through lru_variations and its
prefixes are flagged under a fresh id; with no candidate the default rule is
applied (none models the failure of the source on a defaulted rule that does
not match, since lru_variations would receive None). -/
def addPageT (t : TraphState) (lru : List Nat) :
    Option (NodeView × TraphWriteReport × TraphState) :=
  match addPage t.trie lru with
  | none => none
  | some r =>
    let t1 := { t with trie := r.store }
    match longestCandidateGo t1 lru [] r.history.rules_to_apply with
    | none => none
    | some cand =>
      if cand ≠ [] ∧ cand.length ≤ r.history.webentity_position + 1 then
        some (r.node, emptyReport, t1)
      else if cand ≠ [] then
        match addPrefixes t1 (t1.variations cand) with
        | none => none
        | some pr =>
          some (r.node,
            { emptyReport with created_webentities := [(pr.1, t1.variations cand)] }, pr.2)
      else
        match t1.defaultRule lru with
        | none => none
        | some dcand =>
          match addPrefixes t1 (t1.variations dcand) with
          | none => none
          | some pr =>
            some (r.node,
              { emptyReport with created_webentities := [(pr.1, t1.variations dcand)] }, pr.2)

/-- Public Traph.add_page: returns the report of the internal add. -/
def addPagePublic (t : TraphState) (lru : List Nat) :
    Option (TraphWriteReport × TraphState) :=
  match addPageT t lru with
  | none => none
  | some (_, rep, st) => some (rep, st)

/-- Modelled from the spec: coalescing of duplicate targets of a single
add_outlinks or add_inlinks call into weights, first occurrence order (spec
section 4.5). -/
def coalesceGo (acc : List (Nat × Nat)) : List Nat → List (Nat × Nat)
  | [] => acc
  | b :: bs =>
    if acc.any (fun q => q.1 = b) then
      coalesceGo (acc.map (fun q => if q.1 = b then (q.1, q.2 + 1) else q)) bs
    else coalesceGo (acc ++ [(b, 1)]) bs

/-- Modelled from the spec: the chain of link records appended for one call,
each record chained to the following one and the last chained to the
previous head of the list. -/
def linkChainNodes (start : Nat) (oldHead : Nat) : List (Nat × Nat) → List LinkNodeData
  | [] => []
  | [q] => [⟨q.1, oldHead, q.2, 0⟩]
  | q :: rest => ⟨q.1, start + 1, q.2, 0⟩ :: linkChainNodes (start + 1) oldHead rest

/-- Modelled from the spec: LinkStore.add_outlinks or add_inlinks
(link_store.py is not under src): coalesce the targets, append the chain at
end of the link store, and return the new head block (spec section 4.5). -/
def addLinkList (links : List LinkNodeData) (targets : List Nat) (oldHead : Nat) :
    List LinkNodeData × Nat :=
  match coalesceGo [] targets with
  | [] => (links, oldHead)
  | tw => (links ++ linkChainNodes links.length oldHead tw, links.length)

/-- Writing an adjacency list for one trie node: the head pointer is held on
the owning trie node (outlinks when out is true, inlinks otherwise). -/
def addAdjacency (t : TraphState) (out : Bool) (ownerBlock : Option Nat)
    (targets : List Nat) : TraphState :=
  match ownerBlock with
  | none => t
  | some b =>
    match t.trie[b]? with
    | none => t
    | some d =>
      let oldHead := if out then d.outlinks else d.inlinks
      let p := addLinkList t.links targets oldHead
      let d2 := if out then { d with outlinks := p.2 } else { d with inlinks := p.2 }
      { t with links := p.1, trie := t.trie.set b d2 }

/-- Loop state of Traph.add_links: traph state, accumulated report, the
pages cache (a dict keyed by lru), the outlink and inlink multimaps as raw
pair lists, and the log of lrus on which the internal add_page was invoked
(the instrument for the at-most-once property). -/
structure LinksLoop where
  state : TraphState
  report : TraphWriteReport
  pages : List (List Nat × NodeView)
  outAcc : List (List Nat × List Nat)
  inAcc : List (List Nat × List Nat)
  log : List (List Nat)

/-- Mirror of the page-cache guard of Traph.add_links: when the lru is not a
key of the pages dict, run the internal add_page, merge its report and cache
the terminal node under the lru. -/
def ensurePageCached (ll : LinksLoop) (lru : List Nat) : Option LinksLoop :=
  match ll.pages.lookup lru with
  | some _ => some ll
  | none =>
    match addPageT ll.state lru with
    | none => none
    | some (nv, rep, st) =>
      some { ll with
              state := st
              report := mergeReport ll.report rep
              pages := ll.pages ++ [(lru, nv)]
              log := ll.log ++ [lru] }

/-- Mirror of the first loop of Traph.add_links: cache source and target
pages, then extend the multimaps. -/
def addLinksLoop : LinksLoop → List (List Nat × List Nat) → Option LinksLoop
  | ll, [] => some ll
  | ll, (src, tgt) :: rest =>
    match ensurePageCached ll src with
    | none => none
    | some l1 =>
      match ensurePageCached l1 tgt with
      | none => none
      | some l2 =>
        addLinksLoop
          { l2 with outAcc := l2.outAcc ++ [(src, tgt)], inAcc := l2.inAcc ++ [(tgt, src)] }
          rest

/-- Keys of a raw multimap in first-occurrence order, mirroring the
insertion order of a defaultdict. -/
def multimapKeys (acc : List (List Nat)) : List (List Nat × List Nat) → List (List Nat)
  | [] => acc
  | q :: rest => multimapKeys (if acc.contains q.1 then acc else acc ++ [q.1]) rest

/-- Values of a raw multimap under one key, in insertion order. -/
def multimapValues (l : List (List Nat × List Nat)) (k : List Nat) : List (List Nat) :=
  (l.filter (fun q => q.1 = k)).map (fun q => q.2)

/-- Mirror of one flush loop of Traph.add_links: per key of the multimap,
resolve the cached nodes and write the adjacency list in one store call. -/
def flushAdjacency (out : Bool) (pages : List (List Nat × NodeView))
    (acc : List (List Nat × List Nat)) (t : TraphState) : TraphState :=
  (multimapKeys [] acc).foldl (fun st k =>
    let tb := (multimapValues acc k).map
      (fun q => ((pages.lookup q).map (fun v => v.block.getD 0)).getD 0)
    addAdjacency st out ((pages.lookup k).bind (fun v => v.block)) tb) t

/-- Mirror of Traph.add_links: pages loop, then outlink flush, then inlink
flush; the returned list is the log of internal add_page invocations. -/
def addLinks (t : TraphState) (pairs : List (List Nat × List Nat)) :
    Option (TraphWriteReport × TraphState × List (List Nat)) :=
  match addLinksLoop ⟨t, emptyReport, [], [], [], []⟩ pairs with
  | none => none
  | some ll =>
    let t1 := flushAdjacency true ll.pages ll.outAcc ll.state
    let t2 := flushAdjacency false ll.pages ll.inAcc t1
    some (ll.report, t2, ll.log)

/-!
Opening a Traph on a folder (Traph.__init__, lines 39 to 91).
-/

/-- Inputs of an open on a folder: the overwrite flag, whether each store
file exists, and the byte size of each existing file. -/
structure OpenInput where
  overwrite : Bool
  lruExists : Bool
  linkExists : Bool
  lruSize : Nat
  linkSize : Nat
deriving Repr, DecidableEq

/-- Modelled from the spec: the size validation of a file-backed store
(file_storage.py is not under src): an attached file whose total size is not
a multiple of the block size is corrupt and fatal at open (spec sections 4.1
and 7); traph.py notes this check as a TODO at its own layer and delegates
file attachment to FileStorage. -/
def fileStorageCheck (blockSize size : Nat) : Except String Unit :=
  if size % blockSize = 0 then Except.ok ()
  else Except.error "corrupt store: file size is not a multiple of block size"

/-- Mirror of the folder branch of Traph.__init__: consistency of file
existence is checked first and raises before any file is opened, created or
written; then the files are created (truncated to size zero) or re-attached,
and each FileStorage validates its size. The first component records the
file actions performed before the result, in order. -/
def traphOpen (inp : OpenInput) : List String × Except String Unit :=
  if inp.lruExists ∧ ¬ inp.linkExists then
    ([], Except.error "File inconsistency: lru_trie.dat exists but not link_store.dat.")
  else if ¬ inp.lruExists ∧ inp.linkExists then
    ([], Except.error "File inconsistency: link_store.dat exists but not lru_trie.dat.")
  else
    let create := inp.overwrite ∨ (¬ inp.lruExists ∧ ¬ inp.linkExists)
    let acts := if create then ["create lru_trie.dat", "create link_store.dat"]
      else ["open lru_trie.dat", "open link_store.dat"]
    let lruSize := if create then 0 else inp.lruSize
    let linkSize := if create then 0 else inp.linkSize
    match fileStorageCheck LRU_TRIE_NODE_BLOCK_SIZE lruSize with
    | Except.error e => (acts, Except.error e)
    | Except.ok _ =>
      match fileStorageCheck LINK_STORE_NODE_BLOCK_SIZE linkSize with
      | Except.error e => (acts, Except.error e)
      | Except.ok _ => (acts ++ ["write store headers"], Except.ok ())

/-!
Structural predicates about stores, used by the theorems.
-/

/-- A store is closed when every stored pointer lies inside the store (0,
the NULL sentinel, always does since the header occupies block 0). -/
def Closed (s : Store) : Prop :=
  ∀ (i : Nat) (d : NodeData), s[i]? = some d →
    d.next < s.length ∧ d.child < s.length ∧ d.parent < s.length

/-- Structural growth of a store under the trie operations: blocks are only
appended, characters and parents of existing blocks never change, next and
child pointers of existing blocks change only from 0, the creation-rule flag
of an existing block is untouched by page and webentity writes, and the
has_webentity flag is never cleared. -/
def Grows (s s' : Store) : Prop :=
  s.length ≤ s'.length ∧
  ∀ (i : Nat) (di di' : NodeData), s[i]? = some di → s'[i]? = some di' →
    di'.char = di.char ∧ di'.parent = di.parent ∧
    (di'.next = di.next ∨ di.next = 0) ∧
    (di'.child = di.child ∨ di.child = 0) ∧
    testFlag di'.flags FLAG_RULE = testFlag di.flags FLAG_RULE ∧
    (testFlag di.flags FLAG_WEBENTITY = true → testFlag di'.flags FLAG_WEBENTITY = true) ∧
    (testFlag di.flags FLAG_WEBENTITY = true → di'.webentity_id = di.webentity_id ∨
      testFlag di'.flags FLAG_WEBENTITY = true)

/-- Growth restricted to what add_lru does, as observable on blocks: blocks
are only appended, existing records keep their character, parent, flags and
webentity id, and their next and child pointers move only from 0 and then
point at freshly appended blocks. -/
def Extends (s s' : Store) : Prop :=
  s.length ≤ s'.length ∧
  ∀ (i : Nat) (di di' : NodeData), s[i]? = some di → s'[i]? = some di' →
    di'.char = di.char ∧ di'.parent = di.parent ∧ di'.flags = di.flags ∧
    di'.webentity_id = di.webentity_id ∧
    (di'.next = di.next ∨ (di.next = 0 ∧ s.length ≤ di'.next)) ∧
    (di'.child = di.child ∨ (di.child = 0 ∧ s.length ≤ di'.child))

/-- The sibling chain starting at a block: the visited records following
next pointers, bounded by fuel. -/
def chainGo (s : Store) : Nat → Nat → List (Nat × NodeData)
  | _, 0 => []
  | b, fuel + 1 =>
    match s[b]? with
    | none => []
    | some d => (b, d) :: (if d.next = 0 then [] else chainGo s d.next fuel)

/-- The sibling chain starting at a block, with fuel the store length (under
the structural invariant chains visit strictly increasing blocks, so this
fuel is exact). -/
def chain (s : Store) (b : Nat) : List (Nat × NodeData) :=
  chainGo s b s.length

/-- Heads of sibling chains: the root block, and every block some node
points at through child. -/
def IsHead (s : Store) (h : Nat) : Prop :=
  h = LRU_TRIE_NODE_HEADER_BLOCKS ∨
    ∃ (i : Nat) (d : NodeData), s[i]? = some d ∧ d.child = h ∧ h ≠ 0

/-- Characters are pairwise distinct within every sibling chain. -/
def ChainsDistinct (s : Store) : Prop :=
  ∀ h, IsHead s h → ((chain s h).map (fun q => q.2.char)).Nodup

/-- Structural invariant of stores built by the trie operations: the header
block exists and holds no pointers, next and child pointers move strictly
forward and stay in bounds, parents point backward, and no two distinct
pointers share a nonzero target (so sibling chains are disjoint and
acyclic). -/
structure Inv (s : Store) : Prop where
  nonempty : 1 ≤ s.length
  header_next : ∀ (d : NodeData), s[0]? = some d → d.next = 0
  header_child : ∀ (d : NodeData), s[0]? = some d → d.child = 0
  next_prog : ∀ (i : Nat) (d : NodeData), s[i]? = some d →
    d.next = 0 ∨ (i < d.next ∧ d.next < s.length)
  child_prog : ∀ (i : Nat) (d : NodeData), s[i]? = some d →
    d.child = 0 ∨ (i < d.child ∧ d.child < s.length)
  parent_le : ∀ (i : Nat) (d : NodeData), s[i]? = some d → d.parent ≤ i
  next_inj : ∀ (i j : Nat) (di dj : NodeData), s[i]? = some di → s[j]? = some dj →
    di.next ≠ 0 → di.next = dj.next → i = j
  child_inj : ∀ (i j : Nat) (di dj : NodeData), s[i]? = some di → s[j]? = some dj →
    di.child ≠ 0 → di.child = dj.child → i = j
  next_ne_child : ∀ (i j : Nat) (di dj : NodeData), s[i]? = some di → s[j]? = some dj →
    di.next ≠ 0 → di.next ≠ dj.child

/-- Stores reachable from the freshly initialized trie by add_lru calls. -/
inductive Reachable : Store → Prop where
  | base : Reachable emptyStore
  | step (s : Store) (x : List Nat) (r : AddResult) :
      Reachable s → addLru s x = some r → Reachable r.store

/-- Declarative full-path witness of an lru in a store: the matched view for
each character, obtained by the same chain scan as the lookup; none when
some chain has no match or a needed child pointer is 0. -/
def pathViews (s : Store) (v : NodeView) : List Nat → Option (List NodeView)
  | [] => some []
  | c :: cs =>
    match scanGo s c v (s.length + 1) with
    | none => none
    | some (.last _) => none
    | some (.found w) =>
      match cs with
      | [] => some [w]
      | _ :: _ =>
        if w.data.child ≠ 0 then (pathViews s (nodeRead s w.data.child) cs).map (w :: ·)
        else none

/-- The walk history determined by the matched views of a path: fold of the
per-step history update. -/
def histOf (h : WalkHistory) (pre : List Nat) : List NodeView → List Nat → WalkHistory
  | [], _ => h
  | _ :: _, [] => h
  | w :: ws, c :: cs => histOf (historyStep h w pre c) (pre ++ [c]) ws cs

/-- Declarative absence of a path: at some step the scanned sibling chain
holds no node with the sought character, or the matched node lacks a needed
child pointer. This is the failure condition of the lookup, stated on the
chain contents rather than on the traversal loop. -/
def PathAbsentFrom (s : Store) (b : Nat) : List Nat → Prop
  | [] => False
  | c :: cs =>
    match (chain s b).find? (fun q => q.2.char = c) with
    | none => True
    | some q =>
      match cs with
      | [] => False
      | _ :: _ => if q.2.child = 0 then True else PathAbsentFrom s q.2.child cs

/-- Coherence of a node view with a store: a located view holds exactly the
record of its block, an unlocated view holds default data (the state of a
view right after LRUTrieNode.read). -/
def ViewOk (s : Store) (v : NodeView) : Prop :=
  (∀ b : Nat, v.block = some b → s[b]? = some v.data) ∧
  (v.block = none → v.data = defaultNode 0)

/-- A view located at an existing block of the store, as produced by a
successful read. -/
def RealView (s : Store) (v : NodeView) : Prop :=
  ∃ b : Nat, v.block = some b ∧ s[b]? = some v.data ∧ v.exs = true

/-- Reachability along next pointers from a chain head. -/
inductive NextReach (s : Store) (h : Nat) : Nat → Prop where
  | refl : NextReach s h h
  | step (b : Nat) (d : NodeData) (hb : NextReach s h b) (hd : s[b]? = some d)
      (hnz : d.next ≠ 0) : NextReach s h d.next

/-- Concrete traph with no installed rules, a default rule matching the
whole lru and singleton variations, used in witnesses. -/
def exampleTraphPlain : TraphState :=
  ⟨emptyStore, [], 0, fun l => some l, [], fun l => [l]⟩

/-- Concrete creation rule used in witnesses: always matches the one byte
candidate 97. -/
def exampleRuleA : Rule := fun _ => some [97]

/-- Concrete trie used in the C1 witness: the path for ab, whose first node
carries the has_webentity flag (id 5) and the creation-rule flag. -/
def exampleTrieC1 : Store :=
  [defaultNode 0,
   { defaultNode 97 with child := 2, flags := 6, webentity_id := 5 },
   { defaultNode 98 with parent := 1 }]

/-- Concrete traph state for the C1 witness. -/
def exampleTraphC1 : TraphState :=
  ⟨exampleTrieC1, [], 0, fun l => some l, [([97], exampleRuleA)], fun l => [l]⟩

/-- A store together with the example insertions used as concrete instances
in the theorems: the trie after inserting the lrus ab and cd (bytes 97 98
and 99 100) into a fresh store. -/
def exampleStore2 : Store :=
  [defaultNode 0,
   { defaultNode 97 with next := 3, child := 2 },
   { defaultNode 98 with parent := 1 },
   { defaultNode 99 with child := 4 },
   { defaultNode 100 with parent := 3 }]

/-!
Theorems. First the boundary and format claims, then the structural
development for the trie insertion claims.
-/

/-- Claim C10: on the empty lru, add_lru returns the root node view, writes
nothing (the store and the write snapshots are unchanged and empty), the
walk history is fresh, and lru_node returns the root node rather than
absent. -/
theorem claim_C10 (s : Store) :
    addLru s [] = some ⟨rootRead s, initHistory, s, []⟩ ∧
    lruNode s [] = some (some (rootRead s)) :=
  ⟨rfl, rfl⟩

/-- Claim C7: the packed trie node record of lru_trie_node.py carries
exactly the five fields char, flags, next, child and parent, the parent
block being the last position of the record; there is no outlinks_head,
inlinks_head or webentity_id field in the record, contradicting the claim
(the callers in lru_trie.py and traph.py nevertheless use accessors of the
missing fields, so the source record is the slip). -/
theorem claim_C7 :
    (∀ c : Nat, lruTrieNodeRawData c = [c, 0, 0, 0, 0]) ∧
    (lruTrieNodeRawData 0).length = LRU_TRIE_NODE_PARENT_BLOCK + 1 ∧
    LRU_TRIE_NODE_CHAR = 0 ∧ LRU_TRIE_NODE_FLAGS = 1 ∧ LRU_TRIE_NODE_NEXT_BLOCK = 2 ∧
    LRU_TRIE_NODE_CHILD_BLOCK = 3 ∧ LRU_TRIE_NODE_PARENT_BLOCK = 4 :=
  ⟨fun _ => rfl, rfl, rfl, rfl, rfl, rfl, rfl⟩

/-- Claim C6: opening a Traph on a folder where exactly one of the two
store files exists raises before any file action at all; and when both
files exist and are re-attached without overwrite, a size of either file
that is not a multiple of its store block size is fatal before any header
write — whether the bad size is that of lru_trie.dat or that of
link_store.dat alone (the size validation is modelled from the spec on the
FileStorage side, which is not under src). -/
theorem claim_C6 (inp : OpenInput) :
    (inp.lruExists = true → inp.linkExists = false →
      traphOpen inp =
        ([], Except.error "File inconsistency: lru_trie.dat exists but not link_store.dat.")) ∧
    (inp.lruExists = false → inp.linkExists = true →
      traphOpen inp =
        ([], Except.error "File inconsistency: link_store.dat exists but not lru_trie.dat.")) ∧
    (inp.overwrite = false → inp.lruExists = true → inp.linkExists = true →
      inp.lruSize % LRU_TRIE_NODE_BLOCK_SIZE ≠ 0 →
      traphOpen inp =
        (["open lru_trie.dat", "open link_store.dat"],
          Except.error "corrupt store: file size is not a multiple of block size")) ∧
    (inp.overwrite = false → inp.lruExists = true → inp.linkExists = true →
      inp.lruSize % LRU_TRIE_NODE_BLOCK_SIZE = 0 →
      inp.linkSize % LINK_STORE_NODE_BLOCK_SIZE ≠ 0 →
      traphOpen inp =
        (["open lru_trie.dat", "open link_store.dat"],
          Except.error "corrupt store: file size is not a multiple of block size")) := by
  obtain ⟨ow, le, ke, ls, ks⟩ := inp
  refine ⟨fun h1 h2 => ?_, fun h1 h2 => ?_, fun h1 h2 h3 h4 => ?_,
    fun h1 h2 h3 h4 h5 => ?_⟩
  · subst h1; subst h2; rfl
  · subst h1; subst h2; rfl
  · subst h1; subst h2; subst h3
    simp only [traphOpen, fileStorageCheck]
    norm_num
    simp only [if_neg h4]
  · subst h1; subst h2; subst h3
    simp only [traphOpen, fileStorageCheck]
    norm_num
    simp only [if_pos h4, if_neg h5]

/-- Witness for claim C6 at concrete inputs: a folder holding only
lru_trie.dat; a folder holding both files with a trie file of 65 bytes (not
a multiple of the 32 byte block); and a folder holding both files with a
sound 64 byte trie file but a link file of 65 bytes. -/
theorem claim_C6_wit :
    traphOpen ⟨false, true, false, 64, 0⟩ =
      ([], Except.error "File inconsistency: lru_trie.dat exists but not link_store.dat.") ∧
    traphOpen ⟨false, true, true, 65, 64⟩ =
      (["open lru_trie.dat", "open link_store.dat"],
        Except.error "corrupt store: file size is not a multiple of block size") ∧
    traphOpen ⟨false, true, true, 64, 65⟩ =
      (["open lru_trie.dat", "open link_store.dat"],
        Except.error "corrupt store: file size is not a multiple of block size") :=
  ⟨(claim_C6 ⟨false, true, false, 64, 0⟩).1 rfl rfl,
   (claim_C6 ⟨false, true, true, 65, 64⟩).2.2.1 rfl rfl rfl (by decide),
   (claim_C6 ⟨false, true, true, 64, 65⟩).2.2.2 rfl rfl rfl (by decide) (by decide)⟩

/-- Claim C8: the depth-first iterator of lru_trie.py traverses the whole
trie from the root: on the store built by inserting ab and cd, it yields all
four nodes of both subtrees in pre-order. Its signature accepts no subtree
root and no lru argument, so the bounded traversal the claim describes does
not exist in lru_trie.py (traph.py nevertheless calls dfs_iter with a node
and a prefix, which cannot be accepted). -/
theorem claim_C8 :
    ((addLru emptyStore [97, 98]).bind fun r1 =>
      (addLru r1.store [99, 100]).map fun r2 => r2.store) = some exampleStore2 ∧
    dfsIter exampleStore2 20 =
      some [(1, [97]), (2, [97, 98]), (3, [99]), (4, [99, 100])] :=
  ⟨rfl, rfl⟩

/-- Specification of the candidate-selection fold of Traph.__add_page: the
accumulator length never shrinks, every candidate yielded by a triggered
rule is no longer than the selected result, and the result is the initial
accumulator or one of the candidates. -/
theorem longestCandidateGo_spec (t : TraphState) (lru : List Nat) :
    ∀ (ps : List (List Nat)) (acc best : List Nat),
      longestCandidateGo t lru acc ps = some best →
      acc.length ≤ best.length ∧
      (best = acc ∨ ∃ p ∈ ps, ∃ rule, t.rules.lookup p = some rule ∧ rule lru = some best) ∧
      (∀ p ∈ ps, ∀ rule c, t.rules.lookup p = some rule → rule lru = some c →
        c.length ≤ best.length)
  | [], acc, best, h => by
    simp only [longestCandidateGo, Option.some.injEq] at h
    subst h
    exact ⟨le_rfl, Or.inl rfl, by simp⟩
  | p :: ps, acc, best, h => by
    simp only [longestCandidateGo] at h
    cases hl : t.rules.lookup p with
    | none => rw [hl] at h; exact absurd h (by simp)
    | some rule =>
      simp only [hl] at h
      cases hr : rule lru with
      | none =>
        simp only [hr] at h
        obtain ⟨h1, h2, h3⟩ := longestCandidateGo_spec t lru ps acc best h
        refine ⟨h1, ?_, ?_⟩
        · rcases h2 with h2 | ⟨q, hq, rule2, hq2, hq3⟩
          · exact Or.inl h2
          · exact Or.inr ⟨q, List.mem_cons_of_mem _ hq, rule2, hq2, hq3⟩
        · intro q hq rule2 c hc1 hc2
          rcases List.mem_cons.mp hq with rfl | hq
          · rw [hl] at hc1
            cases hc1
            rw [hr] at hc2
            cases hc2
          · exact h3 q hq rule2 c hc1 hc2
      | some c0 =>
        simp only [hr] at h
        obtain ⟨h1, h2, h3⟩ := longestCandidateGo_spec t lru ps _ best h
        have hacc : acc.length ≤ best.length := by
          by_cases hcond : c0 ≠ [] ∧ acc.length < c0.length
          · rw [if_pos hcond] at h1
            exact le_trans (le_of_lt hcond.2) h1
          · rw [if_neg hcond] at h1
            exact h1
        have hc0 : c0.length ≤ best.length := by
          by_cases hcond : c0 ≠ [] ∧ acc.length < c0.length
          · rw [if_pos hcond] at h1
            exact h1
          · rw [if_neg hcond] at h1
            push_neg at hcond
            rcases Decidable.em (c0 = []) with hc | hc
            · subst hc
              exact Nat.zero_le _
            · exact le_trans (hcond hc) h1
        refine ⟨hacc, ?_, ?_⟩
        · rcases h2 with h2 | ⟨q, hq, rule2, hq2, hq3⟩
          · by_cases hcond : c0 ≠ [] ∧ acc.length < c0.length
            · rw [if_pos hcond] at h2
              exact Or.inr ⟨p, List.mem_cons_self p ps, rule, hl, by rw [h2]; exact hr⟩
            · rw [if_neg hcond] at h2
              exact Or.inl h2
          · exact Or.inr ⟨q, List.mem_cons_of_mem _ hq, rule2, hq2, hq3⟩
        · intro q hq rule2 c hc1 hc2
          rcases List.mem_cons.mp hq with rfl | hq
          · rw [hl] at hc1
            cases hc1
            rw [hr] at hc2
            cases hc2
            exact hc0
          · exact h3 q hq rule2 c hc1 hc2

/-- Claim C1: after the trie insertion of add_page, creation-rule resolution
selects, among the candidates produced by applying each triggered rule to
the full lru, the longest one (every candidate is bounded by the selection,
and the selection is one of them unless empty); and a non-empty selected
candidate whose length is at most webentity_position + 1 makes the internal
add_page return immediately: the trie is exactly the post-insertion store,
the webentity id counter is not advanced and the report carries no created
webentity. -/
theorem claim_C1 (t : TraphState) (x : List Nat) (r : AddResult) (cand : List Nat)
    (hadd : addPage t.trie x = some r)
    (hcand : longestCandidateGo { t with trie := r.store } x []
      r.history.rules_to_apply = some cand) :
    (∀ p ∈ r.history.rules_to_apply, ∀ rule c, t.rules.lookup p = some rule →
      rule x = some c → c.length ≤ cand.length) ∧
    (cand = [] ∨ ∃ p ∈ r.history.rules_to_apply, ∃ rule, t.rules.lookup p = some rule ∧
      rule x = some cand) ∧
    (cand ≠ [] → cand.length ≤ r.history.webentity_position + 1 →
      addPageT t x = some (r.node, emptyReport, { t with trie := r.store }) ∧
      ({ t with trie := r.store } : TraphState).lastWebentityId = t.lastWebentityId ∧
      emptyReport.created_webentities = []) := by
  obtain ⟨h1, h2, h3⟩ := longestCandidateGo_spec { t with trie := r.store } x
    r.history.rules_to_apply [] cand hcand
  refine ⟨fun p hp rule c hl hr => h3 p hp rule c hl hr, ?_, fun hne hle => ?_⟩
  · rcases h2 with h2 | h2
    · exact Or.inl h2
    · exact Or.inr h2
  · refine ⟨?_, rfl, rfl⟩
    unfold addPageT
    rw [hadd]
    simp only [hcand]
    rw [if_pos ⟨hne, hle⟩]

/-- Witness for claim C1: the concrete traph whose trie holds the path ab
with a webentity (id 5, recorded at walk position 0) and a creation rule on
the first node, whose rule pattern yields the candidate 97 of length 1; the
internal add_page of ab then returns with no webentity created. -/
theorem claim_C1_wit :
    ∃ (r : AddResult) (cand : List Nat),
      addPage exampleTraphC1.trie [97, 98] = some r ∧
      longestCandidateGo { exampleTraphC1 with trie := r.store } [97, 98] []
        r.history.rules_to_apply = some cand ∧
      cand ≠ [] ∧ cand.length ≤ r.history.webentity_position + 1 ∧
      (addPageT exampleTraphC1 [97, 98] =
        some (r.node, emptyReport, { exampleTraphC1 with trie := r.store }) ∧
      ({ exampleTraphC1 with trie := r.store } : TraphState).lastWebentityId =
        exampleTraphC1.lastWebentityId ∧
      emptyReport.created_webentities = []) := by
  refine ⟨_, _, rfl, rfl, by decide, by decide, ?_⟩
  exact (claim_C1 exampleTraphC1 [97, 98] _ _ rfl rfl).2.2 (by decide) (by decide)

/-- Lookup in an appended association list is the lookup in the first part
when that succeeds, and in the second part otherwise. -/
theorem lookup_append (l1 l2 : List (List Nat × NodeView)) (k : List Nat) :
    (l1 ++ l2).lookup k = (l1.lookup k).or (l2.lookup k) := by
  induction l1 with
  | nil => simp [List.lookup]
  | cons a l ih =>
    by_cases hk : k == a.1
    · simp [List.lookup, hk]
    · simp only [List.cons_append, List.lookup, hk]
      exact ih

/-- The page-cache guard of add_links keeps the invocation log duplicate
free, keeps every logged lru cached, and logs at most the handled lru. -/
theorem ensurePageCached_log (ll ll' : LinksLoop) (lru : List Nat)
    (h : ensurePageCached ll lru = some ll')
    (hlog : ∀ l ∈ ll.log, (ll.pages.lookup l).isSome = true)
    (hnd : ll.log.Nodup) :
    ll'.log.Nodup ∧ (∀ l ∈ ll'.log, (ll'.pages.lookup l).isSome = true) ∧
    (∀ l ∈ ll'.log, l ∈ ll.log ∨ l = lru) := by
  unfold ensurePageCached at h
  cases hp : ll.pages.lookup lru with
  | some v =>
    rw [hp] at h
    cases h
    exact ⟨hnd, hlog, fun l hl => Or.inl hl⟩
  | none =>
    rw [hp] at h
    cases ha : addPageT ll.state lru with
    | none => rw [ha] at h; cases h
    | some res =>
      obtain ⟨nv, rep, st⟩ := res
      rw [ha] at h
      cases h
      have hnot : lru ∉ ll.log := fun hmem => by
        have := hlog lru hmem
        rw [hp] at this
        cases this
      refine ⟨?_, ?_, ?_⟩
      · simp only [List.nodup_append, List.nodup_cons, List.nodup_nil]
        exact ⟨hnd, ⟨by simp, trivial⟩, by
          intro a ha1 ha2
          simp only [List.mem_singleton] at ha2
          exact hnot (ha2 ▸ ha1)⟩
      · intro l hl
        rcases List.mem_append.mp hl with hl | hl
        · rw [lookup_append]
          have := hlog l hl
          cases hc : ll.pages.lookup l with
          | none => rw [hc] at this; cases this
          | some v => simp [Option.or]
        · simp only [List.mem_singleton] at hl
          subst hl
          rw [lookup_append, hp]
          simp [List.lookup, Option.or]
      · intro l hl
        rcases List.mem_append.mp hl with hl | hl
        · exact Or.inl hl
        · simp only [List.mem_singleton] at hl
          exact Or.inr hl

/-- The pages loop of add_links keeps the invocation log duplicate free and
only logs lrus mentioned by the batch. -/
theorem addLinksLoop_log :
    ∀ (pairs : List (List Nat × List Nat)) (ll ll' : LinksLoop),
      addLinksLoop ll pairs = some ll' →
      (∀ l ∈ ll.log, (ll.pages.lookup l).isSome = true) → ll.log.Nodup →
      ll'.log.Nodup ∧ (∀ l ∈ ll'.log, (ll'.pages.lookup l).isSome = true) ∧
      (∀ l ∈ ll'.log, l ∈ ll.log ∨ ∃ q ∈ pairs, l = q.1 ∨ l = q.2)
  | [], ll, ll', h, hlog, hnd => by
    cases h
    exact ⟨hnd, hlog, fun l hl => Or.inl hl⟩
  | q0 :: rest, ll, ll', h, hlog, hnd => by
    obtain ⟨src, tgt⟩ := q0
    simp only [addLinksLoop] at h
    cases h1 : ensurePageCached ll src with
    | none => rw [h1] at h; cases h
    | some l1 =>
      simp only [h1] at h
      cases h2 : ensurePageCached l1 tgt with
      | none => simp only [h2] at h; cases h
      | some l2 =>
        simp only [h2] at h
        obtain ⟨hn1, hc1, hm1⟩ := ensurePageCached_log ll l1 src h1 hlog hnd
        obtain ⟨hn2, hc2, hm2⟩ := ensurePageCached_log l1 l2 tgt h2 hc1 hn1
        obtain ⟨hn3, hc3, hm3⟩ := addLinksLoop_log rest _ ll' h hc2 hn2
        refine ⟨hn3, hc3, fun l hl => ?_⟩
        rcases hm3 l hl with hl2 | ⟨q, hq, hq2⟩
        · rcases hm2 l hl2 with hl1 | hleq
          · rcases hm1 l hl1 with hl0 | hleq
            · exact Or.inl hl0
            · exact Or.inr ⟨(src, tgt), List.mem_cons_self _ _, Or.inl hleq⟩
          · exact Or.inr ⟨(src, tgt), List.mem_cons_self _ _, Or.inr hleq⟩
        · exact Or.inr ⟨q, List.mem_cons_of_mem _ hq, hq2⟩

/-- Claim C9: within a single add_links batch, the internal add_page is
invoked at most once per distinct lru (the invocation log has no duplicate),
and only on lrus appearing in the batch as source or target. -/
theorem claim_C9 (t : TraphState) (pairs : List (List Nat × List Nat))
    (rep : TraphWriteReport) (t' : TraphState) (log : List (List Nat))
    (h : addLinks t pairs = some (rep, t', log)) :
    log.Nodup ∧ ∀ l ∈ log, ∃ q ∈ pairs, l = q.1 ∨ l = q.2 := by
  unfold addLinks at h
  cases hl : addLinksLoop ⟨t, emptyReport, [], [], [], []⟩ pairs with
  | none => rw [hl] at h; cases h
  | some ll =>
    rw [hl] at h
    cases h
    obtain ⟨h1, _, h3⟩ := addLinksLoop_log pairs _ _ hl (by intro l hl2; cases hl2)
      List.nodup_nil
    refine ⟨h1, fun l hmem => ?_⟩
    rcases h3 l hmem with hc | hc
    · cases hc
    · exact hc

/-- Witness for claim C9: the batch with pairs (a, b), (a, b), (a, c) on a
fresh traph invokes the internal add_page exactly on a, b, c, once each. -/
theorem claim_C9_wit :
    ∃ (rep : TraphWriteReport) (t' : TraphState) (log : List (List Nat)),
      addLinks exampleTraphPlain [([97], [98]), ([97], [98]), ([97], [99])] =
        some (rep, t', log) ∧
      log.Nodup ∧
      ∀ l ∈ log, ∃ q ∈ [([97], [98]), ([97], [98]), ([97], [99])], l = q.1 ∨ l = q.2 := by
  have h : ∃ res, addLinks exampleTraphPlain [([97], [98]), ([97], [98]), ([97], [99])] =
      some res := ⟨_, rfl⟩
  obtain ⟨⟨rep, t', log⟩, h⟩ := h
  exact ⟨rep, t', log, h, claim_C9 _ _ _ _ _ h⟩

/-- A node view produced by a read is coherent with the store. -/
theorem viewOk_nodeRead (s : Store) (b : Nat) : ViewOk s (nodeRead s b) := by
  unfold nodeRead
  cases h : s[b]? with
  | none => exact ⟨fun b2 hb => (nomatch hb), fun _ => rfl⟩
  | some d =>
    refine ⟨fun b2 hb => ?_, fun hb => nomatch hb⟩
    cases hb
    exact h

/-- The view returned by a successful sibling scan match is coherent. -/
theorem scanGo_found_viewOk (s : Store) (c : Nat) :
    ∀ (f : Nat) (v w : NodeView), ViewOk s v → scanGo s c v f = some (.found w) →
      ViewOk s w
  | 0, v, w, hv, h => by cases h
  | f + 1, v, w, hv, h => by
    rw [scanGo] at h
    by_cases hc : v.data.char = c
    · rw [if_pos hc] at h
      cases h
      exact hv
    · rw [if_neg hc] at h
      by_cases hn : v.data.next ≠ 0
      · rw [if_pos hn] at h
        exact scanGo_found_viewOk s c f _ w (viewOk_nodeRead s v.data.next) h
      · rw [if_neg hn] at h
        cases h

/-- The view returned by a failed sibling scan (the chain tail) is
coherent. -/
theorem scanGo_last_viewOk (s : Store) (c : Nat) :
    ∀ (f : Nat) (v w : NodeView), ViewOk s v → scanGo s c v f = some (.last w) →
      ViewOk s w
  | 0, v, w, hv, h => by cases h
  | f + 1, v, w, hv, h => by
    rw [scanGo] at h
    by_cases hc : v.data.char = c
    · rw [if_pos hc] at h
      cases h
    · rw [if_neg hc] at h
      by_cases hn : v.data.next ≠ 0
      · rw [if_pos hn] at h
        exact scanGo_last_viewOk s c f _ w (viewOk_nodeRead s v.data.next) h
      · rw [if_neg hn] at h
        cases h
        exact hv

/-- Appending a record whose pointers are inside the grown store preserves
closedness. -/
theorem closed_append (s : Store) (d : NodeData) (hs : Closed s)
    (hd : d.next < s.length + 1 ∧ d.child < s.length + 1 ∧ d.parent < s.length + 1) :
    Closed (s ++ [d]) := by
  intro i di hi
  rw [List.length_append, List.length_singleton]
  rw [List.getElem?_append] at hi
  split at hi
  · obtain ⟨h1, h2, h3⟩ := hs i di hi
    exact ⟨Nat.lt_succ_of_lt h1, Nat.lt_succ_of_lt h2, Nat.lt_succ_of_lt h3⟩
  · rcases Nat.lt_or_ge (i - s.length) 1 with hlt | hge
    · interval_cases h : i - s.length
      · simp only [List.getElem?_cons_zero, Option.some.injEq] at hi
        subst hi
        exact hd
    · rw [List.getElem?_eq_none (by simpa using hge)] at hi
      cases hi

/-- Overwriting a block with a record whose pointers are inside the store
preserves closedness. -/
theorem closed_set (s : Store) (b : Nat) (d : NodeData) (hs : Closed s)
    (hd : d.next < s.length ∧ d.child < s.length ∧ d.parent < s.length) :
    Closed (s.set b d) := by
  intro i di hi
  rw [List.length_set]
  rw [List.getElem?_set] at hi
  split at hi
  · split at hi
    · cases hi
      exact hd
    · cases hi
  · exact hs i di hi

/-- The sibling-ensuring step writes no snapshot holding a dangling pointer:
starting from a closed store and a coherent view, the resulting store, the
returned view and every intermediate snapshot are closed. -/
theorem ensure_closed (s : Store) (v : NodeView) (c : Nat) (er : EnsureResult)
    (hs : Closed s) (hv : ViewOk s v) (h : ensureCharFromSiblings s v c = some er) :
    Closed er.store ∧ ViewOk er.store er.node ∧ s.length ≤ er.store.length ∧
    (∀ u ∈ er.snaps, Closed u) := by
  unfold ensureCharFromSiblings at h
  by_cases hex : v.exs = false
  · rw [if_pos hex] at h
    cases hb : v.block with
    | none =>
      simp only [nodeWrite, hb] at h
      cases h
      have hdef := hv.2 hb
      have hcl : Closed (s ++ [{ v.data with char := c }]) := by
        refine closed_append s _ hs ?_
        rw [hdef]
        exact ⟨Nat.succ_pos _, Nat.succ_pos _, Nat.succ_pos _⟩
      refine ⟨hcl, ⟨fun b2 hb2 => ?_, fun hb2 => nomatch hb2⟩, by simp, ?_⟩
      · cases hb2
        exact List.getElem?_concat_length s _
      · intro u hu
        simp only [List.mem_singleton] at hu
        subst hu
        exact hcl
    | some b =>
      simp only [nodeWrite, hb] at h
      cases h
      have hrec := hv.1 b hb
      have hlt : b < s.length := (List.getElem?_eq_some.mp hrec).1
      obtain ⟨h1, h2, h3⟩ := hs b _ hrec
      have hcl : Closed (s.set b { v.data with char := c }) :=
        closed_set s b _ hs ⟨h1, h2, h3⟩
      refine ⟨hcl, ⟨fun b2 hb2 => ?_, fun hb2 => nomatch hb2⟩, by simp, ?_⟩
      · cases hb2
        exact List.getElem?_set_self hlt
      · intro u hu
        simp only [List.mem_singleton] at hu
        subst hu
        exact hcl
  · rw [if_neg hex] at h
    cases hscan : scanGo s c v (s.length + 1) with
    | none => rw [hscan] at h; cases h
    | some res =>
      rw [hscan] at h
      cases res with
      | found w =>
        cases h
        exact ⟨hs, scanGo_found_viewOk s c _ v w hv hscan, le_rfl, fun u hu => by cases hu⟩
      | last w =>
        have hw := scanGo_last_viewOk s c _ v w hv hscan
        have hpar : w.data.parent < s.length + 1 := by
          cases hwb : w.block with
          | none => rw [hw.2 hwb]; exact Nat.succ_pos _
          | some t =>
            have := (hs t _ (hw.1 t hwb)).2.2
            exact Nat.lt_succ_of_lt this
        simp only [nodeWrite] at h
        have hs1 : Closed (s ++ [{ defaultNode c with parent := w.data.parent }]) :=
          closed_append s _ hs ⟨Nat.succ_pos _, Nat.succ_pos _, hpar⟩
        cases hwb : w.block with
        | none =>
          rw [hwb] at h
          simp only at h
          cases h
          have hdef := hw.2 hwb
          have hcl2 : Closed ((s ++ [{ defaultNode c with parent := w.data.parent }]) ++
              [{ w.data with next := s.length }]) := by
            refine closed_append _ _ hs1 ?_
            rw [List.length_append, List.length_singleton, hdef]
            refine ⟨?_, ?_, ?_⟩
            · show s.length < s.length + 1 + 1
              omega
            · show (0 : Nat) < s.length + 1 + 1
              omega
            · show (0 : Nat) < s.length + 1 + 1
              omega
          refine ⟨hcl2, ⟨fun b2 hb2 => ?_, fun hb2 => nomatch hb2⟩, by simp, ?_⟩
          · cases hb2
            rw [List.getElem?_append, if_pos (by simp)]
            exact List.getElem?_concat_length s _
          · intro u hu
            simp only [List.mem_cons, List.mem_singleton, List.not_mem_nil, or_false] at hu
            rcases hu with hu | hu
            · subst hu; exact hs1
            · subst hu; exact hcl2
        | some t =>
          rw [hwb] at h
          simp only at h
          cases h
          have hrec := hw.1 t hwb
          have hlt : t < s.length := (List.getElem?_eq_some.mp hrec).1
          obtain ⟨hn1, hn2, hn3⟩ := hs t _ hrec
          have hcl2 : Closed ((s ++ [{ defaultNode c with parent := w.data.parent }]).set t
              { w.data with next := s.length }) := by
            refine closed_set _ t _ hs1 ?_
            rw [List.length_append, List.length_singleton]
            refine ⟨?_, ?_, ?_⟩
            · show s.length < s.length + 1
              omega
            · show w.data.child < s.length + 1
              omega
            · show w.data.parent < s.length + 1
              omega
          refine ⟨hcl2, ⟨fun b2 hb2 => ?_, fun hb2 => nomatch hb2⟩, by simp, ?_⟩
          · cases hb2
            rw [List.getElem?_set_ne (by omega)]
            exact List.getElem?_concat_length s _
          · intro u hu
            simp only [List.mem_cons, List.mem_singleton, List.not_mem_nil, or_false] at hu
            rcases hu with hu | hu
            · subst hu; exact hs1
            · subst hu; exact hcl2

/-- The tail-extension loop writes no snapshot holding a dangling pointer:
each new child is appended before the pointer to it is written. -/
theorem addLruTail_closed :
    ∀ (cs : List Nat) (s : Store) (v : NodeView) (snaps : List Store)
      (n : NodeView) (s2 : Store) (sn2 : List Store),
      Closed s → ViewOk s v → (∀ u ∈ snaps, Closed u) →
      addLruTail s v snaps cs = (n, s2, sn2) →
      Closed s2 ∧ ViewOk s2 n ∧ (∀ u ∈ sn2, Closed u)
  | [], s, v, snaps, n, s2, sn2, hs, hv, hsn, h => by
    cases h
    exact ⟨hs, hv, hsn⟩
  | c :: cs, s, v, snaps, n, s2, sn2, hs, hv, hsn, h => by
    rw [addLruTail] at h
    cases hvb : v.block with
    | none =>
      have hdef := hv.2 hvb
      simp only [nodeWrite, hvb] at h
      have hs1 : Closed (s ++ [{ defaultNode c with parent := (none : Option Nat).getD 0 }]) := by
        refine closed_append s _ hs ?_
        exact ⟨Nat.succ_pos _, Nat.succ_pos _, Nat.succ_pos _⟩
      have hs2 : Closed ((s ++ [{ defaultNode c with parent := (none : Option Nat).getD 0 }]) ++
          [{ v.data with child := s.length }]) := by
        refine closed_append _ _ hs1 ?_
        rw [List.length_append, List.length_singleton, hdef]
        refine ⟨?_, ?_, ?_⟩
        · show (0 : Nat) < s.length + 1 + 1
          omega
        · show s.length < s.length + 1 + 1
          omega
        · show (0 : Nat) < s.length + 1 + 1
          omega
      refine addLruTail_closed cs _ _ _ n s2 sn2 hs2 ?_ ?_ h
      · refine ⟨fun b2 hb2 => ?_, fun hb2 => (nomatch hb2)⟩
        cases hb2
        rw [List.getElem?_append, if_pos (by simp)]
        exact List.getElem?_concat_length s _
      · intro u hu
        rcases List.mem_append.mp hu with hu | hu
        · exact hsn u hu
        · simp only [List.mem_cons, List.mem_singleton, List.not_mem_nil, or_false] at hu
          rcases hu with hu | hu
          · subst hu; exact hs1
          · subst hu; exact hs2
    | some vb =>
      have hrec := hv.1 vb hvb
      have hlt : vb < s.length := (List.getElem?_eq_some.mp hrec).1
      obtain ⟨hb1, hb2, hb3⟩ := hs vb _ hrec
      simp only [nodeWrite, hvb] at h
      have hs1 : Closed (s ++ [{ defaultNode c with parent := (some vb).getD 0 }]) := by
        refine closed_append s _ hs ?_
        refine ⟨Nat.succ_pos _, Nat.succ_pos _, ?_⟩
        show vb < s.length + 1
        omega
      have hs2 : Closed ((s ++ [{ defaultNode c with parent := (some vb).getD 0 }]).set vb
          { v.data with child := s.length }) := by
        refine closed_set _ vb _ hs1 ?_
        rw [List.length_append, List.length_singleton]
        refine ⟨?_, ?_, ?_⟩
        · show v.data.next < s.length + 1
          omega
        · show s.length < s.length + 1
          omega
        · show v.data.parent < s.length + 1
          omega
      refine addLruTail_closed cs _ _ _ n s2 sn2 hs2 ?_ ?_ h
      · refine ⟨fun b2 hb0 => ?_, fun hb0 => (nomatch hb0)⟩
        cases hb0
        rw [List.getElem?_set_ne (by omega)]
        exact List.getElem?_concat_length s _
      · intro u hu
        rcases List.mem_append.mp hu with hu | hu
        · exact hsn u hu
        · simp only [List.mem_cons, List.mem_singleton, List.not_mem_nil, or_false] at hu
          rcases hu with hu | hu
          · subst hu; exact hs1
          · subst hu; exact hs2

/-- The descent loop of add_lru writes no snapshot holding a dangling
pointer. -/
theorem addLruGo_closed :
    ∀ (x : List Nat) (s : Store) (v : NodeView) (pre : List Nat) (h0 : WalkHistory)
      (snaps : List Store) (r : AddResult),
      Closed s → ViewOk s v → (∀ u ∈ snaps, Closed u) →
      addLruGo s v pre h0 snaps x = some r →
      Closed r.store ∧ ViewOk r.store r.node ∧ (∀ u ∈ r.snaps, Closed u)
  | [], s, v, pre, h0, snaps, r, hs, hv, hsn, h => by
    cases h
    exact ⟨hs, hv, hsn⟩
  | c :: cs, s, v, pre, h0, snaps, r, hs, hv, hsn, h => by
    simp only [addLruGo] at h
    cases he : ensureCharFromSiblings s v c with
    | none => rw [he] at h; cases h
    | some er =>
      simp only [he] at h
      obtain ⟨h1, h2, h3, h4⟩ := ensure_closed s v c er hs hv he
      have hsn1 : ∀ u ∈ snaps ++ er.snaps, Closed u := by
        intro u hu
        rcases List.mem_append.mp hu with hu | hu
        · exact hsn u hu
        · exact h4 u hu
      cases cs with
      | nil =>
        cases h
        exact ⟨h1, h2, hsn1⟩
      | cons c2 cs2 =>
        by_cases hch : er.node.data.child ≠ 0
        · rw [if_pos hch] at h
          exact addLruGo_closed (c2 :: cs2) er.store _ _ _ _ r h1
            (viewOk_nodeRead _ _) hsn1 h
        · rw [if_neg hch] at h
          rcases htail : addLruTail er.store er.node (snaps ++ er.snaps) (c2 :: cs2)
            with ⟨n2, s2, sn2⟩
          rw [htail] at h
          cases h
          exact addLruTail_closed (c2 :: cs2) er.store er.node _ n2 s2 sn2 h1 h2 hsn1 htail

/-- Claim C5: within a single add_page (hence within its add_lru), the
sequence of storage writes is ordered new-node-first: after every single
write, every stored next, child and parent pointer lies inside the store at
that moment, so no snapshot ever holds a pointer to an unwritten block. -/
theorem claim_C5 (s : Store) (x : List Nat) (r : AddResult)
    (hs : Closed s) (h : addPage s x = some r) :
    (∀ u ∈ r.snaps, Closed u) ∧ Closed r.store := by
  unfold addPage at h
  cases ha : addLru s x with
  | none => rw [ha] at h; cases h
  | some r0 =>
    simp only [ha] at h
    obtain ⟨h1, h2, h3⟩ := addLruGo_closed x s (rootRead s) [] initHistory [] r0 hs
      (viewOk_nodeRead _ _) (by intro u hu; cases hu) ha
    by_cases hp : testFlag r0.node.data.flags FLAG_PAGE = false
    · rw [if_pos hp] at h
      cases hvb : r0.node.block with
      | none =>
        have hdef := h2.2 hvb
        simp only [nodeWrite, hvb] at h
        cases h
        have hcl : Closed (r0.store ++
            [{ r0.node.data with flags := setFlag r0.node.data.flags FLAG_PAGE }]) := by
          refine closed_append _ _ h1 ?_
          rw [hdef]
          exact ⟨Nat.succ_pos _, Nat.succ_pos _, Nat.succ_pos _⟩
        refine ⟨?_, hcl⟩
        intro u hu
        rcases List.mem_append.mp hu with hu | hu
        · exact h3 u hu
        · simp only [List.mem_singleton] at hu
          subst hu
          exact hcl
      | some b =>
        have hrec := h2.1 b hvb
        obtain ⟨hb1, hb2, hb3⟩ := h1 b _ hrec
        simp only [nodeWrite, hvb] at h
        cases h
        have hcl : Closed (r0.store.set b
            { r0.node.data with flags := setFlag r0.node.data.flags FLAG_PAGE }) := by
          refine closed_set _ b _ h1 ?_
          exact ⟨hb1, hb2, hb3⟩
        refine ⟨?_, hcl⟩
        intro u hu
        rcases List.mem_append.mp hu with hu | hu
        · exact h3 u hu
        · simp only [List.mem_singleton] at hu
          subst hu
          exact hcl
    · rw [if_neg hp] at h
      cases h
      exact ⟨h3, h1⟩

/-- Witness for claim C5: the fresh store is closed, and adding the page ab
to it keeps every write snapshot closed. -/
theorem claim_C5_wit :
    Closed emptyStore ∧
    ∃ r, addPage emptyStore [97, 98] = some r ∧
      ((∀ u ∈ r.snaps, Closed u) ∧ Closed r.store) := by
  have hc : Closed emptyStore := by
    intro i d hi
    cases i with
    | zero =>
      cases hi
      exact ⟨Nat.one_pos, Nat.one_pos, Nat.one_pos⟩
    | succ m =>
      rw [List.getElem?_eq_none (by simp [emptyStore])] at hi
      cases hi
  exact ⟨hc, _, rfl, claim_C5 emptyStore [97, 98] _ hc rfl⟩

/-- Fuel monotonicity of the sibling scan. -/
theorem scanGo_mono (s : Store) (c : Nat) :
    ∀ (f : Nat) (v : NodeView) (r : ScanResult),
      scanGo s c v f = some r → ∀ f2, f ≤ f2 → scanGo s c v f2 = some r
  | 0, v, r, h, f2, hf => by cases h
  | f + 1, v, r, h, f2, hf => by
    obtain ⟨f3, rfl⟩ : ∃ f3, f2 = f3 + 1 := ⟨f2 - 1, by omega⟩
    rw [scanGo] at h ⊢
    by_cases hc : v.data.char = c
    · rw [if_pos hc] at h ⊢
      exact h
    · rw [if_neg hc] at h ⊢
      by_cases hn : v.data.next ≠ 0
      · rw [if_pos hn] at h ⊢
        exact scanGo_mono s c f _ r h f3 (by omega)
      · rw [if_neg hn] at h ⊢
        exact h

/-- A read of an in-bounds block yields a real view. -/
theorem realView_nodeRead (s : Store) (b : Nat) (hb : b < s.length) :
    RealView s (nodeRead s b) := by
  cases hd : s[b]? with
  | none =>
    rw [List.getElem?_eq_none_iff] at hd
    omega
  | some d => exact ⟨b, by rw [nodeRead, hd], by rw [nodeRead, hd], by rw [nodeRead, hd]⟩

/-- Under the invariant, a scan started on a real view matches a real
view. -/
theorem scan_found_real (s : Store) (c : Nat) (hInv : Inv s) :
    ∀ (f : Nat) (v w : NodeView), RealView s v →
      scanGo s c v f = some (.found w) → RealView s w
  | 0, v, w, hv, h => by cases h
  | f + 1, v, w, hv, h => by
    rw [scanGo] at h
    by_cases hc : v.data.char = c
    · rw [if_pos hc] at h
      cases h
      exact hv
    · rw [if_neg hc] at h
      by_cases hn : v.data.next ≠ 0
      · rw [if_pos hn] at h
        obtain ⟨b, hb, hbd, hex⟩ := hv
        have hlt := hInv.next_prog b v.data hbd
        rcases hlt with hz | ⟨h1, h2⟩
        · exact absurd hz hn
        · exact scan_found_real s c hInv f _ w (realView_nodeRead s v.data.next h2) h
      · rw [if_neg hn] at h
        cases h

/-- Under the invariant, a failed scan started on a real view ends on a
real chain tail: next 0 and character different from the sought one. -/
theorem scan_last_real (s : Store) (c : Nat) (hInv : Inv s) :
    ∀ (f : Nat) (v w : NodeView), RealView s v →
      scanGo s c v f = some (.last w) →
      RealView s w ∧ w.data.next = 0 ∧ w.data.char ≠ c
  | 0, v, w, hv, h => by cases h
  | f + 1, v, w, hv, h => by
    rw [scanGo] at h
    by_cases hc : v.data.char = c
    · rw [if_pos hc] at h
      cases h
    · rw [if_neg hc] at h
      by_cases hn : v.data.next ≠ 0
      · rw [if_pos hn] at h
        obtain ⟨b, hb, hbd, hex⟩ := hv
        have hlt := hInv.next_prog b v.data hbd
        rcases hlt with hz | ⟨h1, h2⟩
        · exact absurd hz hn
        · exact scan_last_real s c hInv f _ w (realView_nodeRead s v.data.next h2) h
      · rw [if_neg hn] at h
        cases h
        push_neg at hn
        exact ⟨hv, hn, hc⟩

/-- A failed scan ends on a view whose next pointer is 0. -/
theorem scan_last_next_zero (s : Store) (c : Nat) :
    ∀ (f : Nat) (v w : NodeView), scanGo s c v f = some (.last w) → w.data.next = 0
  | 0, v, w, h => by cases h
  | f + 1, v, w, h => by
    rw [scanGo] at h
    by_cases hc : v.data.char = c
    · rw [if_pos hc] at h
      cases h
    · rw [if_neg hc] at h
      by_cases hn : v.data.next ≠ 0
      · rw [if_pos hn] at h
        exact scan_last_next_zero s c f _ w h
      · rw [if_neg hn] at h
        cases h
        push_neg at hn
        exact hn

/-- After appending a sibling carrying the sought character and rewiring
the old chain tail to it, the scan that previously failed finds the new
sibling. -/
theorem scan_after_append (s : Store) (c : Nat) :
    ∀ (f : Nat) (b t : Nat) (wd sd : NodeData),
      scanGo s c (nodeRead s b) f = some (.last ⟨some t, true, wd⟩) →
      s[t]? = some wd →
      sd.char = c →
      scanGo ((s ++ [sd]).set t { wd with next := s.length }) c
        (nodeRead ((s ++ [sd]).set t { wd with next := s.length }) b) (f + 1) =
        some (.found ⟨some s.length, true, sd⟩)
  | 0, b, t, wd, sd, h, ht, hsd => by cases h
  | f + 1, b, t, wd, sd, h, ht, hsd => by
    have hts : t < s.length := (List.getElem?_eq_some.mp ht).1
    rw [scanGo] at h
    cases hb : s[b]? with
    | none =>
      rw [show nodeRead s b = ⟨none, false, defaultNode 0⟩ from by rw [nodeRead, hb]] at h
      by_cases hc : (defaultNode 0).char = c
      · rw [if_pos hc] at h
        cases h
      · rw [if_neg hc] at h
        rw [if_neg (by simp [defaultNode])] at h
        cases h
    | some d =>
      have hbs : b < s.length := (List.getElem?_eq_some.mp hb).1
      rw [show nodeRead s b = ⟨some b, true, d⟩ from by rw [nodeRead, hb]] at h
      by_cases hc : d.char = c
      · rw [if_pos (by exact hc)] at h
        cases h
      · rw [if_neg (by exact hc)] at h
        by_cases hn : d.next ≠ 0
        · rw [if_pos (by exact hn)] at h
          have hbt : b ≠ t := by
            intro hbeq
            have hdw : wd = d := by
              rw [hbeq] at hb
              rw [hb] at ht
              exact (Option.some.inj ht).symm
            have hz := scan_last_next_zero s c f (nodeRead s d.next) _ h
            rw [hdw] at hz
            exact hn hz
          have hb2 : ((s ++ [sd]).set t { wd with next := s.length })[b]? = some d := by
            rw [List.getElem?_set_ne (fun hx => hbt hx.symm)]
            rw [List.getElem?_append, if_pos (by omega)]
            exact hb
          rw [scanGo]
          rw [show nodeRead ((s ++ [sd]).set t { wd with next := s.length }) b =
            ⟨some b, true, d⟩ from by rw [nodeRead, hb2]]
          rw [if_neg (by exact hc), if_pos (by exact hn)]
          exact scan_after_append s c f d.next t wd sd h ht hsd
        · rw [if_neg (by exact hn)] at h
          push_neg at hn
          injection h with h1
          injection h1 with h2
          injection h2 with hblock hexs hdata
          injection hblock with hbt
          subst hbt
          subst hdata
          have hb2 : ((s ++ [sd]).set b { d with next := s.length })[b]? =
              some { d with next := s.length } :=
            List.getElem?_set_self (by rw [List.length_append]; omega)
          rw [scanGo]
          rw [show nodeRead ((s ++ [sd]).set b { d with next := s.length }) b =
            ⟨some b, true, { d with next := s.length }⟩ from by rw [nodeRead, hb2]]
          rw [if_neg (show ¬ ({ d with next := s.length } : NodeData).char = c from hc)]
          rw [if_pos (show ¬ ({ d with next := s.length } : NodeData).next = 0 from by
            show ¬ s.length = 0
            omega)]
          have hb3 : ((s ++ [sd]).set b { d with next := s.length })[s.length]? = some sd := by
            rw [List.getElem?_set_ne (by omega)]
            exact List.getElem?_concat_length s sd
          rw [scanGo]
          rw [show nodeRead ((s ++ [sd]).set b { d with next := s.length }) s.length =
            ⟨some s.length, true, sd⟩ from by rw [nodeRead, hb3]]
          rw [if_pos (by exact hsd)]

/-- Extends is reflexive. -/
theorem extends_refl (s : Store) : Extends s s := by
  refine ⟨le_rfl, fun i di di2 h1 h2 => ?_⟩
  rw [h1] at h2
  cases h2
  exact ⟨rfl, rfl, rfl, rfl, Or.inl rfl, Or.inl rfl⟩

/-- Extends is transitive. -/
theorem extends_trans {s1 s2 s3 : Store} (h12 : Extends s1 s2) (h23 : Extends s2 s3) :
    Extends s1 s3 := by
  refine ⟨le_trans h12.1 h23.1, fun i di di3 h1 h3 => ?_⟩
  have hi : i < s2.length := lt_of_lt_of_le (List.getElem?_eq_some.mp h1).1 h12.1
  cases h2 : s2[i]? with
  | none =>
    rw [List.getElem?_eq_none_iff] at h2
    omega
  | some di2 =>
    obtain ⟨a1, a2, a3, a4, a5, a6⟩ := h12.2 i di di2 h1 h2
    obtain ⟨b1, b2, b3, b4, b5, b6⟩ := h23.2 i di2 di3 h2 h3
    refine ⟨b1.trans a1, b2.trans a2, b3.trans a3, b4.trans a4, ?_, ?_⟩
    · rcases a5 with a5 | ⟨a5, a5b⟩
      · rcases b5 with b5 | ⟨b5, b5b⟩
        · exact Or.inl (b5.trans a5)
        · rw [a5] at b5
          exact Or.inr ⟨b5, le_trans h12.1 b5b⟩
      · rcases b5 with b5 | ⟨b5, b5b⟩
        · rw [b5]
          exact Or.inr ⟨a5, a5b⟩
        · exact Or.inr ⟨a5, le_trans h12.1 b5b⟩
    · rcases a6 with a6 | ⟨a6, a6b⟩
      · rcases b6 with b6 | ⟨b6, b6b⟩
        · exact Or.inl (b6.trans a6)
        · rw [a6] at b6
          exact Or.inr ⟨b6, le_trans h12.1 b6b⟩
      · rcases b6 with b6 | ⟨b6, b6b⟩
        · rw [b6]
          exact Or.inr ⟨a6, a6b⟩
        · exact Or.inr ⟨a6, le_trans h12.1 b6b⟩

/-- Extends implies the weaker growth relation. -/
theorem grows_of_extends {s s2 : Store} (h : Extends s s2) : Grows s s2 := by
  refine ⟨h.1, fun i di di2 h1 h2 => ?_⟩
  obtain ⟨a1, a2, a3, a4, a5, a6⟩ := h.2 i di di2 h1 h2
  refine ⟨a1, a2, ?_, ?_, by rw [a3], fun hw => by rw [a3]; exact hw, fun hw => Or.inl a4⟩
  · rcases a5 with a5 | ⟨a5, _⟩
    · exact Or.inl a5
    · exact Or.inr a5
  · rcases a6 with a6 | ⟨a6, _⟩
    · exact Or.inl a6
    · exact Or.inr a6

/-- Grows is reflexive. -/
theorem grows_refl (s : Store) : Grows s s := grows_of_extends (extends_refl s)

/-- Grows is transitive. -/
theorem grows_trans {s1 s2 s3 : Store} (h12 : Grows s1 s2) (h23 : Grows s2 s3) :
    Grows s1 s3 := by
  refine ⟨le_trans h12.1 h23.1, fun i di di3 h1 h3 => ?_⟩
  have hi : i < s2.length := lt_of_lt_of_le (List.getElem?_eq_some.mp h1).1 h12.1
  cases h2 : s2[i]? with
  | none =>
    rw [List.getElem?_eq_none_iff] at h2
    omega
  | some di2 =>
    obtain ⟨a1, a2, a3, a4, a5, a6, a7⟩ := h12.2 i di di2 h1 h2
    obtain ⟨b1, b2, b3, b4, b5, b6, b7⟩ := h23.2 i di2 di3 h2 h3
    refine ⟨b1.trans a1, b2.trans a2, ?_, ?_, b5.trans a5, fun hw => b6 (a6 hw), ?_⟩
    · rcases a3 with a3 | a3
      · rcases b3 with b3 | b3
        · exact Or.inl (b3.trans a3)
        · rw [a3] at b3
          exact Or.inr b3
      · exact Or.inr a3
    · rcases a4 with a4 | a4
      · rcases b4 with b4 | b4
        · exact Or.inl (b4.trans a4)
        · rw [a4] at b4
          exact Or.inr b4
      · exact Or.inr a4
    · intro hw
      rcases a7 hw with a7e | a7w
      · rcases b7 (a6 hw) with b7e | b7w
        · exact Or.inl (b7e.trans a7e)
        · exact Or.inr b7w
      · exact Or.inr (b6 a7w)

/-- Scan stability under growth: a match found in a store is found at the
same block in any store it grows into. -/
theorem scan_grows (s s2 : Store) (c : Nat) (hg : Grows s s2) :
    ∀ (f : Nat) (b wb : Nat) (wd : NodeData),
      scanGo s c (nodeRead s b) f = some (.found ⟨some wb, true, wd⟩) →
      ∃ wd2 : NodeData, s2[wb]? = some wd2 ∧
        scanGo s2 c (nodeRead s2 b) f = some (.found ⟨some wb, true, wd2⟩)
  | 0, b, wb, wd, h => by cases h
  | f + 1, b, wb, wd, h => by
    rw [scanGo] at h
    cases hb : s[b]? with
    | none =>
      rw [show nodeRead s b = ⟨none, false, defaultNode 0⟩ from by rw [nodeRead, hb]] at h
      by_cases hc : (defaultNode 0).char = c
      · rw [if_pos hc] at h
        injection h with h1
        injection h1 with h2
        injection h2 with hblock
        cases hblock
      · rw [if_neg hc] at h
        rw [if_neg (by simp [defaultNode])] at h
        cases h
    | some d =>
      have hbs : b < s.length := (List.getElem?_eq_some.mp hb).1
      have hbs2 : b < s2.length := lt_of_lt_of_le hbs hg.1
      cases hd2 : s2[b]? with
      | none =>
        rw [List.getElem?_eq_none_iff] at hd2
        omega
      | some d2 =>
        obtain ⟨hchar, hpar, hnext, hchild, hrule, hweb, hweid⟩ := hg.2 b d d2 hb hd2
        rw [show nodeRead s b = ⟨some b, true, d⟩ from by rw [nodeRead, hb]] at h
        by_cases hc : d.char = c
        · rw [if_pos (by exact hc)] at h
          injection h with h1
          injection h1 with h2
          injection h2 with hblock hexs hdata
          injection hblock with hwbeq
          subst hwbeq
          subst hdata
          refine ⟨d2, hd2, ?_⟩
          rw [scanGo]
          rw [show nodeRead s2 b = ⟨some b, true, d2⟩ from by rw [nodeRead, hd2]]
          rw [if_pos (show d2.char = c from by rw [hchar]; exact hc)]
        · rw [if_neg (by exact hc)] at h
          by_cases hn : d.next ≠ 0
          · rw [if_pos (by exact hn)] at h
            obtain ⟨wd2, hw1, hw2⟩ := scan_grows s s2 c hg f d.next wb wd h
            refine ⟨wd2, hw1, ?_⟩
            rw [scanGo]
            rw [show nodeRead s2 b = ⟨some b, true, d2⟩ from by rw [nodeRead, hd2]]
            rw [if_neg (show ¬ d2.char = c from by rw [hchar]; exact hc)]
            have hnn : d2.next = d.next := by
              rcases hnext with hx | hx
              · exact hx
              · exact absurd hx hn
            rw [if_pos (show ¬ d2.next = 0 from by rw [hnn]; exact hn)]
            rw [hnn]
            exact hw2
          · rw [if_neg (by exact hn)] at h
            cases h

/-- Case split for a lookup in an appended store. -/
theorem append_elem_cases (s : Store) (d : NodeData) (i : Nat) (di : NodeData)
    (h : (s ++ [d])[i]? = some di) :
    (i < s.length ∧ s[i]? = some di) ∨ (i = s.length ∧ di = d) := by
  rw [List.getElem?_append] at h
  split at h
  · exact Or.inl ⟨by omega, h⟩
  · have hile : s.length ≤ i := by omega
    rcases Nat.lt_or_ge (i - s.length) 1 with hlt | hge
    · have hieq : i = s.length := by omega
      subst hieq
      simp only [Nat.sub_self, List.getElem?_cons_zero, Option.some.injEq] at h
      exact Or.inr ⟨rfl, h.symm⟩
    · rw [List.getElem?_eq_none (by simpa using hge)] at h
      cases h

/-- Case split for a lookup in a store appended then overwritten at an old
block. -/
theorem set_append_elem_cases (s : Store) (sd : NodeData) (t : Nat) (nd : NodeData)
    (ht : t < s.length) (i : Nat) (di : NodeData)
    (h : ((s ++ [sd]).set t nd)[i]? = some di) :
    (i = t ∧ di = nd) ∨ (i ≠ t ∧ i < s.length ∧ s[i]? = some di) ∨
      (i = s.length ∧ di = sd) := by
  by_cases hit : i = t
  · subst hit
    rw [List.getElem?_set_self (by rw [List.length_append]; omega)] at h
    cases h
    exact Or.inl ⟨rfl, rfl⟩
  · rw [List.getElem?_set_ne (fun hx => hit hx.symm)] at h
    rcases append_elem_cases s sd i di h with ⟨h1, h2⟩ | ⟨h1, h2⟩
    · exact Or.inr (Or.inl ⟨hit, h1, h2⟩)
    · exact Or.inr (Or.inr ⟨h1, h2⟩)

/-- Appending a block extends a store. -/
theorem extends_append (s : Store) (d : NodeData) : Extends s (s ++ [d]) := by
  refine ⟨by simp, fun i di di2 h1 h2 => ?_⟩
  have hi : i < s.length := (List.getElem?_eq_some.mp h1).1
  rw [List.getElem?_append, if_pos hi, h1] at h2
  cases h2
  exact ⟨rfl, rfl, rfl, rfl, Or.inl rfl, Or.inl rfl⟩

/-- Appending a sibling and rewiring the old chain tail extends a store. -/
theorem extends_sib (s : Store) (sd : NodeData) (t : Nat) (wd : NodeData)
    (ht : s[t]? = some wd) (hz : wd.next = 0) :
    Extends s ((s ++ [sd]).set t { wd with next := s.length }) := by
  have hts : t < s.length := (List.getElem?_eq_some.mp ht).1
  refine ⟨by rw [List.length_set, List.length_append]; omega, fun i di di2 h1 h2 => ?_⟩
  have hi : i < s.length := (List.getElem?_eq_some.mp h1).1
  by_cases hit : i = t
  · subst hit
    rw [List.getElem?_set_self (by rw [List.length_append]; omega)] at h2
    cases h2
    rw [ht] at h1
    cases h1
    exact ⟨rfl, rfl, rfl, rfl, Or.inr ⟨hz, le_rfl⟩, Or.inl rfl⟩
  · rw [List.getElem?_set_ne (fun hx => hit hx.symm), List.getElem?_append, if_pos hi, h1] at h2
    cases h2
    exact ⟨rfl, rfl, rfl, rfl, Or.inl rfl, Or.inl rfl⟩

/-- Appending a child and setting the parent child pointer extends a
store. -/
theorem extends_child (s : Store) (cd : NodeData) (vb : Nat) (dv : NodeData)
    (hv : s[vb]? = some dv) (hz : dv.child = 0) :
    Extends s ((s ++ [cd]).set vb { dv with child := s.length }) := by
  have hvs : vb < s.length := (List.getElem?_eq_some.mp hv).1
  refine ⟨by rw [List.length_set, List.length_append]; omega, fun i di di2 h1 h2 => ?_⟩
  have hi : i < s.length := (List.getElem?_eq_some.mp h1).1
  by_cases hit : i = vb
  · subst hit
    rw [List.getElem?_set_self (by rw [List.length_append]; omega)] at h2
    cases h2
    rw [hv] at h1
    cases h1
    exact ⟨rfl, rfl, rfl, rfl, Or.inl rfl, Or.inr ⟨hz, le_rfl⟩⟩
  · rw [List.getElem?_set_ne (fun hx => hit hx.symm), List.getElem?_append, if_pos hi, h1] at h2
    cases h2
    exact ⟨rfl, rfl, rfl, rfl, Or.inl rfl, Or.inl rfl⟩

/-- The invariant survives appending a block holding no pointers and a
backward parent. -/
theorem inv_append (s : Store) (d : NodeData) (hInv : Inv s)
    (hn : d.next = 0) (hc : d.child = 0) (hp : d.parent ≤ s.length) :
    Inv (s ++ [d]) := by
  have hlen : (s ++ [d]).length = s.length + 1 := by simp
  refine ⟨?_, ?_, ?_, ?_, ?_, ?_, ?_, ?_, ?_⟩
  · rw [hlen]
    have := hInv.nonempty
    omega
  · intro d0 h0
    rcases append_elem_cases s d 0 d0 h0 with ⟨h1, h2⟩ | ⟨h1, h2⟩
    · exact hInv.header_next d0 h2
    · have := hInv.nonempty
      omega
  · intro d0 h0
    rcases append_elem_cases s d 0 d0 h0 with ⟨h1, h2⟩ | ⟨h1, h2⟩
    · exact hInv.header_child d0 h2
    · have := hInv.nonempty
      omega
  · intro i di hi
    rw [hlen]
    rcases append_elem_cases s d i di hi with ⟨h1, h2⟩ | ⟨h1, h2⟩
    · rcases hInv.next_prog i di h2 with h3 | ⟨h3, h4⟩
      · exact Or.inl h3
      · exact Or.inr ⟨h3, by omega⟩
    · subst h1
      rw [h2, hn]
      exact Or.inl rfl
  · intro i di hi
    rw [hlen]
    rcases append_elem_cases s d i di hi with ⟨h1, h2⟩ | ⟨h1, h2⟩
    · rcases hInv.child_prog i di h2 with h3 | ⟨h3, h4⟩
      · exact Or.inl h3
      · exact Or.inr ⟨h3, by omega⟩
    · subst h1
      rw [h2, hc]
      exact Or.inl rfl
  · intro i di hi
    rcases append_elem_cases s d i di hi with ⟨h1, h2⟩ | ⟨h1, h2⟩
    · exact hInv.parent_le i di h2
    · subst h1
      rw [h2]
      exact hp
  · intro i j di dj hi hj hnz heq
    rcases append_elem_cases s d i di hi with ⟨h1, h2⟩ | ⟨h1, h2⟩
    · rcases append_elem_cases s d j dj hj with ⟨h3, h4⟩ | ⟨h3, h4⟩
      · exact hInv.next_inj i j di dj h2 h4 hnz heq
      · subst h3
        rw [h4, hn] at heq
        rcases hInv.next_prog i di h2 with h5 | ⟨h5, h6⟩
        · exact absurd h5 hnz
        · omega
    · subst h1
      rw [h2, hn] at hnz
      exact absurd rfl hnz
  · intro i j di dj hi hj hnz heq
    rcases append_elem_cases s d i di hi with ⟨h1, h2⟩ | ⟨h1, h2⟩
    · rcases append_elem_cases s d j dj hj with ⟨h3, h4⟩ | ⟨h3, h4⟩
      · exact hInv.child_inj i j di dj h2 h4 hnz heq
      · subst h3
        rw [h4, hc] at heq
        rcases hInv.child_prog i di h2 with h5 | ⟨h5, h6⟩
        · exact absurd h5 hnz
        · omega
    · subst h1
      rw [h2, hc] at hnz
      exact absurd rfl hnz
  · intro i j di dj hi hj hnz heq
    rcases append_elem_cases s d i di hi with ⟨h1, h2⟩ | ⟨h1, h2⟩
    · rcases append_elem_cases s d j dj hj with ⟨h3, h4⟩ | ⟨h3, h4⟩
      · exact hInv.next_ne_child i j di dj h2 h4 hnz heq
      · subst h3
        rw [h4, hc] at heq
        rcases hInv.next_prog i di h2 with h5 | ⟨h5, h6⟩
        · exact absurd h5 hnz
        · omega
    · subst h1
      rw [h2, hn] at hnz
      exact absurd rfl hnz

/-- The invariant survives appending a sibling and rewiring the old chain
tail (whose next was 0) to it. -/
theorem inv_sib (s : Store) (sd : NodeData) (t : Nat) (wd : NodeData) (hInv : Inv s)
    (ht : s[t]? = some wd) (hz : wd.next = 0) (ht1 : 1 ≤ t)
    (hsn : sd.next = 0) (hsc : sd.child = 0) (hsp : sd.parent ≤ t) :
    Inv ((s ++ [sd]).set t { wd with next := s.length }) := by
  have hts : t < s.length := (List.getElem?_eq_some.mp ht).1
  have hone := hInv.nonempty
  have hndn : ({ wd with next := s.length } : NodeData).next = s.length := rfl
  have hndc : ({ wd with next := s.length } : NodeData).child = wd.child := rfl
  have hndp : ({ wd with next := s.length } : NodeData).parent = wd.parent := rfl
  have hlen : ((s ++ [sd]).set t { wd with next := s.length }).length = s.length + 1 := by
    rw [List.length_set, List.length_append, List.length_singleton]
  refine ⟨?_, ?_, ?_, ?_, ?_, ?_, ?_, ?_, ?_⟩
  · rw [hlen]
    omega
  · intro d0 h0
    rcases set_append_elem_cases s sd t _ hts 0 d0 h0 with ⟨h1, h2⟩ | ⟨hne, h1, h2⟩ |
      ⟨h1, h2⟩
    · omega
    · exact hInv.header_next d0 h2
    · omega
  · intro d0 h0
    rcases set_append_elem_cases s sd t _ hts 0 d0 h0 with ⟨h1, h2⟩ | ⟨hne, h1, h2⟩ |
      ⟨h1, h2⟩
    · omega
    · exact hInv.header_child d0 h2
    · omega
  · intro i di hi
    rw [hlen]
    rcases set_append_elem_cases s sd t _ hts i di hi with ⟨h1, h2⟩ | ⟨hne, h1, h2⟩ |
      ⟨h1, h2⟩
    · rw [h2, hndn]
      exact Or.inr ⟨by omega, by omega⟩
    · rcases hInv.next_prog i di h2 with h3 | ⟨h3, h4⟩
      · exact Or.inl h3
      · exact Or.inr ⟨h3, by omega⟩
    · rw [h2, hsn]
      exact Or.inl rfl
  · intro i di hi
    rw [hlen]
    rcases set_append_elem_cases s sd t _ hts i di hi with ⟨h1, h2⟩ | ⟨hne, h1, h2⟩ |
      ⟨h1, h2⟩
    · rw [h2, hndc]
      rcases hInv.child_prog t wd ht with h3 | ⟨h3, h4⟩
      · exact Or.inl h3
      · exact Or.inr ⟨by omega, by omega⟩
    · rcases hInv.child_prog i di h2 with h3 | ⟨h3, h4⟩
      · exact Or.inl h3
      · exact Or.inr ⟨h3, by omega⟩
    · rw [h2, hsc]
      exact Or.inl rfl
  · intro i di hi
    rcases set_append_elem_cases s sd t _ hts i di hi with ⟨h1, h2⟩ | ⟨hne, h1, h2⟩ |
      ⟨h1, h2⟩
    · rw [h2, hndp]
      have := hInv.parent_le t wd ht
      omega
    · exact hInv.parent_le i di h2
    · rw [h2]
      omega
  · intro i j di dj hi hj hnz heq
    rcases set_append_elem_cases s sd t _ hts i di hi with ⟨hi1, hi2⟩ | ⟨hine, hi1, hi2⟩ |
      ⟨hi1, hi2⟩
    · rcases set_append_elem_cases s sd t _ hts j dj hj with ⟨hj1, hj2⟩ | ⟨hjne, hj1, hj2⟩ |
        ⟨hj1, hj2⟩
      · omega
      · rw [hi2, hndn] at heq
        rcases hInv.next_prog j dj hj2 with h5 | ⟨h5, h6⟩
        · omega
        · omega
      · rw [hi2, hj2, hndn, hsn] at heq
        omega
    · rcases set_append_elem_cases s sd t _ hts j dj hj with ⟨hj1, hj2⟩ | ⟨hjne, hj1, hj2⟩ |
        ⟨hj1, hj2⟩
      · rw [hj2, hndn] at heq
        rcases hInv.next_prog i di hi2 with h5 | ⟨h5, h6⟩
        · exact absurd h5 hnz
        · omega
      · exact hInv.next_inj i j di dj hi2 hj2 hnz heq
      · rw [hj2, hsn] at heq
        exact absurd heq hnz
    · rw [hi2, hsn] at hnz
      exact absurd rfl hnz
  · intro i j di dj hi hj hnz heq
    rcases set_append_elem_cases s sd t _ hts i di hi with ⟨hi1, hi2⟩ | ⟨hine, hi1, hi2⟩ |
      ⟨hi1, hi2⟩
    · rcases set_append_elem_cases s sd t _ hts j dj hj with ⟨hj1, hj2⟩ | ⟨hjne, hj1, hj2⟩ |
        ⟨hj1, hj2⟩
      · omega
      · rw [hi2, hndc] at heq hnz
        have := hInv.child_inj t j wd dj ht hj2 hnz heq
        omega
      · rw [hi2, hndc] at heq hnz
        rw [hj2, hsc] at heq
        exact absurd heq hnz
    · rcases set_append_elem_cases s sd t _ hts j dj hj with ⟨hj1, hj2⟩ | ⟨hjne, hj1, hj2⟩ |
        ⟨hj1, hj2⟩
      · rw [hj2, hndc] at heq
        have := hInv.child_inj i t di wd hi2 ht hnz heq
        omega
      · exact hInv.child_inj i j di dj hi2 hj2 hnz heq
      · rw [hj2, hsc] at heq
        exact absurd heq hnz
    · rw [hi2, hsc] at hnz
      exact absurd rfl hnz
  · intro i j di dj hi hj hnz heq
    rcases set_append_elem_cases s sd t _ hts i di hi with ⟨hi1, hi2⟩ | ⟨hine, hi1, hi2⟩ |
      ⟨hi1, hi2⟩
    · rw [hi2, hndn] at heq
      rcases set_append_elem_cases s sd t _ hts j dj hj with ⟨hj1, hj2⟩ | ⟨hjne, hj1, hj2⟩ |
        ⟨hj1, hj2⟩
      · rw [hj2, hndc] at heq
        rcases hInv.child_prog t wd ht with h5 | ⟨h5, h6⟩
        · omega
        · omega
      · rcases hInv.child_prog j dj hj2 with h5 | ⟨h5, h6⟩
        · omega
        · omega
      · rw [hj2, hsc] at heq
        omega
    · rcases set_append_elem_cases s sd t _ hts j dj hj with ⟨hj1, hj2⟩ | ⟨hjne, hj1, hj2⟩ |
        ⟨hj1, hj2⟩
      · rw [hj2, hndc] at heq
        exact hInv.next_ne_child i t di wd hi2 ht hnz heq
      · exact hInv.next_ne_child i j di dj hi2 hj2 hnz heq
      · rw [hj2, hsc] at heq
        exact hnz heq
    · rw [hi2, hsn] at hnz
      exact absurd rfl hnz

/-- The invariant survives appending a child and setting the parent child
pointer (which was 0) to it. -/
theorem inv_child (s : Store) (cd : NodeData) (vb : Nat) (dv : NodeData) (hInv : Inv s)
    (hv : s[vb]? = some dv) (hz : dv.child = 0) (hv1 : 1 ≤ vb)
    (hcn : cd.next = 0) (hcc : cd.child = 0) (hcp : cd.parent ≤ vb) :
    Inv ((s ++ [cd]).set vb { dv with child := s.length }) := by
  have hvs : vb < s.length := (List.getElem?_eq_some.mp hv).1
  have hone := hInv.nonempty
  have hndn : ({ dv with child := s.length } : NodeData).next = dv.next := rfl
  have hndc : ({ dv with child := s.length } : NodeData).child = s.length := rfl
  have hndp : ({ dv with child := s.length } : NodeData).parent = dv.parent := rfl
  have hlen : ((s ++ [cd]).set vb { dv with child := s.length }).length = s.length + 1 := by
    rw [List.length_set, List.length_append, List.length_singleton]
  refine ⟨?_, ?_, ?_, ?_, ?_, ?_, ?_, ?_, ?_⟩
  · rw [hlen]
    omega
  · intro d0 h0
    rcases set_append_elem_cases s cd vb _ hvs 0 d0 h0 with ⟨h1, h2⟩ | ⟨hne, h1, h2⟩ |
      ⟨h1, h2⟩
    · omega
    · exact hInv.header_next d0 h2
    · omega
  · intro d0 h0
    rcases set_append_elem_cases s cd vb _ hvs 0 d0 h0 with ⟨h1, h2⟩ | ⟨hne, h1, h2⟩ |
      ⟨h1, h2⟩
    · omega
    · exact hInv.header_child d0 h2
    · omega
  · intro i di hi
    rw [hlen]
    rcases set_append_elem_cases s cd vb _ hvs i di hi with ⟨h1, h2⟩ | ⟨hne, h1, h2⟩ |
      ⟨h1, h2⟩
    · rw [h2, hndn]
      rcases hInv.next_prog vb dv hv with h3 | ⟨h3, h4⟩
      · exact Or.inl h3
      · exact Or.inr ⟨by omega, by omega⟩
    · rcases hInv.next_prog i di h2 with h3 | ⟨h3, h4⟩
      · exact Or.inl h3
      · exact Or.inr ⟨h3, by omega⟩
    · rw [h2, hcn]
      exact Or.inl rfl
  · intro i di hi
    rw [hlen]
    rcases set_append_elem_cases s cd vb _ hvs i di hi with ⟨h1, h2⟩ | ⟨hne, h1, h2⟩ |
      ⟨h1, h2⟩
    · rw [h2, hndc]
      exact Or.inr ⟨by omega, by omega⟩
    · rcases hInv.child_prog i di h2 with h3 | ⟨h3, h4⟩
      · exact Or.inl h3
      · exact Or.inr ⟨h3, by omega⟩
    · rw [h2, hcc]
      exact Or.inl rfl
  · intro i di hi
    rcases set_append_elem_cases s cd vb _ hvs i di hi with ⟨h1, h2⟩ | ⟨hne, h1, h2⟩ |
      ⟨h1, h2⟩
    · rw [h2, hndp]
      have := hInv.parent_le vb dv hv
      omega
    · exact hInv.parent_le i di h2
    · rw [h2]
      omega
  · intro i j di dj hi hj hnz heq
    rcases set_append_elem_cases s cd vb _ hvs i di hi with ⟨hi1, hi2⟩ | ⟨hine, hi1, hi2⟩ |
      ⟨hi1, hi2⟩
    · rw [hi2, hndn] at heq hnz
      rcases set_append_elem_cases s cd vb _ hvs j dj hj with ⟨hj1, hj2⟩ | ⟨hjne, hj1, hj2⟩ |
        ⟨hj1, hj2⟩
      · omega
      · have := hInv.next_inj vb j dv dj hv hj2 hnz heq
        omega
      · rw [hj2, hcn] at heq
        exact absurd heq hnz
    · rcases set_append_elem_cases s cd vb _ hvs j dj hj with ⟨hj1, hj2⟩ | ⟨hjne, hj1, hj2⟩ |
        ⟨hj1, hj2⟩
      · rw [hj2, hndn] at heq
        have := hInv.next_inj i vb di dv hi2 hv hnz heq
        omega
      · exact hInv.next_inj i j di dj hi2 hj2 hnz heq
      · rw [hj2, hcn] at heq
        exact absurd heq hnz
    · rw [hi2, hcn] at hnz
      exact absurd rfl hnz
  · intro i j di dj hi hj hnz heq
    rcases set_append_elem_cases s cd vb _ hvs i di hi with ⟨hi1, hi2⟩ | ⟨hine, hi1, hi2⟩ |
      ⟨hi1, hi2⟩
    · rcases set_append_elem_cases s cd vb _ hvs j dj hj with ⟨hj1, hj2⟩ | ⟨hjne, hj1, hj2⟩ |
        ⟨hj1, hj2⟩
      · omega
      · rw [hi2, hndc] at heq
        rcases hInv.child_prog j dj hj2 with h5 | ⟨h5, h6⟩
        · omega
        · omega
      · rw [hi2, hndc] at heq
        rw [hj2, hcc] at heq
        omega
    · rcases set_append_elem_cases s cd vb _ hvs j dj hj with ⟨hj1, hj2⟩ | ⟨hjne, hj1, hj2⟩ |
        ⟨hj1, hj2⟩
      · rw [hj2, hndc] at heq
        rcases hInv.child_prog i di hi2 with h5 | ⟨h5, h6⟩
        · exact absurd h5 hnz
        · omega
      · exact hInv.child_inj i j di dj hi2 hj2 hnz heq
      · rw [hj2, hcc] at heq
        exact absurd heq hnz
    · rw [hi2, hcc] at hnz
      exact absurd rfl hnz
  · intro i j di dj hi hj hnz heq
    rcases set_append_elem_cases s cd vb _ hvs i di hi with ⟨hi1, hi2⟩ | ⟨hine, hi1, hi2⟩ |
      ⟨hi1, hi2⟩
    · rw [hi2, hndn] at heq hnz
      rcases set_append_elem_cases s cd vb _ hvs j dj hj with ⟨hj1, hj2⟩ | ⟨hjne, hj1, hj2⟩ |
        ⟨hj1, hj2⟩
      · rw [hj2, hndc] at heq
        rcases hInv.next_prog vb dv hv with h5 | ⟨h5, h6⟩
        · exact absurd h5 hnz
        · omega
      · exact hInv.next_ne_child vb j dv dj hv hj2 hnz heq
      · rw [hj2, hcc] at heq
        exact hnz heq
    · rcases set_append_elem_cases s cd vb _ hvs j dj hj with ⟨hj1, hj2⟩ | ⟨hjne, hj1, hj2⟩ |
        ⟨hj1, hj2⟩
      · rw [hj2, hndc] at heq
        rcases hInv.next_prog i di hi2 with h5 | ⟨h5, h6⟩
        · exact absurd h5 hnz
        · omega
      · exact hInv.next_ne_child i j di dj hi2 hj2 hnz heq
      · rw [hj2, hcc] at heq
        exact hnz heq
    · rw [hi2, hcn] at hnz
      exact absurd rfl hnz

/-- Under the invariant, a failed scan ends at a block at or after its
start. -/
theorem scan_last_block_ge (s : Store) (c : Nat) (hInv : Inv s) :
    ∀ (f : Nat) (b t : Nat) (w : NodeView), b < s.length →
      scanGo s c (nodeRead s b) f = some (.last w) → w.block = some t → b ≤ t
  | 0, b, t, w, hb, h, hw => by cases h
  | f + 1, b, t, w, hb, h, hw => by
    cases hd : s[b]? with
    | none =>
      rw [List.getElem?_eq_none_iff] at hd
      omega
    | some d =>
      rw [scanGo, show nodeRead s b = ⟨some b, true, d⟩ from by rw [nodeRead, hd]] at h
      by_cases hc : d.char = c
      · rw [if_pos (by exact hc)] at h
        cases h
      · rw [if_neg (by exact hc)] at h
        by_cases hn : d.next ≠ 0
        · rw [if_pos (by exact hn)] at h
          rcases hInv.next_prog b d hd with h5 | ⟨h5, h6⟩
          · exact absurd h5 hn
          · have := scan_last_block_ge s c hInv f d.next t w h6 h hw
            omega
        · rw [if_neg (by exact hn)] at h
          cases h
          cases hw
          exact le_rfl

/-- A path witness has one matched view per character. -/
theorem pathViews_length (s : Store) :
    ∀ (x : List Nat) (v : NodeView) (ws : List NodeView),
      pathViews s v x = some ws → ws.length = x.length
  | [], v, ws, h => by
    cases h
    rfl
  | c :: cs, v, ws, h => by
    rw [pathViews] at h
    cases hscan : scanGo s c v (s.length + 1) with
    | none => rw [hscan] at h; cases h
    | some res =>
      rw [hscan] at h
      cases res with
      | last w =>
        have h2 : (none : Option (List NodeView)) = some ws := h
        cases h2
      | found w =>
        cases cs with
        | nil =>
          have h2 : some [w] = some ws := h
          cases h2
          rfl
        | cons c2 cs2 =>
          have h2 : (if w.data.child ≠ 0 then
              (pathViews s (nodeRead s w.data.child) (c2 :: cs2)).map (w :: ·)
              else none) = some ws := h
          by_cases hch : w.data.child ≠ 0
          · rw [if_pos hch] at h2
            cases hrec : pathViews s (nodeRead s w.data.child) (c2 :: cs2) with
            | none => rw [hrec] at h2; cases h2
            | some ws2 =>
              rw [hrec] at h2
              cases h2
              have := pathViews_length s (c2 :: cs2) (nodeRead s w.data.child) ws2 hrec
              simp [this]
          · rw [if_neg hch] at h2
            cases h2

/-- The last element with default does not depend on the default for a
non-empty list. -/
theorem getLastD_switch {α : Type} (l : List α) (a b : α) (h : l ≠ []) :
    l.getLastD a = l.getLastD b := by
  cases l with
  | nil => exact absurd rfl h
  | cons x xs => rw [List.getLastD_cons, List.getLastD_cons]

/-- The history step ignores a view whose record carries no flags. -/
theorem historyStep_zero (h0 : WalkHistory) (w : NodeView) (pre : List Nat) (c : Nat)
    (hw : w.data.flags = 0) : historyStep h0 w pre c = h0 := by
  unfold historyStep
  rw [hw]
  have hz : ∀ p : Nat, testFlag 0 p = false := fun p => Nat.zero_testBit p
  rw [hz, hz]
  simp

/-- The history step depends on the view only through its flags and its
webentity id. -/
theorem historyStep_congr (h0 : WalkHistory) (w w2 : NodeView) (pre : List Nat) (c : Nat)
    (hf : w2.data.flags = w.data.flags) (hid : w2.data.webentity_id = w.data.webentity_id) :
    historyStep h0 w2 pre c = historyStep h0 w pre c := by
  unfold historyStep
  rw [hf, hid]

/-- A walk over flagless views leaves the history unchanged. -/
theorem histOf_zero (h0 : WalkHistory) :
    ∀ (ws : List NodeView) (cs pre : List Nat),
      (∀ w ∈ ws, w.data.flags = 0) → histOf h0 pre ws cs = h0
  | [], cs, pre, hz => by cases cs <;> rfl
  | w :: ws, [], pre, hz => rfl
  | w :: ws, c :: cs, pre, hz => by
    rw [histOf, historyStep_zero h0 w pre c (hz w (List.mem_cons_self w ws))]
    exact histOf_zero h0 ws cs (pre ++ [c]) (fun u hu => hz u (List.mem_cons_of_mem w hu))

/-- Under the invariant, a successful scan matches at a block at or after
its start. -/
theorem scan_found_block_ge (s : Store) (c : Nat) (hInv : Inv s) :
    ∀ (f : Nat) (b t : Nat) (w : NodeView), b < s.length →
      scanGo s c (nodeRead s b) f = some (.found w) → w.block = some t → b ≤ t
  | 0, b, t, w, hb, h, hw => by cases h
  | f + 1, b, t, w, hb, h, hw => by
    cases hd : s[b]? with
    | none =>
      rw [List.getElem?_eq_none_iff] at hd
      omega
    | some d =>
      rw [scanGo, show nodeRead s b = ⟨some b, true, d⟩ from by rw [nodeRead, hd]] at h
      by_cases hc : d.char = c
      · rw [if_pos (by exact hc)] at h
        cases h
        cases hw
        exact le_rfl
      · rw [if_neg (by exact hc)] at h
        by_cases hn : d.next ≠ 0
        · rw [if_pos (by exact hn)] at h
          rcases hInv.next_prog b d hd with h5 | ⟨h5, h6⟩
          · exact absurd h5 hn
          · have := scan_found_block_ge s c hInv f d.next t w h6 h hw
            omega
        · rw [if_neg (by exact hn)] at h
          cases h

/-- Full specification of the sibling-ensuring step on a store satisfying
the invariant: the invariant and growth are preserved, the returned node is
a real view carrying the character, and scanning the same chain in the
resulting store finds exactly the returned node. -/
theorem ensure_spec (s : Store) (c : Nat) (b : Nat) (er : EnsureResult)
    (hInv : Inv s) (hb1 : 1 ≤ b) (hb : b < s.length ∨ (b = 1 ∧ s.length = 1))
    (h : ensureCharFromSiblings s (nodeRead s b) c = some er) :
    Inv er.store ∧ Extends s er.store ∧ RealView er.store er.node ∧
    scanGo er.store c (nodeRead er.store b) (er.store.length + 1) =
      some (.found er.node) ∧ b < er.store.length := by
  unfold ensureCharFromSiblings at h
  cases hd : s[b]? with
  | none =>
    have hread : nodeRead s b = ⟨none, false, defaultNode 0⟩ := by rw [nodeRead, hd]
    rw [hread] at h
    rw [if_pos rfl] at h
    have hlb : s.length ≤ b := by rw [List.getElem?_eq_none_iff] at hd; exact hd
    have hbeq : b = 1 ∧ s.length = 1 := by
      rcases hb with hb | hb
      · omega
      · exact hb
    obtain ⟨hb1e, hse⟩ := hbeq
    subst hb1e
    have h2 : some (⟨⟨some s.length, true, { defaultNode 0 with char := c }⟩,
        s ++ [{ defaultNode 0 with char := c }],
        [s ++ [{ defaultNode 0 with char := c }]]⟩ : EnsureResult) = some er := h
    cases h2
    refine ⟨inv_append s _ hInv rfl rfl (Nat.zero_le _),
      extends_append s _, ⟨s.length, rfl, List.getElem?_concat_length s _, rfl⟩, ?_,
      by rw [List.length_append, List.length_singleton]; omega⟩
    rw [scanGo]
    rw [show nodeRead (s ++ [{ defaultNode 0 with char := c }]) 1 =
        ⟨some s.length, true, { defaultNode 0 with char := c }⟩ from by
      rw [show (1 : Nat) = s.length from hse.symm, nodeRead, List.getElem?_concat_length]]
    rw [if_pos (show ({ defaultNode 0 with char := c } : NodeData).char = c from rfl)]
  | some db =>
    have hbs : b < s.length := (List.getElem?_eq_some.mp hd).1
    have hread : nodeRead s b = ⟨some b, true, db⟩ := by rw [nodeRead, hd]
    rw [hread] at h
    rw [if_neg (fun hx => Bool.noConfusion hx)] at h
    cases hscan : scanGo s c (⟨some b, true, db⟩ : NodeView) (s.length + 1) with
    | none => rw [hscan] at h; cases h
    | some res =>
      rw [hscan] at h
      cases res with
      | found w =>
        have h2 : some (⟨w, s, []⟩ : EnsureResult) = some er := h
        cases h2
        refine ⟨hInv, extends_refl s, ?_, ?_, hbs⟩
        · exact scan_found_real s c hInv _ (nodeRead s b) w
            (realView_nodeRead s b hbs) (by rw [hread]; exact hscan)
        · rw [hread]
          exact hscan
      | last w =>
        obtain ⟨wbk, wex, wdat⟩ := w
        obtain ⟨⟨t, hwb, hwrec, hwex⟩, hwz, hwc⟩ :=
          scan_last_real s c hInv _ (nodeRead s b) ⟨wbk, wex, wdat⟩
            (realView_nodeRead s b hbs) (by rw [hread]; exact hscan)
        simp only at hwb hwex
        subst hwb
        subst hwex
        simp only at hwrec hwz hwc
        have hts : t < s.length := (List.getElem?_eq_some.mp hwrec).1
        have ht1 : 1 ≤ t := by
          have := scan_last_block_ge s c hInv (s.length + 1) b t ⟨some t, true, wdat⟩ hbs
            (by rw [hread]; exact hscan) rfl
          omega
      
        have h2 : some (⟨⟨some s.length, true, { defaultNode c with parent := wdat.parent }⟩,
            (s ++ [{ defaultNode c with parent := wdat.parent }]).set t
              { wdat with next := s.length },
            [s ++ [{ defaultNode c with parent := wdat.parent }],
              (s ++ [{ defaultNode c with parent := wdat.parent }]).set t
                { wdat with next := s.length }]⟩ : EnsureResult) = some er := h
        cases h2
        have hparent : ({ defaultNode c with parent := wdat.parent } : NodeData).parent ≤ t := by
          show wdat.parent ≤ t
          exact hInv.parent_le t wdat hwrec
        refine ⟨inv_sib s _ t wdat hInv hwrec hwz ht1 rfl rfl hparent,
          extends_sib s _ t wdat hwrec hwz, ?_, ?_, ?_⟩
        · refine ⟨s.length, rfl, ?_, rfl⟩
          rw [List.getElem?_set_ne (by omega)]
          exact List.getElem?_concat_length s _
        · have hflen : ((s ++ [{ defaultNode c with parent := wdat.parent }]).set t
              { wdat with next := s.length }).length = s.length + 1 := by
            rw [List.length_set, List.length_append, List.length_singleton]
          rw [hflen]
          exact scan_after_append s c (s.length + 1) b t wdat _
            (by rw [hread]; exact hscan) hwrec rfl
        · rw [List.length_set, List.length_append, List.length_singleton]
          omega

/-- Full specification of the tail-extension loop: it preserves the
invariant, only appends and fills the single child pointer of its start
node, and builds a fresh flagless chain matched exactly by the path
witness of the remaining characters. -/
theorem addLruTail_spec :
    ∀ (cs : List Nat) (s : Store) (vdata : NodeData) (vexs : Bool) (snaps : List Store)
      (n : NodeView) (s2 : Store) (sn2 : List Store) (vb : Nat),
      Inv s → s[vb]? = some vdata → vdata.child = 0 → 1 ≤ vb →
      addLruTail s ⟨some vb, vexs, vdata⟩ snaps cs = (n, s2, sn2) →
      Inv s2 ∧ Extends s s2 ∧
      (cs = [] → n = ⟨some vb, vexs, vdata⟩ ∧ s2 = s) ∧
      (∀ (i : Nat) (di : NodeData), s[i]? = some di → i ≠ vb → s2[i]? = some di) ∧
      (cs ≠ [] → s2[vb]? = some { vdata with child := s.length } ∧
        ∃ ws, pathViews s2 (nodeRead s2 s.length) cs = some ws ∧
          (∀ w ∈ ws, RealView s2 w ∧ w.data.flags = 0 ∧ w.data.webentity_id = 0) ∧
          n = ws.getLastD ⟨some vb, vexs, vdata⟩ ∧ ws ≠ [])
  | [], s, vdata, vexs, snaps, n, s2, sn2, vb, hInv, hrec, hch, hvb1, h => by
    have h2 : ((⟨some vb, vexs, vdata⟩ : NodeView), s, snaps) = (n, s2, sn2) := h
    cases h2
    exact ⟨hInv, extends_refl s, fun _ => ⟨rfl, rfl⟩, fun i di hi _ => hi,
      fun hne => absurd rfl hne⟩
  | c :: cs2, s, vdata, vexs, snaps, n, s2, sn2, vb, hInv, hrec, hch, hvb1, h => by
    have hvbs : vb < s.length := (List.getElem?_eq_some.mp hrec).1
    have hone := hInv.nonempty
    have h2 : addLruTail ((s ++ [{ defaultNode c with parent := vb }]).set vb
        { vdata with child := s.length })
        (⟨some s.length, true, { defaultNode c with parent := vb }⟩ : NodeView)
        (snaps ++ [s ++ [{ defaultNode c with parent := vb }],
          (s ++ [{ defaultNode c with parent := vb }]).set vb
            { vdata with child := s.length }]) cs2 = (n, s2, sn2) := h
    have hsblen : ((s ++ [{ defaultNode c with parent := vb }]).set vb
        { vdata with child := s.length }).length = s.length + 1 := by
      rw [List.length_set, List.length_append, List.length_singleton]
    have hInvB : Inv ((s ++ [{ defaultNode c with parent := vb }]).set vb
        { vdata with child := s.length }) :=
      inv_child s _ vb vdata hInv hrec hch hvb1 rfl rfl (le_rfl)
    have hrecB : ((s ++ [{ defaultNode c with parent := vb }]).set vb
        { vdata with child := s.length })[s.length]? =
        some { defaultNode c with parent := vb } := by
      rw [List.getElem?_set_ne (by omega)]
      exact List.getElem?_concat_length s _
    obtain ⟨ih1, ih2, ih3, ih4, ih5⟩ := addLruTail_spec cs2 _ _ true _ n s2 sn2 s.length
      hInvB hrecB rfl (by omega) h2
    have hvbrec : ((s ++ [{ defaultNode c with parent := vb }]).set vb
        { vdata with child := s.length })[vb]? = some { vdata with child := s.length } :=
      List.getElem?_set_self (by rw [List.length_append]; omega)
    have hvb2 : s2[vb]? = some { vdata with child := s.length } :=
      ih4 vb _ hvbrec (by omega)
    refine ⟨ih1, extends_trans (extends_child s _ vb vdata hrec hch) ih2, ?_, ?_, ?_⟩
    · intro hx
      cases hx
    · intro i di hi hne
      refine ih4 i di ?_ ?_
      · rw [List.getElem?_set_ne (fun hx => hne hx.symm), List.getElem?_append,
          if_pos (List.getElem?_eq_some.mp hi).1]
        exact hi
      · have := (List.getElem?_eq_some.mp hi).1
        omega
    · intro _
      refine ⟨hvb2, ?_⟩
      cases cs2 with
      | nil =>
        obtain ⟨hn, hs2⟩ := ih3 rfl
        rw [← hs2] at hrecB hsblen
        have hnr : nodeRead s2 s.length =
            ⟨some s.length, true, { defaultNode c with parent := vb }⟩ := by
          rw [nodeRead, hrecB]
        have hscan1 : scanGo s2 c (nodeRead s2 s.length) (s2.length + 1) =
            some (.found ⟨some s.length, true, { defaultNode c with parent := vb }⟩) := by
          rw [hsblen, scanGo, hnr]
          simp [defaultNode]
        refine ⟨[⟨some s.length, true, { defaultNode c with parent := vb }⟩], ?_, ?_, ?_, ?_⟩
        · rw [pathViews, hscan1]
        · intro w hw
          simp only [List.mem_singleton] at hw
          subst hw
          exact ⟨⟨s.length, rfl, hrecB, rfl⟩, rfl, rfl⟩
        · rw [hn]
          rfl
        · simp
      | cons c2 cs3 =>
        obtain ⟨hstart, ws, hpv, hreal, hlast, hne2⟩ := ih5 (by simp)
        rw [hsblen] at hstart hpv
        refine ⟨⟨some s.length, true, { { defaultNode c with parent := vb } with
          child := s.length + 1 }⟩ :: ws, ?_, ?_, ?_, ?_⟩
        · rw [pathViews]
          rw [show scanGo s2 c (nodeRead s2 s.length) (s2.length + 1) =
              some (.found ⟨some s.length, true, { { defaultNode c with parent := vb } with
                child := s.length + 1 }⟩) from by
            obtain ⟨f2, hf2⟩ : ∃ f2, s2.length + 1 = f2 + 1 := ⟨s2.length, rfl⟩
            rw [hf2, scanGo]
            rw [show nodeRead s2 s.length = ⟨some s.length, true,
                { { defaultNode c with parent := vb } with child := s.length + 1 }⟩ from by
              rw [nodeRead, hstart]]
            simp [defaultNode]]
          have hred : (if ({ { defaultNode c with parent := vb } with
              child := s.length + 1 } : NodeData).child ≠ 0 then
              (pathViews s2 (nodeRead s2 ({ { defaultNode c with parent := vb } with
                child := s.length + 1 } : NodeData).child) (c2 :: cs3)).map
                ((⟨some s.length, true, { { defaultNode c with parent := vb } with
                  child := s.length + 1 }⟩ : NodeView) :: ·)
              else none) =
              (pathViews s2 (nodeRead s2 (s.length + 1)) (c2 :: cs3)).map
                ((⟨some s.length, true, { { defaultNode c with parent := vb } with
                  child := s.length + 1 }⟩ : NodeView) :: ·) := by
            simp
          exact (by rw [hred, hpv]; rfl :
            (if ({ { defaultNode c with parent := vb } with
              child := s.length + 1 } : NodeData).child ≠ 0 then
              (pathViews s2 (nodeRead s2 ({ { defaultNode c with parent := vb } with
                child := s.length + 1 } : NodeData).child) (c2 :: cs3)).map
                ((⟨some s.length, true, { { defaultNode c with parent := vb } with
                  child := s.length + 1 }⟩ : NodeView) :: ·)
              else none) =
            some ((⟨some s.length, true, { { defaultNode c with parent := vb } with
              child := s.length + 1 }⟩ : NodeView) :: ws))
        · intro w hw
          rcases List.mem_cons.mp hw with hw | hw
          · subst hw
            exact ⟨⟨s.length, rfl, hstart, rfl⟩, rfl, rfl⟩
          · exact hreal w hw
        · rw [List.getLastD_cons]
          rw [getLastD_switch ws _ _ hne2]
          exact hlast
        · simp

/-- Full specification of the descent loop of add_lru started on an
invariant store: the invariant and block-wise growth are preserved, the
final store holds a full path witness of the walked characters, the
returned history is the fold of the per-step history update over the
matched views, and the returned node is the last matched view. -/
theorem addLruGo_spec :
    ∀ (x : List Nat) (s : Store) (b : Nat) (pre : List Nat) (h0 : WalkHistory)
      (snaps : List Store) (r : AddResult),
      Inv s → 1 ≤ b → (b < s.length ∨ (b = 1 ∧ s.length = 1)) →
      addLruGo s (nodeRead s b) pre h0 snaps x = some r →
      Inv r.store ∧ Extends s r.store ∧
      ∃ ws, pathViews r.store (nodeRead r.store b) x = some ws ∧
        (∀ w ∈ ws, RealView r.store w) ∧
        r.history = histOf h0 pre ws x ∧
        r.node = ws.getLastD (nodeRead s b)
  | [], s, b, pre, h0, snaps, r, hInv, hb1, hb, h => by
    have h2 : some (⟨nodeRead s b, h0, s, snaps⟩ : AddResult) = some r := h
    cases h2
    exact ⟨hInv, extends_refl s, ⟨[], rfl, by simp, rfl, rfl⟩⟩
  | c :: cs, s, b, pre, h0, snaps, r, hInv, hb1, hb, h => by
    rw [addLruGo] at h
    cases hens : ensureCharFromSiblings s (nodeRead s b) c with
    | none => rw [hens] at h; cases h
    | some er =>
      rw [hens] at h
      obtain ⟨hInv2, hExt2, hReal2, hscan2, hblt2⟩ := ensure_spec s c b er hInv hb1 hb hens
      obtain ⟨wb, hwb, hwrec, hwex⟩ := hReal2
      have hnode : er.node = ⟨some wb, true, er.node.data⟩ := by rw [← hwb, ← hwex]
      have hwb1 : 1 ≤ wb := by
        have := scan_found_block_ge er.store c hInv2 (er.store.length + 1) b wb er.node
          hblt2 hscan2 hwb
        omega
      have hscan2m : scanGo er.store c (nodeRead er.store b) (er.store.length + 1) =
          some (.found ⟨some wb, true, er.node.data⟩) := by rw [← hnode]; exact hscan2
      cases cs with
      | nil =>
        have h2 : some (⟨er.node, historyStep h0 er.node pre c, er.store,
            snaps ++ er.snaps⟩ : AddResult) = some r := h
        cases h2
        refine ⟨hInv2, hExt2, ⟨[er.node], ?_, ?_, rfl, rfl⟩⟩
        · rw [pathViews, hscan2]
        · intro w hw
          simp only [List.mem_singleton] at hw
          subst hw
          exact ⟨wb, hwb, hwrec, hwex⟩
      | cons c2 cs2 =>
        have h2 : (if er.node.data.child ≠ 0 then
            addLruGo er.store (nodeRead er.store er.node.data.child) (pre ++ [c])
              (historyStep h0 er.node pre c) (snaps ++ er.snaps) (c2 :: cs2)
          else
            some (⟨(addLruTail er.store er.node (snaps ++ er.snaps) (c2 :: cs2)).1,
              historyStep h0 er.node pre c,
              (addLruTail er.store er.node (snaps ++ er.snaps) (c2 :: cs2)).2.1,
              (addLruTail er.store er.node (snaps ++ er.snaps) (c2 :: cs2)).2.2⟩ :
                AddResult)) = some r := h
        by_cases hch : er.node.data.child ≠ 0
        · rw [if_pos hch] at h2
          have hcb := hInv2.child_prog wb er.node.data hwrec
          have hcb2 : wb < er.node.data.child ∧ er.node.data.child < er.store.length := by
            rcases hcb with hx | hx
            · exact absurd hx hch
            · exact hx
          obtain ⟨ihInv, ihExt, ws2, hpv2, hreal2, hhist2, hnode2⟩ :=
            addLruGo_spec (c2 :: cs2) er.store er.node.data.child (pre ++ [c])
              (historyStep h0 er.node pre c) (snaps ++ er.snaps) r hInv2 (by omega)
              (Or.inl hcb2.2) h2
          have hg : Grows er.store r.store := grows_of_extends ihExt
          obtain ⟨wd2, hwd2, hscan3⟩ := scan_grows er.store r.store c hg
            (er.store.length + 1) b wb er.node.data hscan2m
          have hscan4 : scanGo r.store c (nodeRead r.store b) (r.store.length + 1) =
              some (.found ⟨some wb, true, wd2⟩) :=
            scanGo_mono r.store c _ _ _ hscan3 (r.store.length + 1)
              (by have := ihExt.1; omega)
          obtain ⟨hchar, hpar, hflags, hweid, hnext, hchild⟩ :=
            ihExt.2 wb er.node.data wd2 hwrec hwd2
          have hchild2 : wd2.child = er.node.data.child := by
            rcases hchild with hx | hx
            · exact hx
            · exact absurd hx.1 hch
          have hne2 : ws2 ≠ [] := by
            have := pathViews_length r.store (c2 :: cs2) _ ws2 hpv2
            intro hx
            rw [hx] at this
            simp at this
          refine ⟨ihInv, extends_trans hExt2 ihExt,
            ⟨⟨some wb, true, wd2⟩ :: ws2, ?_, ?_, ?_, ?_⟩⟩
          · rw [pathViews, hscan4]
            exact (by
              rw [if_pos (show wd2.child ≠ 0 from by rw [hchild2]; exact hch), hchild2, hpv2]
              rfl :
              (if wd2.child ≠ 0 then
                (pathViews r.store (nodeRead r.store wd2.child) (c2 :: cs2)).map
                  ((⟨some wb, true, wd2⟩ : NodeView) :: ·)
              else none) = some ((⟨some wb, true, wd2⟩ : NodeView) :: ws2))
          · intro w hw
            rcases List.mem_cons.mp hw with hw | hw
            · subst hw
              exact ⟨wb, rfl, hwd2, rfl⟩
            · exact hreal2 w hw
          · rw [show histOf h0 pre ((⟨some wb, true, wd2⟩ : NodeView) :: ws2)
                (c :: c2 :: cs2) =
                histOf (historyStep h0 (⟨some wb, true, wd2⟩ : NodeView) pre c)
                  (pre ++ [c]) ws2 (c2 :: cs2) from rfl]
            rw [historyStep_congr h0 er.node ⟨some wb, true, wd2⟩ pre c hflags hweid]
            exact hhist2
          · rw [List.getLastD_cons]
            rw [getLastD_switch ws2 _ (nodeRead er.store er.node.data.child) hne2]
            exact hnode2
        · rw [if_neg hch] at h2
          have hch0 : er.node.data.child = 0 := by omega
          rcases htl : addLruTail er.store er.node (snaps ++ er.snaps) (c2 :: cs2)
            with ⟨n2, s3, sn3⟩
          rw [htl] at h2
          have h3 : some (⟨n2, historyStep h0 er.node pre c, s3, sn3⟩ : AddResult)
              = some r := h2
          cases h3
          rw [hnode] at htl
          obtain ⟨tInv, tExt, _, tpres, tlast⟩ := addLruTail_spec (c2 :: cs2) er.store
            er.node.data true (snaps ++ er.snaps) n2 s3 sn3 wb hInv2 hwrec hch0 hwb1 htl
          obtain ⟨hstart, wsT, hpvT, hrealT, hlastT, hneT⟩ := tlast (by simp)
          have hg : Grows er.store s3 := grows_of_extends tExt
          obtain ⟨wd2, hwd2, hscan3⟩ := scan_grows er.store s3 c hg
            (er.store.length + 1) b wb er.node.data hscan2m
          have hwd2e : wd2 = { er.node.data with child := er.store.length } := by
            have := hwd2.symm.trans hstart
            exact Option.some.inj this
          subst hwd2e
          have hscan4 : scanGo s3 c (nodeRead s3 b) (s3.length + 1) =
              some (.found ⟨some wb, true,
                { er.node.data with child := er.store.length }⟩) :=
            scanGo_mono s3 c _ _ _ hscan3 (s3.length + 1) (by have := tExt.1; omega)
          have hLne : ({ er.node.data with child := er.store.length } : NodeData).child
              ≠ 0 := by
            intro hx
            have hx2 : er.store.length = 0 := hx
            have := hInv2.nonempty
            omega
          refine ⟨tInv, extends_trans hExt2 tExt,
            ⟨⟨some wb, true, { er.node.data with child := er.store.length }⟩ :: wsT,
              ?_, ?_, ?_, ?_⟩⟩
          · rw [pathViews, hscan4]
            exact (by
              rw [if_pos hLne]
              rw [show ({ er.node.data with child := er.store.length } : NodeData).child
                = er.store.length from rfl]
              rw [hpvT]
              rfl :
              (if ({ er.node.data with child := er.store.length } : NodeData).child ≠ 0 then
                (pathViews s3 (nodeRead s3
                  ({ er.node.data with child := er.store.length } : NodeData).child)
                  (c2 :: cs2)).map
                  ((⟨some wb, true,
                    { er.node.data with child := er.store.length }⟩ : NodeView) :: ·)
              else none) =
              some ((⟨some wb, true,
                { er.node.data with child := er.store.length }⟩ : NodeView) :: wsT))
          · intro w hw
            rcases List.mem_cons.mp hw with hw | hw
            · subst hw
              exact ⟨wb, rfl, hstart, rfl⟩
            · exact (hrealT w hw).1
          · rw [show histOf h0 pre ((⟨some wb, true,
                { er.node.data with child := er.store.length }⟩ : NodeView) :: wsT)
                (c :: c2 :: cs2) =
                histOf (historyStep h0 (⟨some wb, true,
                  { er.node.data with child := er.store.length }⟩ : NodeView) pre c)
                  (pre ++ [c]) wsT (c2 :: cs2) from rfl]
            rw [histOf_zero _ wsT (c2 :: cs2) (pre ++ [c])
              (fun w hw => (hrealT w hw).2.1)]
            exact (historyStep_congr h0 er.node _ pre c rfl rfl).symm
          · rw [List.getLastD_cons]
            rw [getLastD_switch wsT _ (⟨some wb, true, er.node.data⟩ : NodeView) hneT]
            exact hlastT

/-- Every pair visited by the chain walk is a stored record. -/
theorem chainGo_mem (s : Store) :
    ∀ (f b t : Nat) (d : NodeData), (t, d) ∈ chainGo s b f → s[t]? = some d
  | 0, b, t, d, h => by cases h
  | f + 1, b, t, d, h => by
    cases hdb : s[b]? with
    | none =>
      rw [show chainGo s b (f + 1) = [] from by rw [chainGo, hdb]] at h
      cases h
    | some db =>
      rw [show chainGo s b (f + 1) =
          (b, db) :: (if db.next = 0 then [] else chainGo s db.next f) from by
        rw [chainGo, hdb]] at h
      rcases List.mem_cons.mp h with h | h
      · cases h
        exact hdb
      · by_cases hn : db.next = 0
        · rw [if_pos hn] at h
          cases h
        · rw [if_neg hn] at h
          exact chainGo_mem s f db.next t d h

/-- Correspondence between the declarative chain search and the scan loop
under the invariant, at any sufficient fuel: a chain hit is exactly a
successful scan at the same block, and an empty search is a failed scan. -/
theorem chain_scan (s : Store) (c : Nat) (hInv : Inv s) :
    ∀ (f b : Nat), b < s.length → s.length - b < f →
      (∀ (t : Nat) (d : NodeData),
        (chainGo s b f).find? (fun q => q.2.char = c) = some (t, d) →
        scanGo s c (nodeRead s b) f = some (.found ⟨some t, true, d⟩)) ∧
      ((chainGo s b f).find? (fun q => q.2.char = c) = none →
        ∃ w, scanGo s c (nodeRead s b) f = some (.last w))
  | 0, b, hb, hf => by omega
  | f + 1, b, hb, hf => by
    cases hdb : s[b]? with
    | none =>
      rw [List.getElem?_eq_none_iff] at hdb
      omega
    | some d =>
      have hc1 : chainGo s b (f + 1) =
          (b, d) :: (if d.next = 0 then [] else chainGo s d.next f) := by
        rw [chainGo, hdb]
      have hread : nodeRead s b = ⟨some b, true, d⟩ := by rw [nodeRead, hdb]
      by_cases hcc : d.char = c
      · constructor
        · intro t d' heq
          rw [hc1, List.find?_cons_of_pos _ (by simp [hcc])] at heq
          have heq2 : ((b, d) : Nat × NodeData) = (t, d') := Option.some.inj heq
          cases heq2
          rw [scanGo, hread, if_pos (show d.char = c from hcc)]
        · intro heq
          rw [hc1, List.find?_cons_of_pos _ (by simp [hcc])] at heq
          cases heq
      · have hfindc : (chainGo s b (f + 1)).find? (fun q => q.2.char = c) =
            (if d.next = 0 then [] else chainGo s d.next f).find?
              (fun q => q.2.char = c) := by
          rw [hc1, List.find?_cons_of_neg _ (by simp [hcc])]
        by_cases hn : d.next = 0
        · constructor
          · intro t d' heq
            rw [hfindc, if_pos hn] at heq
            cases heq
          · intro _
            refine ⟨⟨some b, true, d⟩, ?_⟩
            rw [scanGo, hread, if_neg (show ¬ d.char = c from hcc),
              if_neg (show ¬ d.next ≠ 0 from by omega)]
        · have hprog : b < d.next ∧ d.next < s.length := by
            rcases hInv.next_prog b d hdb with hx | hx
            · exact absurd hx hn
            · exact hx
          have hscanstep : scanGo s c (nodeRead s b) (f + 1) =
              scanGo s c (nodeRead s d.next) f := by
            rw [scanGo, hread, if_neg (show ¬ d.char = c from hcc),
              if_pos (show d.next ≠ 0 from hn)]
          obtain ⟨ih1, ih2⟩ := chain_scan s c hInv f d.next hprog.2 (by omega)
          constructor
          · intro t d' heq
            rw [hfindc, if_neg hn] at heq
            rw [hscanstep]
            exact ih1 t d' heq
          · intro heq
            rw [hfindc, if_neg hn] at heq
            rw [hscanstep]
            exact ih2 heq

/-- Under the invariant, the declarative absence of a path implies that the
lookup loop reports the node as absent. -/
theorem pathAbsent_lookup (s : Store) (hInv : Inv s) :
    ∀ (x : List Nat) (b : Nat), 1 ≤ b → b < s.length → PathAbsentFrom s b x →
      lruNodeGo s (nodeRead s b) x = some none
  | [], b, hb1, hb, habs => by cases habs
  | c :: cs, b, hb1, hb, habs => by
    obtain ⟨hfound, hnone⟩ := chain_scan s c hInv s.length b hb (by omega)
    cases hfind : (chain s b).find? (fun q => q.2.char = c) with
    | none =>
      obtain ⟨w, hw⟩ := hnone hfind
      have hw2 : scanGo s c (nodeRead s b) (s.length + 1) = some (.last w) :=
        scanGo_mono s c s.length _ _ hw (s.length + 1) (by omega)
      rw [lruNodeGo, hw2]
    | some q =>
      obtain ⟨t, d⟩ := q
      have hscan : scanGo s c (nodeRead s b) (s.length + 1) =
          some (.found ⟨some t, true, d⟩) :=
        scanGo_mono s c s.length _ _ (hfound t d hfind) (s.length + 1) (by omega)
      have hmem : s[t]? = some d :=
        chainGo_mem s s.length b t d (List.mem_of_find?_eq_some hfind)
      rw [PathAbsentFrom] at habs
      rw [hfind] at habs
      cases cs with
      | nil =>
        have habs2 : False := habs
        cases habs2
      | cons c2 cs2 =>
        rw [lruNodeGo, hscan]
        by_cases hch : d.child = 0
        · exact (by
            rw [if_neg (show ¬ d.child ≠ 0 from by omega)] :
            (if d.child ≠ 0 then lruNodeGo s (nodeRead s d.child) (c2 :: cs2)
              else some none) = some none)
        · have habs3 : PathAbsentFrom s d.child (c2 :: cs2) := by
            have habs4 : (if d.child = 0 then True
                else PathAbsentFrom s d.child (c2 :: cs2)) := habs
            rw [if_neg hch] at habs4
            exact habs4
          have hprog : t < d.child ∧ d.child < s.length := by
            rcases hInv.child_prog t d hmem with hx | hx
            · exact absurd hx hch
            · exact hx
          exact (by
            rw [if_pos (show d.child ≠ 0 from hch)]
            exact pathAbsent_lookup s hInv (c2 :: cs2) d.child (by omega) hprog.2 habs3 :
            (if d.child ≠ 0 then lruNodeGo s (nodeRead s d.child) (c2 :: cs2)
              else some none) = some none)

/-- A full path witness makes the lookup loop return the last matched
view. -/
theorem lruNodeGo_pathViews (s : Store) :
    ∀ (x : List Nat) (v : NodeView) (ws : List NodeView),
      pathViews s v x = some ws → x ≠ [] →
      lruNodeGo s v x = some (some (ws.getLastD v))
  | [], v, ws, h, hne => absurd rfl hne
  | c :: cs, v, ws, h, hne => by
    rw [pathViews] at h
    cases hscan : scanGo s c v (s.length + 1) with
    | none => rw [hscan] at h; cases h
    | some res =>
      rw [hscan] at h
      cases res with
      | last w =>
        have h2 : (none : Option (List NodeView)) = some ws := h
        cases h2
      | found w =>
        cases cs with
        | nil =>
          have h2 : some [w] = some ws := h
          cases h2
          rw [lruNodeGo, hscan]
          rfl
        | cons c2 cs2 =>
          have h2 : (if w.data.child ≠ 0 then
              (pathViews s (nodeRead s w.data.child) (c2 :: cs2)).map (w :: ·)
              else none) = some ws := h
          by_cases hch : w.data.child ≠ 0
          · rw [if_pos hch] at h2
            cases hrec : pathViews s (nodeRead s w.data.child) (c2 :: cs2) with
            | none => rw [hrec] at h2; cases h2
            | some ws2 =>
              rw [hrec] at h2
              have h3 : some (w :: ws2) = some ws := h2
              cases h3
              have hne2 : ws2 ≠ [] := by
                have := pathViews_length s (c2 :: cs2) _ ws2 hrec
                intro hx
                rw [hx] at this
                simp at this
              rw [lruNodeGo, hscan]
              have hih := lruNodeGo_pathViews s (c2 :: cs2) (nodeRead s w.data.child)
                ws2 hrec (by simp)
              exact (by
                rw [if_pos hch, hih, List.getLastD_cons,
                  getLastD_switch ws2 w (nodeRead s w.data.child) hne2] :
                (if w.data.child ≠ 0 then
                  lruNodeGo s (nodeRead s w.data.child) (c2 :: cs2)
                else some none) = some (some ((w :: ws2).getLastD v)))
          · rw [if_neg hch] at h2
            cases h2

/-- The freshly initialized store satisfies the structural invariant. -/
theorem inv_emptyStore : Inv emptyStore := by
  have hmem : ∀ (i : Nat) (d : NodeData), emptyStore[i]? = some d →
      i = 0 ∧ d = defaultNode 0 := by
    intro i d hd
    have hi : i < 1 := (List.getElem?_eq_some.mp hd).1
    have hi0 : i = 0 := by omega
    subst hi0
    have hd0 : emptyStore[0]? = some (defaultNode 0) := rfl
    rw [hd0] at hd
    exact ⟨rfl, (Option.some.inj hd).symm⟩
  refine ⟨by decide, ?_, ?_, ?_, ?_, ?_, ?_, ?_, ?_⟩
  · intro d hd
    rw [(hmem 0 d hd).2]
    rfl
  · intro d hd
    rw [(hmem 0 d hd).2]
    rfl
  · intro i d hd
    rw [(hmem i d hd).2]
    exact Or.inl rfl
  · intro i d hd
    rw [(hmem i d hd).2]
    exact Or.inl rfl
  · intro i d hd
    rw [(hmem i d hd).2]
    exact Nat.zero_le i
  · intro i j di dj hdi hdj hne _
    rw [(hmem i di hdi).2] at hne
    exact absurd rfl hne
  · intro i j di dj hdi hdj hne _
    rw [(hmem i di hdi).2] at hne
    exact absurd rfl hne
  · intro i j di dj hdi hdj hne
    rw [(hmem i di hdi).2] at hne
    exact absurd rfl hne

/-- The two-block store left by adding the one-character lru 97 to the
fresh store satisfies the structural invariant. -/
theorem inv_pair : Inv [defaultNode 0, defaultNode 97] := by
  have hmem : ∀ (i : Nat) (d : NodeData),
      [defaultNode 0, defaultNode 97][i]? = some d →
      d.next = 0 ∧ d.child = 0 ∧ d.parent = 0 := by
    intro i d hd
    have hi : i < 2 := (List.getElem?_eq_some.mp hd).1
    interval_cases i
    · have hd0 : [defaultNode 0, defaultNode 97][0]? = some (defaultNode 0) := rfl
      rw [hd0] at hd
      rw [← Option.some.inj hd]
      exact ⟨rfl, rfl, rfl⟩
    · have hd1 : [defaultNode 0, defaultNode 97][1]? = some (defaultNode 97) := rfl
      rw [hd1] at hd
      rw [← Option.some.inj hd]
      exact ⟨rfl, rfl, rfl⟩
  refine ⟨by decide, ?_, ?_, ?_, ?_, ?_, ?_, ?_, ?_⟩
  · intro d hd
    exact (hmem 0 d hd).1
  · intro d hd
    exact (hmem 0 d hd).2.1
  · intro i d hd
    exact Or.inl (hmem i d hd).1
  · intro i d hd
    exact Or.inl (hmem i d hd).2.1
  · intro i d hd
    rw [(hmem i d hd).2.2]
    exact Nat.zero_le i
  · intro i j di dj hdi hdj hne _
    exact absurd (hmem i di hdi).1 hne
  · intro i j di dj hdi hdj hne _
    exact absurd (hmem i di hdi).2.1 hne
  · intro i j di dj hdi hdj hne
    exact absurd (hmem i di hdi).1 hne

/-- Claim C3, amended: on a store satisfying the structural invariant,
(round trip) if add_lru of a non-empty lru returns terminal node n, then
lru_node of the same lru on the resulting store returns a present node
carrying the block index of n; and (absence, amended with the hypothesis
that the root block exists) an lru that is declaratively absent — at some
step no node of the scanned sibling chain carries the sought character, or
the matched node lacks a needed child pointer — makes lru_node report it
absent. The original absence direction, stated without the root-existence
hypothesis, is refuted by the counterexample theorem. -/
theorem claim_C3 (s : Store) (x : List Nat) (hInv : Inv s) :
    (∀ r : AddResult, addLru s x = some r → x ≠ [] →
      ∃ v : NodeView, lruNode r.store x = some (some v) ∧ v.block = r.node.block) ∧
    (1 < s.length → PathAbsentFrom s LRU_TRIE_NODE_HEADER_BLOCKS x →
      lruNode s x = some none) := by
  constructor
  · intro r hr hxne
    have hb : LRU_TRIE_NODE_HEADER_BLOCKS < s.length ∨
        (LRU_TRIE_NODE_HEADER_BLOCKS = 1 ∧ s.length = 1) := by
      have := hInv.nonempty
      rcases Nat.lt_or_ge 1 s.length with h | h
      · exact Or.inl h
      · exact Or.inr ⟨rfl, by omega⟩
    obtain ⟨hInv2, hExt, ws, hpv, hreal, hhist, hnode⟩ :=
      addLruGo_spec x s LRU_TRIE_NODE_HEADER_BLOCKS [] initHistory [] r hInv le_rfl hb hr
    have hwsne : ws ≠ [] := by
      have hl := pathViews_length r.store x _ ws hpv
      intro hx
      rw [hx] at hl
      cases x with
      | nil => exact hxne rfl
      | cons a l => simp at hl
    have hlkp := lruNodeGo_pathViews r.store x
      (nodeRead r.store LRU_TRIE_NODE_HEADER_BLOCKS) ws hpv hxne
    refine ⟨ws.getLastD (nodeRead r.store LRU_TRIE_NODE_HEADER_BLOCKS), hlkp, ?_⟩
    rw [getLastD_switch ws _ (nodeRead s LRU_TRIE_NODE_HEADER_BLOCKS) hwsne, hnode]
  · intro hlen habs
    exact pathAbsent_lookup s hInv x LRU_TRIE_NODE_HEADER_BLOCKS le_rfl hlen habs

/-- Counterexample to the unamended absence direction of claim C3: the
freshly initialized store satisfies the invariant and is reachable, the
one-character lru 0 is declaratively absent (the root block holds no node
at all, so no scanned sibling carries character 0), yet lru_node reports it
as present: the read of the missing root block yields an in-memory default
node whose character 0 matches the walked character. -/
theorem claim_C3_cex :
    PathAbsentFrom emptyStore LRU_TRIE_NODE_HEADER_BLOCKS [0] ∧
    Inv emptyStore ∧ Reachable emptyStore ∧
    lruNode emptyStore [0] ≠ some none :=
  ⟨True.intro, inv_emptyStore, .base, by decide⟩

/-- Witness for claim C3 at concrete inputs: adding the lru 97 to the
fresh store and looking it up again returns its terminal block, and the
lru 98, declaratively absent from the resulting two-block store, is
reported absent by the lookup. -/
theorem claim_C3_wit :
    (∃ (r : AddResult) (v : NodeView), addLru emptyStore [97] = some r ∧
      lruNode r.store [97] = some (some v) ∧ v.block = r.node.block) ∧
    lruNode [defaultNode 0, defaultNode 97] [98] = some none := by
  constructor
  · obtain ⟨r, hr⟩ : ∃ r, addLru emptyStore [97] = some r := ⟨_, rfl⟩
    obtain ⟨v, hv1, hv2⟩ := (claim_C3 emptyStore [97] inv_emptyStore).1 r hr (by simp)
    exact ⟨r, v, hr, hv1, hv2⟩
  · exact (claim_C3 [defaultNode 0, defaultNode 97] [98] inv_pair).2 (by decide) True.intro

/-- Next-reachability composes. -/
theorem nextReach_trans (s : Store) (a b c : Nat) (h1 : NextReach s a b)
    (h2 : NextReach s b c) : NextReach s a c := by
  induction h2 with
  | refl => exact h1
  | step b2 d hb hd hnz ih => exact NextReach.step b2 d ih hd hnz

/-- Inversion of next-reachability. -/
theorem nextReach_dest (s : Store) (h t : Nat) (hr : NextReach s h t) :
    t = h ∨ ∃ (b : Nat) (d : NodeData), NextReach s h b ∧ s[b]? = some d ∧
      d.next ≠ 0 ∧ d.next = t := by
  cases hr with
  | refl => exact Or.inl rfl
  | step b d hb hd hnz => exact Or.inr ⟨b, d, hb, hd, hnz, rfl⟩

/-- Under the invariant, no next pointer reaches a chain head: the root
block is below every next target, and a child target never coincides with a
next target. -/
theorem head_not_next_target (s : Store) (hInv : Inv s) (h : Nat)
    (hh : IsHead s h) : ∀ (b : Nat) (d : NodeData), s[b]? = some d →
      d.next ≠ 0 → d.next ≠ h := by
  intro b d hd hnz heq
  rcases hh with hh | ⟨i, di, hdi, hch, hnz2⟩
  · subst hh
    rcases hInv.next_prog b d hd with hx | ⟨hx1, hx2⟩
    · exact hnz hx
    · have h1 : LRU_TRIE_NODE_HEADER_BLOCKS = 1 := rfl
      have hb0 : b = 0 := by omega
      subst hb0
      exact hnz (hInv.header_next d hd)
  · exact hInv.next_ne_child b i d di hd hdi hnz (by rw [heq, ← hch])

/-- Under the invariant, a block next-reachable from two chain heads forces
the heads to coincide: chains from distinct heads are disjoint. -/
theorem nextReach_inj (s : Store) (hInv : Inv s) :
    ∀ (t h h2 : Nat), IsHead s h → IsHead s h2 →
      NextReach s h t → NextReach s h2 t → h = h2 := by
  intro t
  induction t using Nat.strong_induction_on with
  | _ t ih =>
    intro h h2 hh hh2 hr hr2
    rcases nextReach_dest s h t hr with he | ⟨b, d, hb, hd, hnz, he⟩
    · rcases nextReach_dest s h2 t hr2 with he2 | ⟨b2, d2, hb2, hd2, hnz2, he2⟩
      · rw [← he, ← he2]
      · subst he
        exact absurd he2 (head_not_next_target s hInv t hh b2 d2 hd2 hnz2)
    · rcases nextReach_dest s h2 t hr2 with he2 | ⟨b2, d2, hb2, hd2, hnz2, he2⟩
      · subst he2
        exact absurd he (head_not_next_target s hInv t hh2 b d hd hnz)
      · have hbb : b = b2 := hInv.next_inj b b2 d d2 hd hd2 hnz (by rw [he, he2])
        subst hbb
        have hbt : b < t := by
          rcases hInv.next_prog b d hd with hx | ⟨hx1, hx2⟩
          · exact absurd hx hnz
          · omega
        exact ih b hbt h h2 hh hh2 hb hb2

/-- A failed scan reaches its final block along next pointers. -/
theorem scan_last_nextReach (s : Store) (c : Nat) (hInv : Inv s) :
    ∀ (f b t : Nat) (w : NodeView), b < s.length →
      scanGo s c (nodeRead s b) f = some (.last w) → w.block = some t →
      NextReach s b t
  | 0, b, t, w, hb, h, hw => by cases h
  | f + 1, b, t, w, hb, h, hw => by
    cases hd : s[b]? with
    | none =>
      rw [List.getElem?_eq_none_iff] at hd
      omega
    | some d =>
      rw [scanGo, show nodeRead s b = ⟨some b, true, d⟩ from by rw [nodeRead, hd]] at h
      by_cases hc : d.char = c
      · rw [if_pos (by exact hc)] at h
        cases h
      · rw [if_neg (by exact hc)] at h
        by_cases hn : d.next ≠ 0
        · rw [if_pos (by exact hn)] at h
          have hprog : b < d.next ∧ d.next < s.length := by
            rcases hInv.next_prog b d hd with hx | hx
            · exact absurd hx hn
            · exact hx
          have hr := scan_last_nextReach s c hInv f d.next t w hprog.2 h hw
          exact nextReach_trans s b d.next t (NextReach.step b d NextReach.refl hd hn) hr
        · rw [if_neg (by exact hn)] at h
          cases h
          cases hw
          exact NextReach.refl

/-- Every visited chain block is next-reachable from the chain start. -/
theorem chainGo_mem_nextReach (s : Store) :
    ∀ (f b x : Nat) (d : NodeData), (x, d) ∈ chainGo s b f → NextReach s b x
  | 0, b, x, d, h => by cases h
  | f + 1, b, x, d, h => by
    cases hdb : s[b]? with
    | none =>
      rw [show chainGo s b (f + 1) = [] from by rw [chainGo, hdb]] at h
      cases h
    | some db =>
      rw [show chainGo s b (f + 1) =
          (b, db) :: (if db.next = 0 then [] else chainGo s db.next f) from by
        rw [chainGo, hdb]] at h
      rcases List.mem_cons.mp h with h | h
      · cases h
        exact NextReach.refl
      · by_cases hn : db.next = 0
        · rw [if_pos hn] at h
          cases h
        · rw [if_neg hn] at h
          have hr := chainGo_mem_nextReach s f db.next x d h
          exact nextReach_trans s b db.next x
            (NextReach.step b db NextReach.refl hdb hn) hr

/-- The chain walk does not depend on the fuel once the fuel exceeds the
remaining store size. -/
theorem chainGo_fuel (s : Store) (hInv : Inv s) :
    ∀ (f f2 b : Nat), b < s.length → s.length - b < f → s.length - b < f2 →
      chainGo s b f = chainGo s b f2
  | 0, f2, b, hb, hf, hf2 => by omega
  | f + 1, 0, b, hb, hf, hf2 => by omega
  | f + 1, f2 + 1, b, hb, hf, hf2 => by
    cases hdb : s[b]? with
    | none =>
      rw [List.getElem?_eq_none_iff] at hdb
      omega
    | some d =>
      have e1 : chainGo s b (f + 1) =
          (b, d) :: (if d.next = 0 then [] else chainGo s d.next f) := by
        rw [chainGo, hdb]
      have e2 : chainGo s b (f2 + 1) =
          (b, d) :: (if d.next = 0 then [] else chainGo s d.next f2) := by
        rw [chainGo, hdb]
      rw [e1, e2]
      by_cases hn : d.next = 0
      · rw [if_pos hn, if_pos hn]
      · rw [if_neg hn, if_neg hn]
        have hprog : b < d.next ∧ d.next < s.length := by
          rcases hInv.next_prog b d hdb with hx | hx
          · exact absurd hx hn
          · exact hx
        rw [chainGo_fuel s hInv f f2 d.next hprog.2 (by omega) (by omega)]

/-- Chain characters are unchanged in a store that keeps the character and
next pointer of every old block. -/
theorem chain_chars_congr (s s2 : Store) (hInv : Inv s)
    (hkeep : ∀ (i : Nat) (di : NodeData), s[i]? = some di →
      ∃ di2, s2[i]? = some di2 ∧ di2.char = di.char ∧ di2.next = di.next) :
    ∀ (f b : Nat), b < s.length →
      (chainGo s2 b f).map (fun q => q.2.char) =
        (chainGo s b f).map (fun q => q.2.char)
  | 0, b, hb => rfl
  | f + 1, b, hb => by
    cases hdb : s[b]? with
    | none =>
      rw [List.getElem?_eq_none_iff] at hdb
      omega
    | some d =>
      obtain ⟨d2, hd2, hc2, hn2⟩ := hkeep b d hdb
      have e1 : chainGo s b (f + 1) =
          (b, d) :: (if d.next = 0 then [] else chainGo s d.next f) := by
        rw [chainGo, hdb]
      have e2 : chainGo s2 b (f + 1) =
          (b, d2) :: (if d2.next = 0 then [] else chainGo s2 d2.next f) := by
        rw [chainGo, hd2]
      rw [e1, e2]
      simp only [List.map_cons]
      rw [show ((b, d2) : Nat × NodeData).2.char = ((b, d) : Nat × NodeData).2.char
        from hc2]
      rw [show ((if d2.next = 0 then [] else chainGo s2 d2.next f) :
          List (Nat × NodeData)) = (if d.next = 0 then [] else chainGo s2 d.next f)
        from by rw [hn2]]
      by_cases hn : d.next = 0
      · rw [if_pos hn, if_pos hn]
      · rw [if_neg hn, if_neg hn]
        have hprog : b < d.next ∧ d.next < s.length := by
          rcases hInv.next_prog b d hdb with hx | hx
          · exact absurd hx hn
          · exact hx
        rw [chain_chars_congr s s2 hInv hkeep f d.next hprog.2]

/-- Chain characters from a start that never reaches a given block are
unchanged in a store that keeps the character and next pointer of every
other old block. -/
theorem chain_chars_congr_avoid (s s2 : Store) (hInv : Inv s) (t : Nat)
    (hkeep : ∀ (i : Nat) (di : NodeData), s[i]? = some di → i ≠ t →
      ∃ di2, s2[i]? = some di2 ∧ di2.char = di.char ∧ di2.next = di.next) :
    ∀ (f b : Nat), b < s.length → ¬ NextReach s b t →
      (chainGo s2 b f).map (fun q => q.2.char) =
        (chainGo s b f).map (fun q => q.2.char)
  | 0, b, hb, habs => rfl
  | f + 1, b, hb, habs => by
    cases hdb : s[b]? with
    | none =>
      rw [List.getElem?_eq_none_iff] at hdb
      omega
    | some d =>
      have hbt : b ≠ t := fun he => habs (he ▸ NextReach.refl)
      obtain ⟨d2, hd2, hc2, hn2⟩ := hkeep b d hdb hbt
      have e1 : chainGo s b (f + 1) =
          (b, d) :: (if d.next = 0 then [] else chainGo s d.next f) := by
        rw [chainGo, hdb]
      have e2 : chainGo s2 b (f + 1) =
          (b, d2) :: (if d2.next = 0 then [] else chainGo s2 d2.next f) := by
        rw [chainGo, hd2]
      rw [e1, e2]
      simp only [List.map_cons]
      rw [show ((b, d2) : Nat × NodeData).2.char = ((b, d) : Nat × NodeData).2.char
        from hc2]
      rw [show ((if d2.next = 0 then [] else chainGo s2 d2.next f) :
          List (Nat × NodeData)) = (if d.next = 0 then [] else chainGo s2 d.next f)
        from by rw [hn2]]
      by_cases hn : d.next = 0
      · rw [if_pos hn, if_pos hn]
      · rw [if_neg hn, if_neg hn]
        have hprog : b < d.next ∧ d.next < s.length := by
          rcases hInv.next_prog b d hdb with hx | hx
          · exact absurd hx hn
          · exact hx
        have habs2 : ¬ NextReach s d.next t := fun hr =>
          habs (nextReach_trans s b d.next t
            (NextReach.step b d NextReach.refl hdb hn) hr)
        rw [chain_chars_congr_avoid s s2 hInv t hkeep f d.next hprog.2 habs2]

/-- Unfolding equation of the chain at its definitional fuel. -/
theorem chain_eq (s : Store) (b : Nat) : chain s b = chainGo s b s.length := rfl

/-- Every chain head of a store of at least two blocks lies after the
header and inside the store. -/
theorem head_bounds (s : Store) (hInv : Inv s) (h : Nat) (hh : IsHead s h)
    (hlen : 2 ≤ s.length) : 1 ≤ h ∧ h < s.length := by
  rcases hh with hh | ⟨i, di, hdi, hch, hnz⟩
  · subst hh
    exact ⟨le_rfl, by have h1 : LRU_TRIE_NODE_HEADER_BLOCKS = 1 := rfl; omega⟩
  · rcases hInv.child_prog i di hdi with hx | ⟨hx1, hx2⟩
    · exact absurd (hch ▸ hx) hnz
    · rw [← hch]
      omega

/-- Appending a sibling carrying character c after a failed scan and
rewiring the scanned tail extends the chain character list by exactly c. -/
theorem chain_after_sib (s : Store) (c : Nat) (hInv : Inv s) (t : Nat) (wd : NodeData)
    (hrec : s[t]? = some wd) (hz : wd.next = 0) :
    ∀ (f b : Nat), b < s.length →
      scanGo s c (nodeRead s b) f = some (.last ⟨some t, true, wd⟩) →
      (chainGo ((s ++ [{ defaultNode c with parent := wd.parent }]).set t { wd with next := s.length }) b (f + 1)).map (fun q => q.2.char) =
        (chainGo s b f).map (fun q => q.2.char) ++ [c]
  | 0, b, hb, h => by cases h
  | f + 1, b, hb, h => by
    have hts : t < s.length := (List.getElem?_eq_some.mp hrec).1
    cases hdb : s[b]? with
    | none =>
      rw [List.getElem?_eq_none_iff] at hdb
      omega
    | some d =>
      rw [scanGo, show nodeRead s b = ⟨some b, true, d⟩ from by rw [nodeRead, hdb]] at h
      by_cases hc : d.char = c
      · rw [if_pos (by exact hc)] at h
        cases h
      · rw [if_neg (by exact hc)] at h
        by_cases hn : d.next ≠ 0
        · rw [if_pos (by exact hn)] at h
          have hbt : b ≠ t := by
            intro he
            subst he
            rw [hrec] at hdb
            cases hdb
            exact hn hz
          have hs2b : ((s ++ [{ defaultNode c with parent := wd.parent }]).set t { wd with next := s.length })[b]? = some d := by
            rw [List.getElem?_set_ne (fun hx => hbt hx.symm), List.getElem?_append,
              if_pos hb]
            exact hdb
          have e2 : chainGo ((s ++ [{ defaultNode c with parent := wd.parent }]).set t { wd with next := s.length }) b (f + 1 + 1) =
              (b, d) :: (if d.next = 0 then []
                else chainGo ((s ++ [{ defaultNode c with parent := wd.parent }]).set t { wd with next := s.length }) d.next (f + 1)) := by
            rw [chainGo, hs2b]
          have e1 : chainGo s b (f + 1) =
              (b, d) :: (if d.next = 0 then [] else chainGo s d.next f) := by
            rw [chainGo, hdb]
          rw [e1, e2, if_neg hn, if_neg hn]
          simp only [List.map_cons]
          have hprog : b < d.next ∧ d.next < s.length := by
            rcases hInv.next_prog b d hdb with hx | hx
            · exact absurd hx hn
            · exact hx
          rw [chain_after_sib s c hInv t wd hrec hz f d.next hprog.2 h]
          rfl
        · rw [if_neg (by exact hn)] at h
          have h2 : some (ScanResult.last ⟨some b, true, d⟩) =
              some (.last ⟨some t, true, wd⟩) := h
          injection h2 with h3
          injection h3 with h4
          injection h4 with h5 h6 h7
          injection h5 with h5b
          have h5s : t = b := h5b.symm
          subst h5s
          have h7s : wd = d := h7.symm
          subst h7s
          have hLpos : s.length ≠ 0 := by
            have := hInv.nonempty
            omega
          have hs2t : ((s ++ [{ defaultNode c with parent := wd.parent }]).set t { wd with next := s.length })[t]? = some { wd with next := s.length } :=
            List.getElem?_set_self (by rw [List.length_append]; omega)
          have hs2L : ((s ++ [{ defaultNode c with parent := wd.parent }]).set t { wd with next := s.length })[s.length]? =
              some { defaultNode c with parent := wd.parent } := by
            rw [List.getElem?_set_ne (by omega)]
            exact List.getElem?_concat_length s _
          have e2 : chainGo ((s ++ [{ defaultNode c with parent := wd.parent }]).set t { wd with next := s.length }) t (f + 1 + 1) =
              (t, { wd with next := s.length }) ::
                (if ({ wd with next := s.length } : NodeData).next = 0 then []
                 else chainGo ((s ++ [{ defaultNode c with parent := wd.parent }]).set t { wd with next := s.length })
                   ({ wd with next := s.length } : NodeData).next (f + 1)) := by
            rw [chainGo, hs2t]
          have e3 : chainGo ((s ++ [{ defaultNode c with parent := wd.parent }]).set t { wd with next := s.length }) s.length (f + 1) =
              (s.length, { defaultNode c with parent := wd.parent }) ::
                (if ({ defaultNode c with parent := wd.parent } : NodeData).next = 0
                 then []
                 else chainGo ((s ++ [{ defaultNode c with parent := wd.parent }]).set t { wd with next := s.length })
                   ({ defaultNode c with parent := wd.parent } : NodeData).next f) := by
            rw [chainGo, hs2L]
          have e1 : chainGo s t (f + 1) =
              (t, wd) :: (if wd.next = 0 then [] else chainGo s wd.next f) := by
            rw [chainGo, hdb]
          rw [e1, e2, if_pos hz,
            if_neg (show ¬ ({ wd with next := s.length } : NodeData).next = 0 from
              hLpos)]
          rw [show ({ wd with next := s.length } : NodeData).next = s.length from rfl]
          rw [e3, if_pos (show ({ defaultNode c with parent := wd.parent } :
            NodeData).next = 0 from rfl)]
          rfl

/-- Chains are distinct in a one-block store grown by its root record: the
only chain is the singleton root. -/
theorem distinct_append_root (s : Store) (d : NodeData) (hInv : Inv s)
    (hlen : s.length = 1) (hnext : d.next = 0) (hchild : d.child = 0) :
    ChainsDistinct (s ++ [d]) := by
  intro h hh
  have hl2 : (s ++ [d]).length = 2 := by
    rw [List.length_append, List.length_singleton, hlen]
  rcases hh with hh | ⟨i, di, hdi, hch, hnz⟩
  · subst hh
    have hrd : (s ++ [d])[1]? = some d := by
      rw [show (1 : Nat) = s.length from hlen.symm]
      exact List.getElem?_concat_length s d
    have e1 : chain (s ++ [d]) LRU_TRIE_NODE_HEADER_BLOCKS = [(1, d)] := by
      show chainGo (s ++ [d]) 1 ((s ++ [d]).length) = [(1, d)]
      rw [hl2]
      have e0 : chainGo (s ++ [d]) 1 2 = (1, d) ::
          (if d.next = 0 then [] else chainGo (s ++ [d]) d.next 1) := by
        rw [chainGo, hrd]
      rw [e0, if_pos hnext]
    rw [e1]
    simp
  · rcases append_elem_cases s d i di hdi with ⟨h1, h2⟩ | ⟨h1, h2⟩
    · have hi0 : i = 0 := by omega
      subst hi0
      exact absurd ((hInv.header_child di h2).symm.trans hch).symm hnz
    · subst h2
      exact absurd (hchild.symm.trans hch).symm hnz

/-- Chains stay distinct when a fresh child block holding no pointers is
appended and the child pointer of an existing childless block is set to it:
old chains keep their characters and the new chain is a singleton. -/
theorem distinct_child (s : Store) (cd : NodeData) (vb : Nat) (dv : NodeData)
    (hInv : Inv s) (hrec : s[vb]? = some dv) (hch : dv.child = 0) (hvb1 : 1 ≤ vb)
    (hnext : cd.next = 0) (hchild : cd.child = 0) (hdist : ChainsDistinct s) :
    ChainsDistinct ((s ++ [cd]).set vb { dv with child := s.length }) := by
  have hvs : vb < s.length := (List.getElem?_eq_some.mp hrec).1
  have hone := hInv.nonempty
  have hslen : (((s ++ [cd]).set vb { dv with child := s.length }) : Store).length = s.length + 1 := by
    rw [List.length_set, List.length_append, List.length_singleton]
  have hkeep : ∀ (i : Nat) (di : NodeData), s[i]? = some di →
      ∃ di2, ((s ++ [cd]).set vb { dv with child := s.length })[i]? = some di2 ∧ di2.char = di.char ∧ di2.next = di.next := by
    intro i di hdi
    by_cases hiv : i = vb
    · subst hiv
      have hde : dv = di := Option.some.inj (hrec.symm.trans hdi)
      subst hde
      exact ⟨{ dv with child := s.length },
        List.getElem?_set_self (by rw [List.length_append]; omega), rfl, rfl⟩
    · refine ⟨di, ?_, rfl, rfl⟩
      rw [List.getElem?_set_ne (fun hx => hiv hx.symm), List.getElem?_append,
        if_pos (List.getElem?_eq_some.mp hdi).1]
      exact hdi
  have hold : ∀ (h : Nat), IsHead s h → 1 ≤ h → h < s.length →
      ((chain ((s ++ [cd]).set vb { dv with child := s.length }) h).map (fun q => q.2.char)).Nodup := by
    intro h hh h1 hlt
    have e1 : (chain ((s ++ [cd]).set vb { dv with child := s.length }) h).map (fun q => q.2.char) =
        (chainGo s h (s.length + 1)).map (fun q => q.2.char) := by
      show (chainGo ((s ++ [cd]).set vb { dv with child := s.length }) h ((((s ++ [cd]).set vb { dv with child := s.length }) : Store).length)).map
        (fun q => q.2.char) = (chainGo s h (s.length + 1)).map (fun q => q.2.char)
      rw [hslen]
      exact chain_chars_congr s _ hInv hkeep (s.length + 1) h hlt
    rw [e1, chainGo_fuel s hInv (s.length + 1) s.length h hlt (by omega) (by omega)]
    exact hdist h hh
  intro h hh
  rcases hh with hh | ⟨i, di, hdi, hchi, hnz⟩
  · subst hh
    exact hold LRU_TRIE_NODE_HEADER_BLOCKS (Or.inl rfl) le_rfl (by
      have h1 : LRU_TRIE_NODE_HEADER_BLOCKS = 1 := rfl
      omega)
  · rcases set_append_elem_cases s cd vb { dv with child := s.length } hvs i di hdi
      with ⟨h1, h2⟩ | ⟨h1, h2, h3⟩ | ⟨h1, h2⟩
    · subst h2
      have hhL : h = s.length := hchi.symm
      subst hhL
      have hs2L : ((s ++ [cd]).set vb { dv with child := s.length })[s.length]? = some cd := by
        rw [List.getElem?_set_ne (by omega)]
        exact List.getElem?_concat_length s cd
      have e1 : chain ((s ++ [cd]).set vb { dv with child := s.length }) s.length = [(s.length, cd)] := by
        show chainGo ((s ++ [cd]).set vb { dv with child := s.length }) s.length ((((s ++ [cd]).set vb { dv with child := s.length }) : Store).length) =
          [(s.length, cd)]
        rw [hslen]
        have e0 : chainGo ((s ++ [cd]).set vb { dv with child := s.length }) s.length (s.length + 1) = (s.length, cd) ::
            (if cd.next = 0 then []
             else chainGo ((s ++ [cd]).set vb { dv with child := s.length }) cd.next s.length) := by
          rw [chainGo, hs2L]
        rw [e0, if_pos hnext]
      rw [e1]
      simp
    · have hdold : IsHead s h := Or.inr ⟨i, di, h3, hchi, hnz⟩
      have hbb := head_bounds s hInv h hdold (by omega)
      exact hold h hdold hbb.1 hbb.2
    · subst h2
      exact absurd (hchild.symm.trans hchi).symm hnz

/-- Chains stay distinct when a sibling carrying a character absent from
the scanned chain is appended at its tail: the scanned chain gains exactly
the new character and every other chain keeps its characters. -/
theorem distinct_sib (s : Store) (c : Nat) (hInv : Inv s) (t : Nat) (wd : NodeData)
    (hrec : s[t]? = some wd) (hz : wd.next = 0) (ht1 : 1 ≤ t) (b : Nat)
    (hbhead : IsHead s b) (hb1 : 1 ≤ b) (hb : b < s.length)
    (hscan : scanGo s c (nodeRead s b) (s.length + 1) = some (.last ⟨some t, true, wd⟩))
    (hdist : ChainsDistinct s) :
    ChainsDistinct ((s ++ [{ defaultNode c with parent := wd.parent }]).set t { wd with next := s.length }) := by
  have hts : t < s.length := (List.getElem?_eq_some.mp hrec).1
  have hone := hInv.nonempty
  have hlen2 : 2 ≤ s.length := by omega
  have hslen : (((s ++ [{ defaultNode c with parent := wd.parent }]).set t { wd with next := s.length }) : Store).length = s.length + 1 := by
    rw [List.length_set, List.length_append, List.length_singleton]
  have hInv2 : Inv ((s ++ [{ defaultNode c with parent := wd.parent }]).set t { wd with next := s.length }) :=
    inv_sib s _ t wd hInv hrec hz ht1 rfl rfl (by
      show wd.parent ≤ t
      exact hInv.parent_le t wd hrec)
  have hreach : NextReach s b t :=
    scan_last_nextReach s c hInv (s.length + 1) b t ⟨some t, true, wd⟩ hb hscan rfl
  have hfind : (chain s b).find? (fun q => q.2.char = c) = none := by
    cases hq : (chain s b).find? (fun q => q.2.char = c) with
    | none => rfl
    | some q =>
      obtain ⟨x, d⟩ := q
      have hfx := (chain_scan s c hInv s.length b hb (by omega)).1 x d hq
      have hfx2 : scanGo s c (nodeRead s b) (s.length + 1) =
          some (.found ⟨some x, true, d⟩) :=
        scanGo_mono s c s.length _ _ hfx (s.length + 1) (by omega)
      rw [hfx2] at hscan
      cases hscan
  have hnotin : c ∉ (chain s b).map (fun q => q.2.char) := by
    intro hcmem
    obtain ⟨q, hqmem, hqc⟩ := List.mem_map.mp hcmem
    have hnp := List.find?_eq_none.mp hfind q hqmem
    simp [hqc] at hnp
  have hheads : ∀ h, IsHead ((s ++ [{ defaultNode c with parent := wd.parent }]).set t { wd with next := s.length }) h → IsHead s h := by
    intro h hh
    rcases hh with hh | ⟨i, di, hdi, hchi, hnz⟩
    · exact Or.inl hh
    · rcases set_append_elem_cases s _ t { wd with next := s.length } hts i di hdi
        with ⟨h1, h2⟩ | ⟨h1, h2, h3⟩ | ⟨h1, h2⟩
      · subst h2
        exact Or.inr ⟨t, wd, hrec, show wd.child = h from hchi, hnz⟩
      · exact Or.inr ⟨i, di, h3, hchi, hnz⟩
      · subst h2
        exact absurd (hchi.symm.trans rfl) hnz
  intro h hh
  have hhold : IsHead s h := hheads h hh
  obtain ⟨hh1, hhlt⟩ := head_bounds s hInv h hhold hlen2
  by_cases hhb : h = b
  · subst hhb
    have e1 : (chain ((s ++ [{ defaultNode c with parent := wd.parent }]).set t { wd with next := s.length }) h).map (fun q => q.2.char) =
        (chainGo ((s ++ [{ defaultNode c with parent := wd.parent }]).set t { wd with next := s.length }) h (s.length + 1 + 1)).map (fun q => q.2.char) := by
      rw [chain_eq, hslen]
      rw [chainGo_fuel _ hInv2 (s.length + 1) (s.length + 1 + 1) h
        (by rw [hslen]; omega) (by rw [hslen]; omega) (by rw [hslen]; omega)]
    rw [e1, chain_after_sib s c hInv t wd hrec hz (s.length + 1) h hhlt hscan]
    rw [chainGo_fuel s hInv (s.length + 1) s.length h hhlt (by omega) (by omega)]
    rw [List.nodup_append]
    refine ⟨hdist h hhold, List.nodup_singleton c, ?_⟩
    intro a ha hamem
    rw [List.mem_singleton] at hamem
    subst hamem
    exact hnotin ha
  · have habs : ¬ NextReach s h t := fun hr =>
      hhb (nextReach_inj s hInv t h b hhold hbhead hr hreach)
    have hkeep : ∀ (i : Nat) (di : NodeData), s[i]? = some di → i ≠ t →
        ∃ di2, ((s ++ [{ defaultNode c with parent := wd.parent }]).set t { wd with next := s.length })[i]? = some di2 ∧
          di2.char = di.char ∧ di2.next = di.next := by
      intro i di hdi hit
      refine ⟨di, ?_, rfl, rfl⟩
      rw [List.getElem?_set_ne (fun hx => hit hx.symm), List.getElem?_append,
        if_pos (List.getElem?_eq_some.mp hdi).1]
      exact hdi
    have e1 : (chain ((s ++ [{ defaultNode c with parent := wd.parent }]).set t { wd with next := s.length }) h).map (fun q => q.2.char) =
        (chainGo s h (s.length + 1)).map (fun q => q.2.char) := by
      rw [chain_eq, hslen]
      exact chain_chars_congr_avoid s _ hInv t hkeep (s.length + 1) h hhlt habs
    rw [e1, chainGo_fuel s hInv (s.length + 1) s.length h hhlt (by omega) (by omega)]
    exact hdist h hhold

/-- Chains are distinct in the freshly initialized store: the root chain is
empty and no child pointer is set. -/
theorem chainsDistinct_emptyStore : ChainsDistinct emptyStore := by
  intro h hh
  rcases hh with hh | ⟨i, di, hdi, hch, hnz⟩
  · subst hh
    have e1 : chain emptyStore LRU_TRIE_NODE_HEADER_BLOCKS = [] := rfl
    rw [e1]
    exact List.nodup_nil
  · have hi : i < 1 := (List.getElem?_eq_some.mp hdi).1
    have hi0 : i = 0 := by omega
    subst hi0
    have hd0 : emptyStore[0]? = some (defaultNode 0) := rfl
    rw [hd0] at hdi
    have hde : defaultNode 0 = di := Option.some.inj hdi
    rw [← hde] at hch
    exact absurd ((show (defaultNode 0).child = 0 from rfl).symm.trans hch).symm hnz

/-- The sibling-ensuring step keeps chain characters pairwise distinct. -/
theorem ensure_distinct (s : Store) (b c : Nat) (er : EnsureResult) (hInv : Inv s)
    (hdist : ChainsDistinct s) (hbhead : IsHead s b) (hb1 : 1 ≤ b)
    (hb : b < s.length ∨ (b = 1 ∧ s.length = 1))
    (h : ensureCharFromSiblings s (nodeRead s b) c = some er) :
    ChainsDistinct er.store := by
  unfold ensureCharFromSiblings at h
  cases hd : s[b]? with
  | none =>
    have hread : nodeRead s b = ⟨none, false, defaultNode 0⟩ := by rw [nodeRead, hd]
    rw [hread] at h
    rw [if_pos rfl] at h
    have hlb : s.length ≤ b := by rw [List.getElem?_eq_none_iff] at hd; exact hd
    have hbeq : b = 1 ∧ s.length = 1 := by
      rcases hb with hb | hb
      · omega
      · exact hb
    obtain ⟨hb1e, hse⟩ := hbeq
    subst hb1e
    have h2 : some (⟨⟨some s.length, true, { defaultNode 0 with char := c }⟩,
        s ++ [{ defaultNode 0 with char := c }],
        [s ++ [{ defaultNode 0 with char := c }]]⟩ : EnsureResult) = some er := h
    cases h2
    exact distinct_append_root s _ hInv hse rfl rfl
  | some db =>
    have hbs : b < s.length := (List.getElem?_eq_some.mp hd).1
    have hread : nodeRead s b = ⟨some b, true, db⟩ := by rw [nodeRead, hd]
    rw [hread] at h
    rw [if_neg (fun hx => Bool.noConfusion hx)] at h
    cases hscan : scanGo s c (⟨some b, true, db⟩ : NodeView) (s.length + 1) with
    | none => rw [hscan] at h; cases h
    | some res =>
      rw [hscan] at h
      cases res with
      | found w =>
        have h2 : some (⟨w, s, []⟩ : EnsureResult) = some er := h
        cases h2
        exact hdist
      | last w =>
        obtain ⟨wbk, wex, wdat⟩ := w
        obtain ⟨⟨t, hwb, hwrec, hwex⟩, hwz, hwc⟩ :=
          scan_last_real s c hInv _ (nodeRead s b) ⟨wbk, wex, wdat⟩
            (realView_nodeRead s b hbs) (by rw [hread]; exact hscan)
        simp only at hwb hwex
        subst hwb
        subst hwex
        simp only at hwrec hwz hwc
        have ht1 : 1 ≤ t := by
          have := scan_last_block_ge s c hInv (s.length + 1) b t ⟨some t, true, wdat⟩ hbs
            (by rw [hread]; exact hscan) rfl
          omega
        have h2 : some (⟨⟨some s.length, true,
            { defaultNode c with parent := wdat.parent }⟩,
            (s ++ [{ defaultNode c with parent := wdat.parent }]).set t
              { wdat with next := s.length },
            [s ++ [{ defaultNode c with parent := wdat.parent }],
              (s ++ [{ defaultNode c with parent := wdat.parent }]).set t
                { wdat with next := s.length }]⟩ : EnsureResult) = some er := h
        cases h2
        exact distinct_sib s c hInv t wdat hwrec hwz ht1 b hbhead hb1 hbs
          (by rw [hread]; exact hscan) hdist

/-- The tail-extension loop keeps chain characters pairwise distinct: every
new chain it creates is a singleton. -/
theorem addLruTail_distinct :
    ∀ (cs : List Nat) (s : Store) (vdata : NodeData) (vexs : Bool) (snaps : List Store)
      (n : NodeView) (s2 : Store) (sn2 : List Store) (vb : Nat),
      Inv s → ChainsDistinct s → s[vb]? = some vdata → vdata.child = 0 → 1 ≤ vb →
      addLruTail s ⟨some vb, vexs, vdata⟩ snaps cs = (n, s2, sn2) →
      ChainsDistinct s2
  | [], s, vdata, vexs, snaps, n, s2, sn2, vb, hInv, hdist, hrec, hch, hvb1, h => by
    have h2 : ((⟨some vb, vexs, vdata⟩ : NodeView), s, snaps) = (n, s2, sn2) := h
    cases h2
    exact hdist
  | c :: cs2, s, vdata, vexs, snaps, n, s2, sn2, vb, hInv, hdist, hrec, hch, hvb1, h => by
    have hvs : vb < s.length := (List.getElem?_eq_some.mp hrec).1
    have h2 : addLruTail ((s ++ [{ defaultNode c with parent := vb }]).set vb
        { vdata with child := s.length })
        (⟨some s.length, true, { defaultNode c with parent := vb }⟩ : NodeView)
        (snaps ++ [s ++ [{ defaultNode c with parent := vb }],
          (s ++ [{ defaultNode c with parent := vb }]).set vb
            { vdata with child := s.length }]) cs2 = (n, s2, sn2) := h
    have hInvB : Inv ((s ++ [{ defaultNode c with parent := vb }]).set vb
        { vdata with child := s.length }) :=
      inv_child s _ vb vdata hInv hrec hch hvb1 rfl rfl le_rfl
    have hdistB : ChainsDistinct ((s ++ [{ defaultNode c with parent := vb }]).set vb
        { vdata with child := s.length }) :=
      distinct_child s _ vb vdata hInv hrec hch hvb1 rfl rfl hdist
    have hrecB : ((s ++ [{ defaultNode c with parent := vb }]).set vb
        { vdata with child := s.length })[s.length]? =
        some { defaultNode c with parent := vb } := by
      rw [List.getElem?_set_ne (by omega)]
      exact List.getElem?_concat_length s _
    exact addLruTail_distinct cs2 _ _ true _ n s2 sn2 s.length hInvB hdistB hrecB rfl
      (by omega) h2

/-- The descent loop of add_lru keeps chain characters pairwise
distinct. -/
theorem addLruGo_distinct :
    ∀ (x : List Nat) (s : Store) (b : Nat) (pre : List Nat) (h0 : WalkHistory)
      (snaps : List Store) (r : AddResult),
      Inv s → ChainsDistinct s → IsHead s b → 1 ≤ b →
      (b < s.length ∨ (b = 1 ∧ s.length = 1)) →
      addLruGo s (nodeRead s b) pre h0 snaps x = some r →
      ChainsDistinct r.store
  | [], s, b, pre, h0, snaps, r, hInv, hdist, hhead, hb1, hb, h => by
    have h2 : some (⟨nodeRead s b, h0, s, snaps⟩ : AddResult) = some r := h
    cases h2
    exact hdist
  | c :: cs, s, b, pre, h0, snaps, r, hInv, hdist, hhead, hb1, hb, h => by
    rw [addLruGo] at h
    cases hens : ensureCharFromSiblings s (nodeRead s b) c with
    | none => rw [hens] at h; cases h
    | some er =>
      rw [hens] at h
      obtain ⟨hInv2, hExt2, hReal2, hscan2, hblt2⟩ := ensure_spec s c b er hInv hb1 hb hens
      have hdist2 : ChainsDistinct er.store :=
        ensure_distinct s b c er hInv hdist hhead hb1 hb hens
      obtain ⟨wb, hwb, hwrec, hwex⟩ := hReal2
      have hnode : er.node = ⟨some wb, true, er.node.data⟩ := by rw [← hwb, ← hwex]
      have hwb1 : 1 ≤ wb := by
        have := scan_found_block_ge er.store c hInv2 (er.store.length + 1) b wb er.node
          hblt2 hscan2 hwb
        omega
      cases cs with
      | nil =>
        have h2 : some (⟨er.node, historyStep h0 er.node pre c, er.store,
            snaps ++ er.snaps⟩ : AddResult) = some r := h
        cases h2
        exact hdist2
      | cons c2 cs2 =>
        have h2 : (if er.node.data.child ≠ 0 then
            addLruGo er.store (nodeRead er.store er.node.data.child) (pre ++ [c])
              (historyStep h0 er.node pre c) (snaps ++ er.snaps) (c2 :: cs2)
          else
            some (⟨(addLruTail er.store er.node (snaps ++ er.snaps) (c2 :: cs2)).1,
              historyStep h0 er.node pre c,
              (addLruTail er.store er.node (snaps ++ er.snaps) (c2 :: cs2)).2.1,
              (addLruTail er.store er.node (snaps ++ er.snaps) (c2 :: cs2)).2.2⟩ :
                AddResult)) = some r := h
        by_cases hch : er.node.data.child ≠ 0
        · rw [if_pos hch] at h2
          have hcb2 : wb < er.node.data.child ∧
              er.node.data.child < er.store.length := by
            rcases hInv2.child_prog wb er.node.data hwrec with hx | hx
            · exact absurd hx hch
            · exact hx
          exact addLruGo_distinct (c2 :: cs2) er.store er.node.data.child (pre ++ [c])
            (historyStep h0 er.node pre c) (snaps ++ er.snaps) r hInv2 hdist2
            (Or.inr ⟨wb, er.node.data, hwrec, rfl, hch⟩) (by omega) (Or.inl hcb2.2) h2
        · rw [if_neg hch] at h2
          have hch0 : er.node.data.child = 0 := by omega
          rcases htl : addLruTail er.store er.node (snaps ++ er.snaps) (c2 :: cs2)
            with ⟨n2, s3, sn3⟩
          rw [htl] at h2
          have h3 : some (⟨n2, historyStep h0 er.node pre c, s3, sn3⟩ : AddResult)
              = some r := h2
          cases h3
          rw [hnode] at htl
          exact addLruTail_distinct (c2 :: cs2) er.store er.node.data true
            (snaps ++ er.snaps) n2 s3 sn3 wb hInv2 hdist2 hwrec hch0 hwb1 htl

/-- Every store reachable by add_lru calls from the fresh trie satisfies
the structural invariant and has pairwise-distinct chain characters. -/
theorem reachable_inv_distinct (s : Store) (hr : Reachable s) :
    Inv s ∧ ChainsDistinct s := by
  induction hr with
  | base => exact ⟨inv_emptyStore, chainsDistinct_emptyStore⟩
  | step s x r hs hadd ih =>
    obtain ⟨hInv, hdist⟩ := ih
    have hb : LRU_TRIE_NODE_HEADER_BLOCKS < s.length ∨
        (LRU_TRIE_NODE_HEADER_BLOCKS = 1 ∧ s.length = 1) := by
      have := hInv.nonempty
      rcases Nat.lt_or_ge 1 s.length with h | h
      · exact Or.inl h
      · exact Or.inr ⟨rfl, by omega⟩
    constructor
    · exact (addLruGo_spec x s LRU_TRIE_NODE_HEADER_BLOCKS [] initHistory [] r hInv
        le_rfl hb hadd).1
    · exact addLruGo_distinct x s LRU_TRIE_NODE_HEADER_BLOCKS [] initHistory [] r hInv
        hdist (Or.inl rfl) le_rfl hb hadd

/-- Claim C4: over every sequence of add_lru operations from the freshly
initialized trie, the characters of every sibling chain are pairwise
distinct; and ensuring a character absent from the chain scanned from a
block appends the new node at the tail of that chain, so sibling order is
insertion order. -/
theorem claim_C4 :
    (∀ s : Store, Reachable s → ChainsDistinct s) ∧
    (∀ (s : Store) (b c : Nat) (er : EnsureResult), Inv s → 1 ≤ b → b < s.length →
      ensureCharFromSiblings s (nodeRead s b) c = some er →
      c ∉ (chain s b).map (fun q => q.2.char) →
      (chain er.store b).map (fun q => q.2.char) =
        (chain s b).map (fun q => q.2.char) ++ [c]) := by
  constructor
  · intro s hr
    exact (reachable_inv_distinct s hr).2
  · intro s b c er hInv hb1 hb hens hnotin
    have hfind : (chain s b).find? (fun q => q.2.char = c) = none := by
      cases hq : (chain s b).find? (fun q => q.2.char = c) with
      | none => rfl
      | some q =>
        have hqmem := List.mem_of_find?_eq_some hq
        have hqp := List.find?_some hq
        exact absurd (List.mem_map.mpr ⟨q, hqmem, by simpa using hqp⟩) hnotin
    obtain ⟨w, hw⟩ := (chain_scan s c hInv s.length b hb (by omega)).2 hfind
    have hscan : scanGo s c (nodeRead s b) (s.length + 1) = some (.last w) :=
      scanGo_mono s c s.length _ _ hw (s.length + 1) (by omega)
    obtain ⟨wbk, wex, wdat⟩ := w
    obtain ⟨⟨t, hwb, hwrec, hwex⟩, hwz, hwc⟩ :=
      scan_last_real s c hInv (s.length + 1) (nodeRead s b) ⟨wbk, wex, wdat⟩
        (realView_nodeRead s b hb) hscan
    simp only at hwb hwex
    subst hwb
    subst hwex
    simp only at hwrec hwz hwc
    have ht1 : 1 ≤ t := by
      have := scan_last_block_ge s c hInv (s.length + 1) b t ⟨some t, true, wdat⟩ hb
        hscan rfl
      omega
    unfold ensureCharFromSiblings at hens
    cases hd : s[b]? with
    | none =>
      rw [List.getElem?_eq_none_iff] at hd
      omega
    | some db =>
      have hread : nodeRead s b = ⟨some b, true, db⟩ := by rw [nodeRead, hd]
      rw [hread] at hens
      rw [if_neg (fun hx => Bool.noConfusion hx)] at hens
      rw [show scanGo s c (⟨some b, true, db⟩ : NodeView) (s.length + 1) =
        some (.last ⟨some t, true, wdat⟩) from by rw [← hread]; exact hscan] at hens
      have h2 : some (⟨⟨some s.length, true,
          { defaultNode c with parent := wdat.parent }⟩,
          (s ++ [{ defaultNode c with parent := wdat.parent }]).set t
            { wdat with next := s.length },
          [s ++ [{ defaultNode c with parent := wdat.parent }],
            (s ++ [{ defaultNode c with parent := wdat.parent }]).set t
              { wdat with next := s.length }]⟩ : EnsureResult) = some er := hens
      cases h2
      have hslen2 : (((s ++ [{ defaultNode c with parent := wdat.parent }]).set t
          { wdat with next := s.length }) : Store).length = s.length + 1 := by
        rw [List.length_set, List.length_append, List.length_singleton]
      have hInv2 : Inv ((s ++ [{ defaultNode c with parent := wdat.parent }]).set t
          { wdat with next := s.length }) :=
        inv_sib s _ t wdat hInv hwrec hwz ht1 rfl rfl (hInv.parent_le t wdat hwrec)
      rw [chain_eq, hslen2]
      rw [chainGo_fuel _ hInv2 (s.length + 1) (s.length + 1 + 1) b
        (by rw [hslen2]; omega) (by rw [hslen2]; omega) (by rw [hslen2]; omega)]
      rw [chain_after_sib s c hInv t wdat hwrec hwz (s.length + 1) b hb hscan]
      rw [chainGo_fuel s hInv (s.length + 1) s.length b hb (by omega) (by omega)]
      rfl

/-- Witness for claim C4 at concrete inputs: the two-block store reached by
adding the lru 97 has pairwise-distinct chain characters, and ensuring the
absent character 98 on its root chain appends it at the tail. -/
theorem claim_C4_wit :
    ChainsDistinct [defaultNode 0, defaultNode 97] ∧
    (∃ er : EnsureResult,
      ensureCharFromSiblings [defaultNode 0, defaultNode 97]
        (nodeRead [defaultNode 0, defaultNode 97] 1) 98 = some er ∧
      (chain er.store 1).map (fun q => q.2.char) =
        (chain [defaultNode 0, defaultNode 97] 1).map (fun q => q.2.char) ++ [98]) := by
  constructor
  · exact claim_C4.1 [defaultNode 0, defaultNode 97]
      (Reachable.step emptyStore [97]
        ⟨⟨some 1, true, defaultNode 97⟩, initHistory,
          [defaultNode 0, defaultNode 97], [[defaultNode 0, defaultNode 97]]⟩
        Reachable.base (by decide))
  · obtain ⟨er, her⟩ : ∃ er, ensureCharFromSiblings [defaultNode 0, defaultNode 97]
        (nodeRead [defaultNode 0, defaultNode 97] 1) 98 = some er := ⟨_, rfl⟩
    exact ⟨er, her, claim_C4.2 [defaultNode 0, defaultNode 97] 1 98 er inv_pair
      (by decide) (by decide) her (by decide)⟩

/-- Setting a flag bit makes its test true. -/
theorem testFlag_setFlag_self (f p : Nat) : testFlag (setFlag f p) p = true := by
  simp [testFlag, setFlag, Nat.testBit_or, Nat.one_shiftLeft, Nat.testBit_two_pow_self]

/-- Setting a flag bit leaves every other bit unchanged. -/
theorem testFlag_setFlag_ne (f p q : Nat) (h : p ≠ q) :
    testFlag (setFlag f p) q = testFlag f q := by
  simp [testFlag, setFlag, Nat.testBit_or, Nat.one_shiftLeft,
    Nat.testBit_two_pow_of_ne h]

/-- Setting an already-set flag bit is the identity. -/
theorem setFlag_eq_self (f p : Nat) (h : testFlag f p = true) : setFlag f p = f := by
  apply Nat.eq_of_testBit_eq
  intro i
  by_cases hip : i = p
  · subst hip
    rw [show setFlag f i = f ||| 1 <<< i from rfl, Nat.testBit_or, Nat.one_shiftLeft,
      Nat.testBit_two_pow_self]
    have h2 : f.testBit i = true := h
    rw [h2]
    rfl
  · rw [show setFlag f p = f ||| 1 <<< p from rfl, Nat.testBit_or, Nat.one_shiftLeft,
      Nat.testBit_two_pow_of_ne (fun hx => hip hx.symm)]
    simp

/-- Setting a flag bit twice is setting it once. -/
theorem setFlag_idem (f p : Nat) : setFlag (setFlag f p) p = setFlag f p :=
  setFlag_eq_self (setFlag f p) p (testFlag_setFlag_self f p)

/-- Lookup in a store overwritten at one block. -/
theorem set_elem_cases (s : Store) (b : Nat) (d2 : NodeData) (hb : b < s.length)
    (i : Nat) (di : NodeData) (h : (s.set b d2)[i]? = some di) :
    (i = b ∧ di = d2) ∨ (i ≠ b ∧ s[i]? = some di) := by
  by_cases hib : i = b
  · subst hib
    rw [List.getElem?_set_self hb] at h
    exact Or.inl ⟨rfl, (Option.some.inj h).symm⟩
  · rw [List.getElem?_set_ne (fun hx => hib hx.symm)] at h
    exact Or.inr ⟨hib, h⟩

/-- The structural invariant survives an in-place write that keeps every
pointer of the record. -/
theorem inv_set_fields (s : Store) (b : Nat) (d d2 : NodeData) (hInv : Inv s)
    (hd : s[b]? = some d) (hn : d2.next = d.next) (hc : d2.child = d.child)
    (hp : d2.parent = d.parent) : Inv (s.set b d2) := by
  have hb : b < s.length := (List.getElem?_eq_some.mp hd).1
  have hlen : (s.set b d2).length = s.length := List.length_set s b d2
  have hback : ∀ (i : Nat) (di : NodeData), (s.set b d2)[i]? = some di →
      ∃ d0, s[i]? = some d0 ∧ di.next = d0.next ∧ di.child = d0.child ∧
        di.parent = d0.parent := by
    intro i di hi
    rcases set_elem_cases s b d2 hb i di hi with ⟨h1, h2⟩ | ⟨h1, h2⟩
    · subst h1
      subst h2
      exact ⟨d, hd, hn, hc, hp⟩
    · exact ⟨di, h2, rfl, rfl, rfl⟩
  refine ⟨by rw [hlen]; exact hInv.nonempty, ?_, ?_, ?_, ?_, ?_, ?_, ?_, ?_⟩
  · intro d0 h0
    obtain ⟨d1, hd1, e1, e2, e3⟩ := hback 0 d0 h0
    rw [e1]
    exact hInv.header_next d1 hd1
  · intro d0 h0
    obtain ⟨d1, hd1, e1, e2, e3⟩ := hback 0 d0 h0
    rw [e2]
    exact hInv.header_child d1 hd1
  · intro i di hi
    obtain ⟨d1, hd1, e1, e2, e3⟩ := hback i di hi
    rw [hlen, e1]
    exact hInv.next_prog i d1 hd1
  · intro i di hi
    obtain ⟨d1, hd1, e1, e2, e3⟩ := hback i di hi
    rw [hlen, e2]
    exact hInv.child_prog i d1 hd1
  · intro i di hi
    obtain ⟨d1, hd1, e1, e2, e3⟩ := hback i di hi
    rw [e3]
    exact hInv.parent_le i d1 hd1
  · intro i j di dj hdi hdj hne heq
    obtain ⟨d1, hd1, e1, e2, e3⟩ := hback i di hdi
    obtain ⟨d4, hd4, e4, e5, e6⟩ := hback j dj hdj
    rw [e1] at hne heq
    rw [e4] at heq
    exact hInv.next_inj i j d1 d4 hd1 hd4 hne heq
  · intro i j di dj hdi hdj hne heq
    obtain ⟨d1, hd1, e1, e2, e3⟩ := hback i di hdi
    obtain ⟨d4, hd4, e4, e5, e6⟩ := hback j dj hdj
    rw [e2] at hne heq
    rw [e5] at heq
    exact hInv.child_inj i j d1 d4 hd1 hd4 hne heq
  · intro i j di dj hdi hdj hne
    obtain ⟨d1, hd1, e1, e2, e3⟩ := hback i di hdi
    obtain ⟨d4, hd4, e4, e5, e6⟩ := hback j dj hdj
    rw [e1] at hne ⊢
    rw [e5]
    exact hInv.next_ne_child i j d1 d4 hd1 hd4 hne

/-- Two stores of equal length whose records agree on everything except
possibly the webentity id: the shape left untouched by a repeated
add_page. -/
def SameShape (s s2 : Store) : Prop :=
  s.length = s2.length ∧
  ∀ (i : Nat) (di di2 : NodeData), s[i]? = some di → s2[i]? = some di2 →
    di2.char = di.char ∧ di2.flags = di.flags ∧ di2.next = di.next ∧
    di2.child = di.child ∧ di2.parent = di.parent

/-- SameShape is reflexive. -/
theorem sameShape_refl (s : Store) : SameShape s s := by
  refine ⟨rfl, fun i di di2 h1 h2 => ?_⟩
  rw [h1] at h2
  cases h2
  exact ⟨rfl, rfl, rfl, rfl, rfl⟩

/-- SameShape is transitive. -/
theorem sameShape_trans {s1 s2 s3 : Store} (h12 : SameShape s1 s2)
    (h23 : SameShape s2 s3) : SameShape s1 s3 := by
  refine ⟨h12.1.trans h23.1, fun i di di3 h1 h3 => ?_⟩
  have hl12 := h12.1
  have hi : i < s2.length := by
    have := (List.getElem?_eq_some.mp h1).1
    omega
  cases h2 : s2[i]? with
  | none =>
    rw [List.getElem?_eq_none_iff] at h2
    omega
  | some di2 =>
    obtain ⟨a1, a2, a3, a4, a5⟩ := h12.2 i di di2 h1 h2
    obtain ⟨b1, b2, b3, b4, b5⟩ := h23.2 i di2 di3 h2 h3
    exact ⟨b1.trans a1, b2.trans a2, b3.trans a3, b4.trans a4, b5.trans a5⟩

/-- SameShape implies the growth relation. -/
theorem grows_of_sameShape {s s2 : Store} (h : SameShape s s2) : Grows s s2 := by
  refine ⟨le_of_eq h.1, fun i di di2 h1 h2 => ?_⟩
  obtain ⟨a1, a2, a3, a4, a5⟩ := h.2 i di di2 h1 h2
  refine ⟨a1, a5, Or.inl a3, Or.inl a4, by rw [a2], fun hw => by rw [a2]; exact hw,
    fun hw => Or.inr (by rw [a2]; exact hw)⟩

/-- An in-place write that keeps the character, flags and pointers of the
record keeps the shape. -/
theorem sameShape_set (s : Store) (b : Nat) (d d2 : NodeData)
    (hd : s[b]? = some d) (h1 : d2.char = d.char) (h2 : d2.flags = d.flags)
    (h3 : d2.next = d.next) (h4 : d2.child = d.child) (h5 : d2.parent = d.parent) :
    SameShape s (s.set b d2) := by
  have hb : b < s.length := (List.getElem?_eq_some.mp hd).1
  refine ⟨(List.length_set s b d2).symm, fun i di di2 hi hi2 => ?_⟩
  rcases set_elem_cases s b d2 hb i di2 hi2 with ⟨e1, e2⟩ | ⟨e1, e2⟩
  · subst e1
    subst e2
    rw [hd] at hi
    cases hi
    exact ⟨h1, h2, h3, h4, h5⟩
  · rw [hi] at e2
    cases e2
    exact ⟨rfl, rfl, rfl, rfl, rfl⟩

/-- The invariant transfers along SameShape. -/
theorem inv_sameShape {s s2 : Store} (hInv : Inv s) (h : SameShape s s2) : Inv s2 := by
  have hback : ∀ (i : Nat) (di2 : NodeData), s2[i]? = some di2 →
      ∃ d0, s[i]? = some d0 ∧ di2.next = d0.next ∧ di2.child = d0.child ∧
        di2.parent = d0.parent := by
    intro i di2 hi2
    have hl := h.1
    have hi : i < s.length := by
      have := (List.getElem?_eq_some.mp hi2).1
      omega
    cases hi0 : s[i]? with
    | none =>
      rw [List.getElem?_eq_none_iff] at hi0
      omega
    | some d0 =>
      obtain ⟨a1, a2, a3, a4, a5⟩ := h.2 i d0 di2 hi0 hi2
      exact ⟨d0, rfl, a3, a4, a5⟩
  refine ⟨by rw [← h.1]; exact hInv.nonempty, ?_, ?_, ?_, ?_, ?_, ?_, ?_, ?_⟩
  · intro d0 h0
    obtain ⟨d1, hd1, e1, e2, e3⟩ := hback 0 d0 h0
    rw [e1]
    exact hInv.header_next d1 hd1
  · intro d0 h0
    obtain ⟨d1, hd1, e1, e2, e3⟩ := hback 0 d0 h0
    rw [e2]
    exact hInv.header_child d1 hd1
  · intro i di hi
    obtain ⟨d1, hd1, e1, e2, e3⟩ := hback i di hi
    rw [← h.1, e1]
    exact hInv.next_prog i d1 hd1
  · intro i di hi
    obtain ⟨d1, hd1, e1, e2, e3⟩ := hback i di hi
    rw [← h.1, e2]
    exact hInv.child_prog i d1 hd1
  · intro i di hi
    obtain ⟨d1, hd1, e1, e2, e3⟩ := hback i di hi
    rw [e3]
    exact hInv.parent_le i d1 hd1
  · intro i j di dj hdi hdj hne heq
    obtain ⟨d1, hd1, e1, e2, e3⟩ := hback i di hdi
    obtain ⟨d4, hd4, e4, e5, e6⟩ := hback j dj hdj
    rw [e1] at hne heq
    rw [e4] at heq
    exact hInv.next_inj i j d1 d4 hd1 hd4 hne heq
  · intro i j di dj hdi hdj hne heq
    obtain ⟨d1, hd1, e1, e2, e3⟩ := hback i di hdi
    obtain ⟨d4, hd4, e4, e5, e6⟩ := hback j dj hdj
    rw [e2] at hne heq
    rw [e5] at heq
    exact hInv.child_inj i j d1 d4 hd1 hd4 hne heq
  · intro i j di dj hdi hdj hne
    obtain ⟨d1, hd1, e1, e2, e3⟩ := hback i di hdi
    obtain ⟨d4, hd4, e4, e5, e6⟩ := hback j dj hdj
    rw [e1] at hne ⊢
    rw [e5]
    exact hInv.next_ne_child i j d1 d4 hd1 hd4 hne

/-- Growth as performed by the webentity-prefix phase of add_page: blocks
only appended, characters, parents and set pointers kept, and the flags of
an existing block either kept or extended by the has_webentity bit. -/
def FlagsEvolve (s s2 : Store) : Prop :=
  s.length ≤ s2.length ∧
  ∀ (i : Nat) (di di2 : NodeData), s[i]? = some di → s2[i]? = some di2 →
    di2.char = di.char ∧ di2.parent = di.parent ∧
    (di2.next = di.next ∨ di.next = 0) ∧ (di2.child = di.child ∨ di.child = 0) ∧
    (di2.flags = di.flags ∨ di2.flags = setFlag di.flags FLAG_WEBENTITY)

/-- FlagsEvolve is reflexive. -/
theorem flagsEvolve_refl (s : Store) : FlagsEvolve s s := by
  refine ⟨le_rfl, fun i di di2 h1 h2 => ?_⟩
  rw [h1] at h2
  cases h2
  exact ⟨rfl, rfl, Or.inl rfl, Or.inl rfl, Or.inl rfl⟩

/-- FlagsEvolve is transitive. -/
theorem flagsEvolve_trans {s1 s2 s3 : Store} (h12 : FlagsEvolve s1 s2)
    (h23 : FlagsEvolve s2 s3) : FlagsEvolve s1 s3 := by
  refine ⟨h12.1.trans h23.1, fun i di di3 h1 h3 => ?_⟩
  have hl12 := h12.1
  have hi : i < s2.length := by
    have := (List.getElem?_eq_some.mp h1).1
    omega
  cases h2 : s2[i]? with
  | none =>
    rw [List.getElem?_eq_none_iff] at h2
    omega
  | some di2 =>
    obtain ⟨a1, a2, a3, a4, a5⟩ := h12.2 i di di2 h1 h2
    obtain ⟨b1, b2, b3, b4, b5⟩ := h23.2 i di2 di3 h2 h3
    refine ⟨b1.trans a1, b2.trans a2, ?_, ?_, ?_⟩
    · rcases a3 with a3 | a3
      · rcases b3 with b3 | b3
        · exact Or.inl (b3.trans a3)
        · exact Or.inr (a3 ▸ b3)
      · exact Or.inr a3
    · rcases a4 with a4 | a4
      · rcases b4 with b4 | b4
        · exact Or.inl (b4.trans a4)
        · exact Or.inr (a4 ▸ b4)
      · exact Or.inr a4
    · rcases a5 with a5 | a5
      · rcases b5 with b5 | b5
        · exact Or.inl (b5.trans a5)
        · exact Or.inr (by rw [b5, a5])
      · rcases b5 with b5 | b5
        · exact Or.inr (by rw [b5, a5])
        · exact Or.inr (by rw [b5, a5, setFlag_idem])

/-- FlagsEvolve follows from the add_lru growth relation. -/
theorem flagsEvolve_of_extends {s s2 : Store} (h : Extends s s2) :
    FlagsEvolve s s2 := by
  refine ⟨h.1, fun i di di2 h1 h2 => ?_⟩
  obtain ⟨a1, a2, a3, a4, a5, a6⟩ := h.2 i di di2 h1 h2
  refine ⟨a1, a2, ?_, ?_, Or.inl a3⟩
  · rcases a5 with a5 | a5
    · exact Or.inl a5
    · exact Or.inr a5.1
  · rcases a6 with a6 | a6
    · exact Or.inl a6
    · exact Or.inr a6.1

/-- FlagsEvolve implies the growth relation. -/
theorem grows_of_flagsEvolve {s s2 : Store} (h : FlagsEvolve s s2) : Grows s s2 := by
  refine ⟨h.1, fun i di di2 h1 h2 => ?_⟩
  obtain ⟨a1, a2, a3, a4, a5⟩ := h.2 i di di2 h1 h2
  refine ⟨a1, a2, ?_, ?_, ?_, ?_, ?_⟩
  · rcases a3 with a3 | a3
    · exact Or.inl a3
    · exact Or.inr a3
  · rcases a4 with a4 | a4
    · exact Or.inl a4
    · exact Or.inr a4
  · rcases a5 with a5 | a5
    · rw [a5]
    · rw [a5]
      exact testFlag_setFlag_ne di.flags FLAG_WEBENTITY FLAG_RULE (by decide)
  · intro hw
    rcases a5 with a5 | a5
    · rw [a5]
      exact hw
    · rw [a5]
      exact testFlag_setFlag_self di.flags FLAG_WEBENTITY
  · intro hw
    rcases a5 with a5 | a5
    · exact Or.inr (by rw [a5]; exact hw)
    · exact Or.inr (by rw [a5]; exact testFlag_setFlag_self di.flags FLAG_WEBENTITY)

/-- The is-page bit of every old record survives FlagsEvolve. -/
theorem flagsEvolve_page {s s2 : Store} (h : FlagsEvolve s s2) (i : Nat)
    (di di2 : NodeData) (h1 : s[i]? = some di) (h2 : s2[i]? = some di2) :
    testFlag di2.flags FLAG_PAGE = testFlag di.flags FLAG_PAGE := by
  rcases (h.2 i di di2 h1 h2).2.2.2.2 with a5 | a5
  · rw [a5]
  · rw [a5]
    exact testFlag_setFlag_ne di.flags FLAG_WEBENTITY FLAG_PAGE (by decide)

/-- The has-webentity bit of an old record is monotone under FlagsEvolve. -/
theorem flagsEvolve_web {s s2 : Store} (h : FlagsEvolve s s2) (i : Nat)
    (di di2 : NodeData) (h1 : s[i]? = some di) (h2 : s2[i]? = some di2)
    (hw : testFlag di.flags FLAG_WEBENTITY = true) :
    testFlag di2.flags FLAG_WEBENTITY = true := by
  rcases (h.2 i di di2 h1 h2).2.2.2.2 with a5 | a5
  · rw [a5]
    exact hw
  · rw [a5]
    exact testFlag_setFlag_self di.flags FLAG_WEBENTITY

/-- A walk over a fully present path writes nothing: the descent loop
returns the last matched view, the folded history, the unchanged store and
the unchanged snapshot list. -/
theorem addLruGo_noop (s : Store) (hInv : Inv s) :
    ∀ (x : List Nat) (b : Nat) (pre : List Nat) (h0 : WalkHistory)
      (snaps : List Store) (ws : List NodeView),
      b < s.length → pathViews s (nodeRead s b) x = some ws →
      addLruGo s (nodeRead s b) pre h0 snaps x =
        some ⟨ws.getLastD (nodeRead s b), histOf h0 pre ws x, s, snaps⟩
  | [], b, pre, h0, snaps, ws, hb, hpv => by
    have h2 : some ([] : List NodeView) = some ws := hpv
    cases h2
    rfl
  | c :: cs, b, pre, h0, snaps, ws, hb, hpv => by
    rw [pathViews] at hpv
    cases hscan : scanGo s c (nodeRead s b) (s.length + 1) with
    | none => rw [hscan] at hpv; cases hpv
    | some res =>
      rw [hscan] at hpv
      cases res with
      | last w =>
        have h2 : (none : Option (List NodeView)) = some ws := hpv
        cases h2
      | found w =>
        cases hd : s[b]? with
        | none =>
          rw [List.getElem?_eq_none_iff] at hd
          omega
        | some db =>
          have hread : nodeRead s b = ⟨some b, true, db⟩ := by rw [nodeRead, hd]
          have hens : ensureCharFromSiblings s (nodeRead s b) c = some ⟨w, s, []⟩ := by
            unfold ensureCharFromSiblings
            rw [hread]
            rw [if_neg (fun hx => Bool.noConfusion hx)]
            rw [show scanGo s c (⟨some b, true, db⟩ : NodeView) (s.length + 1) =
              some (.found w) from by rw [← hread]; exact hscan]
          rw [addLruGo, hens]
          cases cs with
          | nil =>
            have h2 : some [w] = some ws := hpv
            cases h2
            exact (by rw [List.append_nil] :
              some (⟨w, historyStep h0 w pre c, s, snaps ++ []⟩ : AddResult) =
              some (⟨w, historyStep h0 w pre c, s, snaps⟩ : AddResult))
          | cons c2 cs2 =>
            have hpv2 : (if w.data.child ≠ 0 then
                (pathViews s (nodeRead s w.data.child) (c2 :: cs2)).map (w :: ·)
                else none) = some ws := hpv
            by_cases hch : w.data.child ≠ 0
            · rw [if_pos hch] at hpv2
              cases hrec : pathViews s (nodeRead s w.data.child) (c2 :: cs2) with
              | none => rw [hrec] at hpv2; cases hpv2
              | some ws2 =>
                rw [hrec] at hpv2
                have h3 : some (w :: ws2) = some ws := hpv2
                cases h3
                obtain ⟨wb, hwb, hwrec, hwex⟩ := scan_found_real s c hInv (s.length + 1)
                  (nodeRead s b) w (realView_nodeRead s b hb) hscan
                have hcb : w.data.child < s.length := by
                  rcases hInv.child_prog wb w.data hwrec with hx | hx
                  · exact absurd hx hch
                  · exact hx.2
                have hih := addLruGo_noop s hInv (c2 :: cs2) w.data.child (pre ++ [c])
                  (historyStep h0 w pre c) (snaps ++ []) ws2 hcb hrec
                have hne2 : ws2 ≠ [] := by
                  have hl := pathViews_length s (c2 :: cs2) _ ws2 hrec
                  intro hx
                  rw [hx] at hl
                  simp at hl
                exact (by
                  rw [if_pos hch, hih, List.append_nil]
                  rw [show histOf h0 pre (w :: ws2) (c :: c2 :: cs2) =
                    histOf (historyStep h0 w pre c) (pre ++ [c]) ws2 (c2 :: cs2)
                    from rfl]
                  rw [List.getLastD_cons,
                    getLastD_switch ws2 w (nodeRead s w.data.child) hne2] :
                  (if w.data.child ≠ 0 then
                    addLruGo s (nodeRead s w.data.child) (pre ++ [c])
                      (historyStep h0 w pre c) (snaps ++ []) (c2 :: cs2)
                  else
                    some (⟨(addLruTail s w (snaps ++ []) (c2 :: cs2)).1,
                      historyStep h0 w pre c,
                      (addLruTail s w (snaps ++ []) (c2 :: cs2)).2.1,
                      (addLruTail s w (snaps ++ []) (c2 :: cs2)).2.2⟩ : AddResult)) =
                  some (⟨(w :: ws2).getLastD (nodeRead s b),
                    histOf h0 pre (w :: ws2) (c :: c2 :: cs2), s, snaps⟩ : AddResult))
            · rw [if_neg hch] at hpv2
              cases hpv2

/-- A full path transfers along growth: the same characters match at the
same blocks in the grown store. -/
theorem pathViews_grows (s s2 : Store) (hInv : Inv s) (hg : Grows s s2) :
    ∀ (x : List Nat) (b : Nat) (ws : List NodeView), b < s.length →
      pathViews s (nodeRead s b) x = some ws →
      ∃ ws2, pathViews s2 (nodeRead s2 b) x = some ws2 ∧
        List.Forall₂ (fun w w2 => w.block = w2.block) ws ws2 ∧
        ∀ w2 ∈ ws2, RealView s2 w2
  | [], b, ws, hb, hpv => by
    have h2 : some ([] : List NodeView) = some ws := hpv
    cases h2
    exact ⟨[], rfl, List.Forall₂.nil, by simp⟩
  | c :: cs, b, ws, hb, hpv => by
    rw [pathViews] at hpv
    cases hscan : scanGo s c (nodeRead s b) (s.length + 1) with
    | none => rw [hscan] at hpv; cases hpv
    | some res =>
      rw [hscan] at hpv
      cases res with
      | last w =>
        have h2 : (none : Option (List NodeView)) = some ws := hpv
        cases h2
      | found w =>
        obtain ⟨wb, hwb, hwrec, hwex⟩ := scan_found_real s c hInv (s.length + 1)
          (nodeRead s b) w (realView_nodeRead s b hb) hscan
        have hwnode : w = ⟨some wb, true, w.data⟩ := by rw [← hwb, ← hwex]
        obtain ⟨wd2, hwd2, hscan2⟩ := scan_grows s s2 c hg (s.length + 1) b wb w.data
          (by rw [← hwnode]; exact hscan)
        have hscan3 : scanGo s2 c (nodeRead s2 b) (s2.length + 1) =
            some (.found ⟨some wb, true, wd2⟩) :=
          scanGo_mono s2 c (s.length + 1) _ _ hscan2 (s2.length + 1)
            (by have := hg.1; omega)
        cases cs with
        | nil =>
          have h2 : some [w] = some ws := hpv
          cases h2
          refine ⟨[⟨some wb, true, wd2⟩], ?_, ?_, ?_⟩
          · rw [pathViews, hscan3]
          · exact List.Forall₂.cons (by rw [hwb]) List.Forall₂.nil
          · intro w2 hw2
            simp only [List.mem_singleton] at hw2
            subst hw2
            exact ⟨wb, rfl, hwd2, rfl⟩
        | cons c2 cs2 =>
          have hpv2 : (if w.data.child ≠ 0 then
              (pathViews s (nodeRead s w.data.child) (c2 :: cs2)).map (w :: ·)
              else none) = some ws := hpv
          by_cases hch : w.data.child ≠ 0
          · rw [if_pos hch] at hpv2
            cases hrec : pathViews s (nodeRead s w.data.child) (c2 :: cs2) with
            | none => rw [hrec] at hpv2; cases hpv2
            | some wsr =>
              rw [hrec] at hpv2
              have h3 : some (w :: wsr) = some ws := hpv2
              cases h3
              have hcb : w.data.child < s.length := by
                rcases hInv.child_prog wb w.data hwrec with hx | hx
                · exact absurd hx hch
                · exact hx.2
              obtain ⟨wsr2, hpvr2, hfa, hreal⟩ := pathViews_grows s s2 hInv hg
                (c2 :: cs2) w.data.child wsr hcb hrec
              have hch2 : wd2.child = w.data.child := by
                rcases (hg.2 wb w.data wd2 hwrec hwd2).2.2.2.1 with hx | hx
                · exact hx
                · exact absurd hx hch
              refine ⟨⟨some wb, true, wd2⟩ :: wsr2, ?_, ?_, ?_⟩
              · rw [pathViews, hscan3]
                exact (by
                  rw [if_pos (show wd2.child ≠ 0 from by rw [hch2]; exact hch), hch2,
                    hpvr2]
                  rfl :
                  (if wd2.child ≠ 0 then
                    (pathViews s2 (nodeRead s2 wd2.child) (c2 :: cs2)).map
                      ((⟨some wb, true, wd2⟩ : NodeView) :: ·)
                  else none) = some ((⟨some wb, true, wd2⟩ : NodeView) :: wsr2))
              · exact List.Forall₂.cons (by rw [hwb]) hfa
              · intro w2 hw2
                rcases List.mem_cons.mp hw2 with hw2 | hw2
                · subst hw2
                  exact ⟨wb, rfl, hwd2, rfl⟩
                · exact hreal w2 hw2
          · rw [if_neg hch] at hpv2
            cases hpv2

/-- The rule list written by one history step. -/
theorem historyStep_rules (h0 : WalkHistory) (w : NodeView) (pre : List Nat) (c : Nat) :
    (historyStep h0 w pre c).rules_to_apply =
      (if testFlag w.data.flags FLAG_RULE = true then h0.rules_to_apply ++ [pre ++ [c]]
       else h0.rules_to_apply) := by
  unfold historyStep
  by_cases hw : testFlag w.data.flags FLAG_WEBENTITY = true
  · rw [if_pos hw]
    by_cases hr : testFlag w.data.flags FLAG_RULE = true
    · rw [if_pos hr, if_pos hr]
      try rfl
    · rw [if_neg hr, if_neg hr]
      try rfl
  · rw [if_neg hw]
    by_cases hr : testFlag w.data.flags FLAG_RULE = true
    · rw [if_pos hr, if_pos hr]
      try rfl
    · rw [if_neg hr, if_neg hr]
      try rfl

/-- The accumulated rule prefixes depend on the matched views only through
their creation-rule bits. -/
theorem histOf_rules_congr {ws ws2 : List NodeView}
    (hfa : List.Forall₂ (fun w w2 => testFlag w2.data.flags FLAG_RULE =
      testFlag w.data.flags FLAG_RULE) ws ws2) :
    ∀ (x pre : List Nat) (h0 h02 : WalkHistory),
      h02.rules_to_apply = h0.rules_to_apply →
      (histOf h02 pre ws2 x).rules_to_apply = (histOf h0 pre ws x).rules_to_apply := by
  induction hfa with
  | nil =>
    intro x pre h0 h02 hr
    cases x with
    | nil => exact hr
    | cons c cs => exact hr
  | @cons w w2 l1 l2 hw hws ih =>
    intro x pre h0 h02 hr
    cases x with
    | nil => exact hr
    | cons c cs =>
      rw [histOf, histOf]
      refine ih cs (pre ++ [c]) _ _ ?_
      rw [historyStep_rules, historyStep_rules, hw]
      by_cases hb : testFlag w.data.flags FLAG_RULE = true
      · rw [if_pos hb, if_pos hb, hr]
      · rw [if_neg hb, if_neg hb, hr]

/-- One history step depends on the matched view only through its two flag
bits and its webentity id. -/
theorem historyStep_congrBits (h0 : WalkHistory) (w w2 : NodeView) (pre : List Nat)
    (c : Nat)
    (hwb : testFlag w2.data.flags FLAG_WEBENTITY = testFlag w.data.flags FLAG_WEBENTITY)
    (hrb : testFlag w2.data.flags FLAG_RULE = testFlag w.data.flags FLAG_RULE)
    (hid : w2.data.webentity_id = w.data.webentity_id) :
    historyStep h0 w2 pre c = historyStep h0 w pre c := by
  unfold historyStep
  rw [hwb, hrb, hid]

/-- The whole history depends on the matched views only through their two
flag bits and their webentity id. -/
theorem histOf_congrBits {ws ws2 : List NodeView}
    (hfa : List.Forall₂ (fun w w2 =>
      testFlag w2.data.flags FLAG_WEBENTITY = testFlag w.data.flags FLAG_WEBENTITY ∧
      testFlag w2.data.flags FLAG_RULE = testFlag w.data.flags FLAG_RULE ∧
      w2.data.webentity_id = w.data.webentity_id) ws ws2) :
    ∀ (x pre : List Nat) (h0 : WalkHistory), histOf h0 pre ws2 x = histOf h0 pre ws x := by
  induction hfa with
  | nil =>
    intro x pre h0
    cases x with
    | nil => rfl
    | cons c cs => rfl
  | cons hw hws ih =>
    intro x pre h0
    cases x with
    | nil => rfl
    | cons c cs =>
      rw [histOf, histOf, historyStep_congrBits h0 _ _ pre c hw.1 hw.2.1 hw.2.2]
      exact ih cs (pre ++ [c]) _

/-- The last element with default respects a pointwise relation. -/
theorem forall₂_getLastD {R : NodeView → NodeView → Prop} {ws ws2 : List NodeView}
    (h : List.Forall₂ R ws ws2) : ∀ (a a2 : NodeView), R a a2 →
      R (ws.getLastD a) (ws2.getLastD a2) := by
  induction h with
  | nil =>
    intro a a2 ha
    exact ha
  | cons hw hws ih =>
    intro a a2 ha
    rw [List.getLastD_cons, List.getLastD_cons]
    exact ih _ _ hw

/-- The last element with default of a non-empty list is a member. -/
theorem getLastD_mem {α : Type} : ∀ (l : List α) (a : α), l ≠ [] → l.getLastD a ∈ l
  | [], a, h => absurd rfl h
  | x :: xs, a, h => by
    rw [List.getLastD_cons]
    by_cases hxs : xs = []
    · subst hxs
      simp
    · exact List.mem_cons_of_mem x (getLastD_mem xs x hxs)

/-- The page-flag write of add_page on a stored record grows the store. -/
theorem grows_set_pageflag (s : Store) (b : Nat) (d : NodeData) (hd : s[b]? = some d) :
    Grows s (s.set b { d with flags := setFlag d.flags FLAG_PAGE }) := by
  have hb : b < s.length := (List.getElem?_eq_some.mp hd).1
  refine ⟨le_of_eq (List.length_set s b _).symm, fun i di di2 h1 h2 => ?_⟩
  rcases set_elem_cases s b _ hb i di2 h2 with ⟨e1, e2⟩ | ⟨e1, e2⟩
  · subst e1
    subst e2
    rw [hd] at h1
    cases h1
    refine ⟨rfl, rfl, Or.inl rfl, Or.inl rfl, ?_, ?_, ?_⟩
    · exact testFlag_setFlag_ne d.flags FLAG_PAGE FLAG_RULE (by decide)
    · intro hw
      rw [show ({ d with flags := setFlag d.flags FLAG_PAGE } : NodeData).flags =
        setFlag d.flags FLAG_PAGE from rfl,
        testFlag_setFlag_ne d.flags FLAG_PAGE FLAG_WEBENTITY (by decide)]
      exact hw
    · intro hw
      exact Or.inl rfl
  · rw [h1] at e2
    cases e2
    exact ⟨rfl, rfl, Or.inl rfl, Or.inl rfl, rfl, fun hw => hw, fun hw => Or.inl rfl⟩

/-- Unfolding of the webentity write on a located view. -/
theorem setWeb_eq (s : Store) (b : Nat) (vexs : Bool) (vdata : NodeData) (weid : Nat) :
    setWebentityWrite s ⟨some b, vexs, vdata⟩ weid =
      s.set b { vdata with
        flags := setFlag vdata.flags FLAG_WEBENTITY
        webentity_id := weid } := rfl

/-- The webentity write on a stored record evolves flags by at most the
has-webentity bit. -/
theorem flagsEvolve_setWeb (s : Store) (b : Nat) (vexs : Bool) (vdata : NodeData)
    (weid : Nat) (hd : s[b]? = some vdata) :
    FlagsEvolve s (setWebentityWrite s ⟨some b, vexs, vdata⟩ weid) := by
  rw [setWeb_eq]
  have hb : b < s.length := (List.getElem?_eq_some.mp hd).1
  refine ⟨le_of_eq (List.length_set s b _).symm, fun i di di2 h1 h2 => ?_⟩
  rcases set_elem_cases s b _ hb i di2 h2 with ⟨e1, e2⟩ | ⟨e1, e2⟩
  · subst e1
    subst e2
    rw [hd] at h1
    cases h1
    exact ⟨rfl, rfl, Or.inl rfl, Or.inl rfl, Or.inr rfl⟩
  · rw [h1] at e2
    cases e2
    exact ⟨rfl, rfl, Or.inl rfl, Or.inl rfl, Or.inl rfl⟩

/-- The webentity write on an already-flagged record changes nothing but
the stored id. -/
theorem sameShape_setWeb (base scur : Store) (hss : SameShape base scur)
    (b : Nat) (vexs : Bool) (vdata : NodeData) (weid : Nat)
    (hd : scur[b]? = some vdata) (hweb : testFlag vdata.flags FLAG_WEBENTITY = true) :
    SameShape base (setWebentityWrite scur ⟨some b, vexs, vdata⟩ weid) := by
  rw [setWeb_eq]
  exact sameShape_trans hss (sameShape_set scur b vdata _ hd rfl
    (setFlag_eq_self vdata.flags FLAG_WEBENTITY hweb) rfl rfl rfl)

/-- A prefix already installed for a webentity: its full path is present
and its terminal record carries the has-webentity flag (with the root
record standing in for the empty prefix). -/
def PathDone (s : Store) (p : List Nat) : Prop :=
  (p = [] → ∃ d1, s[LRU_TRIE_NODE_HEADER_BLOCKS]? = some d1 ∧
    testFlag d1.flags FLAG_WEBENTITY = true) ∧
  (p ≠ [] → ∃ ws, pathViews s (nodeRead s LRU_TRIE_NODE_HEADER_BLOCKS) p = some ws ∧
    (∀ w ∈ ws, RealView s w) ∧
    ∃ (b : Nat) (db : NodeData),
      (ws.getLastD (nodeRead s LRU_TRIE_NODE_HEADER_BLOCKS)).block = some b ∧
      s[b]? = some db ∧ testFlag db.flags FLAG_WEBENTITY = true)

/-- An installed prefix stays installed in any store the current one grows
into. -/
theorem pathDone_grows (s s2 : Store) (hInv : Inv s) (hg : Grows s s2)
    (hlen : 1 < s.length) (p : List Nat) (hpd : PathDone s p) : PathDone s2 p := by
  have hH : LRU_TRIE_NODE_HEADER_BLOCKS = 1 := rfl
  have hlen2 : 1 < s2.length := lt_of_lt_of_le hlen hg.1
  constructor
  · intro hpe
    obtain ⟨d1, hd1, hweb⟩ := hpd.1 hpe
    cases hx : s2[LRU_TRIE_NODE_HEADER_BLOCKS]? with
    | none =>
      rw [List.getElem?_eq_none_iff] at hx
      omega
    | some d1c =>
      exact ⟨d1c, rfl, (hg.2 LRU_TRIE_NODE_HEADER_BLOCKS d1 d1c hd1 hx).2.2.2.2.2.1 hweb⟩
  · intro hpe
    obtain ⟨ws, hpv, hreal, b, db, hbl, hbrec, hbweb⟩ := hpd.2 hpe
    obtain ⟨ws2, hpv2, hfa, hreal2⟩ := pathViews_grows s s2 hInv hg p
      LRU_TRIE_NODE_HEADER_BLOCKS ws (by omega) hpv
    refine ⟨ws2, hpv2, hreal2, b, ?_⟩
    have hb1 : (nodeRead s LRU_TRIE_NODE_HEADER_BLOCKS).block =
        (nodeRead s2 LRU_TRIE_NODE_HEADER_BLOCKS).block := by
      cases hx : s[LRU_TRIE_NODE_HEADER_BLOCKS]? with
      | none =>
        rw [List.getElem?_eq_none_iff] at hx
        omega
      | some dr =>
        cases hx2 : s2[LRU_TRIE_NODE_HEADER_BLOCKS]? with
        | none =>
          rw [List.getElem?_eq_none_iff] at hx2
          omega
        | some dr2 =>
          rw [nodeRead, hx, nodeRead, hx2]
    have hterm := forall₂_getLastD hfa (nodeRead s LRU_TRIE_NODE_HEADER_BLOCKS)
      (nodeRead s2 LRU_TRIE_NODE_HEADER_BLOCKS) hb1
    have hbl2 : (ws2.getLastD (nodeRead s2 LRU_TRIE_NODE_HEADER_BLOCKS)).block =
        some b := by
      rw [← hterm]
      exact hbl
    have hbs : b < s.length := (List.getElem?_eq_some.mp hbrec).1
    have hgl := hg.1
    cases hx : s2[b]? with
    | none =>
      rw [List.getElem?_eq_none_iff] at hx
      omega
    | some db2 =>
      exact ⟨db2, hbl2, rfl, (hg.2 b db db2 hbrec hx).2.2.2.2.2.1 hbweb⟩

/-- Full specification of the prefix loop of Traph.__add_prefixes: the
invariant is preserved, the store only grows with at most has-webentity
flag additions on old records, and every processed prefix ends installed. -/
theorem addPrefixesGo_spec :
    ∀ (pfxs : List (List Nat)) (weid : Nat) (s s2 : Store),
      Inv s → 1 < s.length → addPrefixesGo weid s pfxs = some s2 →
      Inv s2 ∧ 1 < s2.length ∧ Grows s s2 ∧ FlagsEvolve s s2 ∧
      ∀ p ∈ pfxs, PathDone s2 p
  | [], weid, s, s2, hInv, hlen, h => by
    have h2 : some s = some s2 := h
    cases h2
    exact ⟨hInv, hlen, grows_refl s, flagsEvolve_refl s, by simp⟩
  | p :: ps, weid, s, s2, hInv, hlen, h => by
    have hH : LRU_TRIE_NODE_HEADER_BLOCKS = 1 := rfl
    rw [addPrefixesGo] at h
    cases hadd : addLru s p with
    | none => rw [hadd] at h; cases h
    | some r =>
      rw [hadd] at h
      have h2 : addPrefixesGo weid (setWebentityWrite r.store r.node weid) ps =
          some s2 := h
      obtain ⟨hInv1, hExt1, ws, hpv, hreal, hhist, hnode⟩ :=
        addLruGo_spec p s LRU_TRIE_NODE_HEADER_BLOCKS [] initHistory [] r hInv
          le_rfl (Or.inl (by omega)) hadd
      have hlen1 : 1 < r.store.length := lt_of_lt_of_le hlen hExt1.1
      have hterm : ∃ (b : Nat) (vexs : Bool),
          r.node = ⟨some b, vexs, r.node.data⟩ ∧ r.store[b]? = some r.node.data := by
        by_cases hpe : p = []
        · rw [hpe] at hadd
          rw [show addLru s [] = some ⟨nodeRead s LRU_TRIE_NODE_HEADER_BLOCKS,
              initHistory, s, []⟩ from rfl] at hadd
          cases hadd
          cases hx : s[LRU_TRIE_NODE_HEADER_BLOCKS]? with
          | none =>
            rw [List.getElem?_eq_none_iff] at hx
            omega
          | some dr =>
            refine ⟨LRU_TRIE_NODE_HEADER_BLOCKS, true, ?_, ?_⟩
            · rw [show nodeRead s LRU_TRIE_NODE_HEADER_BLOCKS =
                ⟨some LRU_TRIE_NODE_HEADER_BLOCKS, true, dr⟩ from by rw [nodeRead, hx]]
            · rw [show nodeRead s LRU_TRIE_NODE_HEADER_BLOCKS =
                ⟨some LRU_TRIE_NODE_HEADER_BLOCKS, true, dr⟩ from by rw [nodeRead, hx]]
              exact hx
        · have hne : ws ≠ [] := by
            have hl := pathViews_length r.store p _ ws hpv
            intro hx
            rw [hx] at hl
            cases p with
            | nil => exact hpe rfl
            | cons a l => simp at hl
          have hmem : ws.getLastD (nodeRead s LRU_TRIE_NODE_HEADER_BLOCKS) ∈ ws :=
            getLastD_mem ws _ hne
          obtain ⟨b, hb, hrec, hex⟩ := hreal _ hmem
          rw [← hnode] at hb hrec hex
          exact ⟨b, true, by rw [← hb, ← hex], hrec⟩
      obtain ⟨b, vexs, hvnode, hvrec⟩ := hterm
      rw [hvnode] at h2
      have hfeS : FlagsEvolve r.store (setWebentityWrite r.store
          ⟨some b, vexs, r.node.data⟩ weid) :=
        flagsEvolve_setWeb r.store b vexs r.node.data weid hvrec
      have hInvS : Inv (setWebentityWrite r.store ⟨some b, vexs, r.node.data⟩ weid) := by
        rw [setWeb_eq]
        exact inv_set_fields r.store b r.node.data _ hInv1 hvrec rfl rfl rfl
      have hlenS : 1 < (setWebentityWrite r.store
          ⟨some b, vexs, r.node.data⟩ weid).length := by
        rw [setWeb_eq, List.length_set]
        exact hlen1
      have hrecS : (setWebentityWrite r.store ⟨some b, vexs, r.node.data⟩ weid)[b]? =
          some { r.node.data with
            flags := setFlag r.node.data.flags FLAG_WEBENTITY
            webentity_id := weid } := by
        rw [setWeb_eq]
        exact List.getElem?_set_self (List.getElem?_eq_some.mp hvrec).1
      obtain ⟨ihInv, ihlen, ihg, ihfe, ihpd⟩ := addPrefixesGo_spec ps weid _ s2
        hInvS hlenS h2
      refine ⟨ihInv, ihlen, ?_, ?_, ?_⟩
      · exact grows_trans (grows_of_extends hExt1)
          (grows_trans (grows_of_flagsEvolve hfeS) ihg)
      · exact flagsEvolve_trans (flagsEvolve_of_extends hExt1)
          (flagsEvolve_trans hfeS ihfe)
      · intro q hq
        rcases List.mem_cons.mp hq with hq | hq
        · rw [hq]
          refine pathDone_grows _ s2 hInvS ihg hlenS p ?_
          constructor
          · intro hpe
            rw [hpe] at hadd
            rw [show addLru s [] = some ⟨nodeRead s LRU_TRIE_NODE_HEADER_BLOCKS,
                initHistory, s, []⟩ from rfl] at hadd
            cases hadd
            have hb1 : b = LRU_TRIE_NODE_HEADER_BLOCKS := by
              have hbl := congrArg NodeView.block hvnode
              cases hx : s[LRU_TRIE_NODE_HEADER_BLOCKS]? with
              | none =>
                rw [List.getElem?_eq_none_iff] at hx
                omega
              | some dr =>
                rw [show nodeRead s LRU_TRIE_NODE_HEADER_BLOCKS =
                  ⟨some LRU_TRIE_NODE_HEADER_BLOCKS, true, dr⟩ from by
                    rw [nodeRead, hx]] at hbl
                exact (Option.some.inj hbl).symm
            subst hb1
            exact ⟨_, hrecS, testFlag_setFlag_self _ _⟩
          · intro hpe
            obtain ⟨ws2, hpv2, hfa2, hreal2⟩ := pathViews_grows r.store _ hInv1
              (grows_of_flagsEvolve hfeS) p LRU_TRIE_NODE_HEADER_BLOCKS ws
              (by omega) hpv
            refine ⟨ws2, hpv2, hreal2, b, _, ?_, hrecS, testFlag_setFlag_self _ _⟩
            have hb1 : (nodeRead r.store LRU_TRIE_NODE_HEADER_BLOCKS).block =
                (nodeRead (setWebentityWrite r.store ⟨some b, vexs, r.node.data⟩ weid)
                  LRU_TRIE_NODE_HEADER_BLOCKS).block := by
              cases hx : r.store[LRU_TRIE_NODE_HEADER_BLOCKS]? with
              | none =>
                rw [List.getElem?_eq_none_iff] at hx
                omega
              | some dr =>
                cases hx2 : (setWebentityWrite r.store
                    ⟨some b, vexs, r.node.data⟩ weid)[LRU_TRIE_NODE_HEADER_BLOCKS]? with
                | none =>
                  rw [List.getElem?_eq_none_iff] at hx2
                  have hls : (setWebentityWrite r.store
                      ⟨some b, vexs, r.node.data⟩ weid).length = r.store.length := by
                    rw [setWeb_eq, List.length_set]
                  omega
                | some dr2 =>
                  rw [nodeRead, hx, nodeRead, hx2]
            have hterm2 := forall₂_getLastD hfa2
              (nodeRead r.store LRU_TRIE_NODE_HEADER_BLOCKS)
              (nodeRead (setWebentityWrite r.store ⟨some b, vexs, r.node.data⟩ weid)
                LRU_TRIE_NODE_HEADER_BLOCKS) hb1
            rw [← hterm2]
            have hnode2 : ws.getLastD (nodeRead r.store LRU_TRIE_NODE_HEADER_BLOCKS) =
                ws.getLastD (nodeRead s LRU_TRIE_NODE_HEADER_BLOCKS) := by
              have hne : ws ≠ [] := by
                have hl := pathViews_length r.store p _ ws hpv
                intro hx
                rw [hx] at hl
                cases p with
                | nil => exact hpe rfl
                | cons a l => simp at hl
              exact getLastD_switch ws _ _ hne
            rw [hnode2, ← hnode, hvnode]
        · exact ihpd q hq

/-- The prefix loop of a repeated add_page rewrites only webentity ids:
every prefix is already installed, so each trie walk matches without
writing and each terminal flag write is the identity on flags. -/
theorem addPrefixesGo_noop :
    ∀ (pfxs : List (List Nat)) (weid : Nat) (base scur s2 : Store),
      Inv base → 1 < base.length → SameShape base scur →
      (∀ p ∈ pfxs, PathDone base p) →
      addPrefixesGo weid scur pfxs = some s2 →
      SameShape base s2
  | [], weid, base, scur, s2, hInv, hlen, hss, hpd, h => by
    have h2 : some scur = some s2 := h
    cases h2
    exact hss
  | p :: ps, weid, base, scur, s2, hInv, hlen, hss, hpd, h => by
    have hH : LRU_TRIE_NODE_HEADER_BLOCKS = 1 := rfl
    rw [addPrefixesGo] at h
    have hInvC : Inv scur := inv_sameShape hInv hss
    have hlenC : 1 < scur.length := by
      rw [← hss.1]
      exact hlen
    have hpdp := hpd p (List.mem_cons_self p ps)
    by_cases hpe : p = []
    · obtain ⟨d1b, hd1b, hweb1⟩ := hpdp.1 hpe
      cases hx : scur[LRU_TRIE_NODE_HEADER_BLOCKS]? with
      | none =>
        rw [List.getElem?_eq_none_iff] at hx
        omega
      | some d1c =>
        have hfeq : d1c.flags = d1b.flags := (hss.2 _ d1b d1c hd1b hx).2.1
        rw [hpe] at h
        rw [show addLru scur [] = some ⟨nodeRead scur LRU_TRIE_NODE_HEADER_BLOCKS,
          initHistory, scur, []⟩ from rfl] at h
        have h2 : addPrefixesGo weid (setWebentityWrite scur
            (nodeRead scur LRU_TRIE_NODE_HEADER_BLOCKS) weid) ps = some s2 := h
        rw [show nodeRead scur LRU_TRIE_NODE_HEADER_BLOCKS =
          ⟨some LRU_TRIE_NODE_HEADER_BLOCKS, true, d1c⟩ from by rw [nodeRead, hx]] at h2
        have hssN := sameShape_setWeb base scur hss LRU_TRIE_NODE_HEADER_BLOCKS true
          d1c weid hx (by rw [hfeq]; exact hweb1)
        exact addPrefixesGo_noop ps weid base _ s2 hInv hlen hssN
          (fun q hq => hpd q (List.mem_cons_of_mem _ hq)) h2
    · obtain ⟨ws, hpv, hreal, b, db, hbl, hbrec, hbweb⟩ := hpdp.2 hpe
      obtain ⟨ws2, hpv2, hfa, hreal2⟩ := pathViews_grows base scur hInv
        (grows_of_sameShape hss) p LRU_TRIE_NODE_HEADER_BLOCKS ws (by omega) hpv
      have hnoop := addLruGo_noop scur hInvC p LRU_TRIE_NODE_HEADER_BLOCKS []
        initHistory [] ws2 (by omega) hpv2
      rw [show addLru scur p = some ⟨ws2.getLastD
        (nodeRead scur LRU_TRIE_NODE_HEADER_BLOCKS),
        histOf initHistory [] ws2 p, scur, []⟩ from hnoop] at h
      have h2 : addPrefixesGo weid (setWebentityWrite scur
          (ws2.getLastD (nodeRead scur LRU_TRIE_NODE_HEADER_BLOCKS)) weid) ps =
          some s2 := h
      have hb1 : (nodeRead base LRU_TRIE_NODE_HEADER_BLOCKS).block =
          (nodeRead scur LRU_TRIE_NODE_HEADER_BLOCKS).block := by
        cases hx : base[LRU_TRIE_NODE_HEADER_BLOCKS]? with
        | none =>
          rw [List.getElem?_eq_none_iff] at hx
          omega
        | some dr =>
          cases hx2 : scur[LRU_TRIE_NODE_HEADER_BLOCKS]? with
          | none =>
            rw [List.getElem?_eq_none_iff] at hx2
            omega
          | some dr2 =>
            rw [nodeRead, hx, nodeRead, hx2]
      have hterm := forall₂_getLastD hfa (nodeRead base LRU_TRIE_NODE_HEADER_BLOCKS)
        (nodeRead scur LRU_TRIE_NODE_HEADER_BLOCKS) hb1
      have hbl2 : (ws2.getLastD (nodeRead scur LRU_TRIE_NODE_HEADER_BLOCKS)).block =
          some b := by
        rw [← hterm]
        exact hbl
      have hne : ws2 ≠ [] := by
        have hl := pathViews_length scur p _ ws2 hpv2
        intro hx
        rw [hx] at hl
        cases p with
        | nil => exact hpe rfl
        | cons a l => simp at hl
      obtain ⟨b2, hb2, hrec2, hex2⟩ := hreal2 _ (getLastD_mem ws2 _ hne)
      have hb2e : b2 = b := by
        rw [hb2] at hbl2
        exact Option.some.inj hbl2
      rw [hb2e] at hb2 hrec2
      have hfeq : (ws2.getLastD (nodeRead scur
          LRU_TRIE_NODE_HEADER_BLOCKS)).data.flags = db.flags :=
        (hss.2 b db _ hbrec hrec2).2.1
      have hvnode : ws2.getLastD (nodeRead scur LRU_TRIE_NODE_HEADER_BLOCKS) =
          ⟨some b, true,
            (ws2.getLastD (nodeRead scur LRU_TRIE_NODE_HEADER_BLOCKS)).data⟩ := by
        rw [← hb2, ← hex2]
      rw [hvnode] at h2
      have hssN := sameShape_setWeb base scur hss b true _ weid hrec2
        (by rw [hfeq]; exact hbweb)
      exact addPrefixesGo_noop ps weid base _ s2 hInv hlen hssN
        (fun q hq => hpd q (List.mem_cons_of_mem _ hq)) h2

/-- A successful scan that matches a real view must have started inside the
store: the phantom view of a missing start block is not stored. -/
theorem scan_found_start_exists (s : Store) (c : Nat) (f : Nat) (b : Nat)
    (w : NodeView) (h : scanGo s c (nodeRead s b) f = some (.found w))
    (hreal : RealView s w) : b < s.length := by
  by_cases hb : b < s.length
  · exact hb
  · exfalso
    have hnone : s[b]? = none := by
      rw [List.getElem?_eq_none_iff]
      omega
    rw [show nodeRead s b = ⟨none, false, defaultNode 0⟩ from by
      rw [nodeRead, hnone]] at h
    cases f with
    | zero => cases h
    | succ f2 =>
      rw [scanGo] at h
      by_cases hc : (⟨none, false, defaultNode 0⟩ : NodeView).data.char = c
      · rw [if_pos hc] at h
        have h2 : some (ScanResult.found ⟨none, false, defaultNode 0⟩) =
            some (.found w) := h
        injection h2 with h3
        injection h3 with h4
        obtain ⟨bb, hbb, hrc, hre⟩ := hreal
        rw [← h4] at hbb
        cases hbb
      · rw [if_neg hc] at h
        rw [if_neg (show ¬ (⟨none, false, defaultNode 0⟩ : NodeView).data.next ≠ 0 from
          by simp [defaultNode])] at h
        cases h

/-- Matched views at the same blocks carry the same creation-rule bit
across growth. -/
theorem forall₂_rulebit (s s2 : Store) (hg : Grows s s2) :
    ∀ {ws ws2 : List NodeView}, List.Forall₂ (fun w w2 => w.block = w2.block) ws ws2 →
      (∀ w ∈ ws, RealView s w) → (∀ w2 ∈ ws2, RealView s2 w2) →
      List.Forall₂ (fun w w2 => testFlag w2.data.flags FLAG_RULE =
        testFlag w.data.flags FLAG_RULE) ws ws2 := by
  intro ws ws2 hfa
  induction hfa with
  | nil =>
    intro hr hr2
    exact List.Forall₂.nil
  | @cons w w2 l1 l2 hw hws ih =>
    intro hr hr2
    refine List.Forall₂.cons ?_ (ih (fun u hu => hr u (List.mem_cons_of_mem w hu))
      (fun u hu => hr2 u (List.mem_cons_of_mem w2 hu)))
    obtain ⟨b, hb, hrec, hex⟩ := hr w (List.mem_cons_self w l1)
    obtain ⟨b2, hb2, hrec2, hex2⟩ := hr2 w2 (List.mem_cons_self w2 l2)
    have hbe : b2 = b := by
      rw [hb, hb2] at hw
      exact (Option.some.inj hw).symm
    subst hbe
    exact (hg.2 b2 w.data w2.data hrec hrec2).2.2.2.2.1

/-- Matched views at the same blocks carry the same webentity data across a
store relation that keeps both flag bits and the id of every old record. -/
theorem forall₂_bits (s s2 : Store)
    (hrel : ∀ (b : Nat) (d d2 : NodeData), s[b]? = some d → s2[b]? = some d2 →
      testFlag d2.flags FLAG_WEBENTITY = testFlag d.flags FLAG_WEBENTITY ∧
      testFlag d2.flags FLAG_RULE = testFlag d.flags FLAG_RULE ∧
      d2.webentity_id = d.webentity_id) :
    ∀ {ws ws2 : List NodeView}, List.Forall₂ (fun w w2 => w.block = w2.block) ws ws2 →
      (∀ w ∈ ws, RealView s w) → (∀ w2 ∈ ws2, RealView s2 w2) →
      List.Forall₂ (fun w w2 =>
        testFlag w2.data.flags FLAG_WEBENTITY = testFlag w.data.flags FLAG_WEBENTITY ∧
        testFlag w2.data.flags FLAG_RULE = testFlag w.data.flags FLAG_RULE ∧
        w2.data.webentity_id = w.data.webentity_id) ws ws2 := by
  intro ws ws2 hfa
  induction hfa with
  | nil =>
    intro hr hr2
    exact List.Forall₂.nil
  | @cons w w2 l1 l2 hw hws ih =>
    intro hr hr2
    refine List.Forall₂.cons ?_ (ih (fun u hu => hr u (List.mem_cons_of_mem w hu))
      (fun u hu => hr2 u (List.mem_cons_of_mem w2 hu)))
    obtain ⟨b, hb, hrec, hex⟩ := hr w (List.mem_cons_self w l1)
    obtain ⟨b2, hb2, hrec2, hex2⟩ := hr2 w2 (List.mem_cons_self w2 l2)
    have hbe : b2 = b := by
      rw [hb, hb2] at hw
      exact (Option.some.inj hw).symm
    subst hbe
    exact hrel b2 w.data w2.data hrec hrec2

/-- The creation-rule candidate selection depends on the traph state only
through its rule mapping. -/
theorem longestCandidateGo_congr (t t2 : TraphState) (hr : t2.rules = t.rules) :
    ∀ (ps : List (List Nat)) (lru acc : List Nat),
      longestCandidateGo t2 lru acc ps = longestCandidateGo t lru acc ps
  | [], lru, acc => rfl
  | p :: ps, lru, acc => by
    rw [longestCandidateGo, longestCandidateGo, hr]
    cases t.rules.lookup p with
    | none => rfl
    | some r =>
      show (match r lru with
        | none => longestCandidateGo t2 lru acc ps
        | some c =>
          longestCandidateGo t2 lru (if c ≠ [] ∧ acc.length < c.length then c else acc) ps) =
        (match r lru with
        | none => longestCandidateGo t lru acc ps
        | some c =>
          longestCandidateGo t lru (if c ≠ [] ∧ acc.length < c.length then c else acc) ps)
      cases r lru with
      | none => exact longestCandidateGo_congr t t2 hr ps lru acc
      | some c => exact longestCandidateGo_congr t t2 hr ps lru _

/-- The page-flag write of add_page preserves the webentity bit, the rule
bit and the webentity id of every record. -/
theorem set_pageflag_bits (s : Store) (b : Nat) (d : NodeData) (hd : s[b]? = some d) :
    ∀ (i : Nat) (di di2 : NodeData), s[i]? = some di →
      (s.set b { d with flags := setFlag d.flags FLAG_PAGE })[i]? = some di2 →
      testFlag di2.flags FLAG_WEBENTITY = testFlag di.flags FLAG_WEBENTITY ∧
      testFlag di2.flags FLAG_RULE = testFlag di.flags FLAG_RULE ∧
      di2.webentity_id = di.webentity_id := by
  intro i di di2 h1 h2
  have hb : b < s.length := (List.getElem?_eq_some.mp hd).1
  rcases set_elem_cases s b _ hb i di2 h2 with ⟨e1, e2⟩ | ⟨e1, e2⟩
  · subst e1
    rw [hd] at h1
    cases h1
    subst e2
    exact ⟨testFlag_setFlag_ne d.flags FLAG_PAGE FLAG_WEBENTITY (by decide),
      testFlag_setFlag_ne d.flags FLAG_PAGE FLAG_RULE (by decide), rfl⟩
  · rw [h1] at e2
    cases e2
    exact ⟨rfl, rfl, rfl⟩

/-- A path witness of a non-empty lru starts with the view found by the
first chain scan. -/
theorem pathViews_cons (s : Store) (v : NodeView) (c : Nat) (cs : List Nat)
    (ws : List NodeView) (h : pathViews s v (c :: cs) = some ws) :
    ∃ (w : NodeView) (ws2 : List NodeView), ws = w :: ws2 ∧
      scanGo s c v (s.length + 1) = some (.found w) := by
  rw [pathViews] at h
  cases hscan : scanGo s c v (s.length + 1) with
  | none => rw [hscan] at h; cases h
  | some res =>
    rw [hscan] at h
    cases res with
    | last w =>
      have h2 : (none : Option (List NodeView)) = some ws := h
      cases h2
    | found w =>
      cases cs with
      | nil =>
        have h2 : some [w] = some ws := h
        cases h2
        exact ⟨w, [], rfl, rfl⟩
      | cons c2 cs2 =>
        by_cases hch : w.data.child ≠ 0
        · have h3 : (if w.data.child ≠ 0 then
              (pathViews s (nodeRead s w.data.child) (c2 :: cs2)).map (fun l => w :: l)
            else none) = some ws := h
          rw [if_pos hch] at h3
          obtain ⟨l, hl, hl2⟩ := Option.map_eq_some'.mp h3
          exact ⟨w, l, hl2.symm, rfl⟩
        · have h3 : (if w.data.child ≠ 0 then
              (pathViews s (nodeRead s w.data.child) (c2 :: cs2)).map (fun l => w :: l)
            else none) = some ws := h
          rw [if_neg hch] at h3
          cases h3

/-- Reading a block stored in both stores yields the same located block. -/
theorem nodeRead_block_congr (s s2 : Store) (b : Nat) (hb : b < s.length)
    (hb2 : b < s2.length) : (nodeRead s b).block = (nodeRead s2 b).block := by
  cases h1 : s[b]? with
  | none =>
    rw [List.getElem?_eq_none_iff] at h1
    omega
  | some d =>
    cases h2 : s2[b]? with
    | none =>
      rw [List.getElem?_eq_none_iff] at h2
      omega
    | some d2 =>
      rw [nodeRead, nodeRead, h1, h2]

/-- The last element with default of a non-empty list ignores the default. -/
theorem getLastD_ne_nil {α : Type} : ∀ (l : List α) (a b : α), l ≠ [] →
    l.getLastD a = l.getLastD b
  | [], a, b, h => absurd rfl h
  | x :: xs, a, b, h => by
    rw [List.getLastD_cons, List.getLastD_cons]

/-- add_page returns the add_lru result untouched when the terminal node
already carries the page flag. -/
theorem addPage_eq_of_flagged (s : Store) (x : List Nat) (r0 : AddResult)
    (hal : addLru s x = some r0)
    (hflag : testFlag r0.node.data.flags FLAG_PAGE = true) :
    addPage s x = some r0 := by
  rw [addPage, hal]
  have h3 : (if testFlag r0.node.data.flags FLAG_PAGE = false then
      some (⟨(nodeWrite r0.store { r0.node with data :=
          { r0.node.data with flags := setFlag r0.node.data.flags FLAG_PAGE } }).2,
        { r0.history with page_was_created := true },
        (nodeWrite r0.store { r0.node with data :=
          { r0.node.data with flags := setFlag r0.node.data.flags FLAG_PAGE } }).1,
        r0.snaps ++ [(nodeWrite r0.store { r0.node with data :=
          { r0.node.data with flags := setFlag r0.node.data.flags FLAG_PAGE } }).1]⟩ :
        AddResult)
    else some r0) = some r0 := by
    rw [if_neg (show ¬ testFlag r0.node.data.flags FLAG_PAGE = false from by
      rw [hflag]
      simp)]
  exact h3

/-- Composite behaviour of the trie-level add_page: the result store keeps
the structural invariant, has the root block written, grows the input
store, holds the walked path with a page-flagged terminal record, and the
returned history agrees with the history folded over the final path views
on the rules and position fields. -/
theorem addPage_spec1 (s : Store) (x : List Nat) (r : AddResult) (hInv : Inv s)
    (h : addPage s x = some r) :
    Inv r.store ∧ 1 < r.store.length ∧ Grows s r.store ∧
    ∃ ws : List NodeView,
      (x ≠ [] → pathViews r.store (nodeRead r.store LRU_TRIE_NODE_HEADER_BLOCKS) x
          = some ws ∧
        (∀ w ∈ ws, RealView r.store w) ∧ ws ≠ [] ∧
        ∃ (b2 : Nat) (db2 : NodeData),
          (ws.getLastD (nodeRead r.store LRU_TRIE_NODE_HEADER_BLOCKS)).block = some b2 ∧
          r.store[b2]? = some db2 ∧ testFlag db2.flags FLAG_PAGE = true) ∧
      (x = [] → ws = [] ∧ ∃ d1, r.store[LRU_TRIE_NODE_HEADER_BLOCKS]? = some d1 ∧
        testFlag d1.flags FLAG_PAGE = true) ∧
      r.history.rules_to_apply = (histOf initHistory [] ws x).rules_to_apply ∧
      r.history.webentity_position = (histOf initHistory [] ws x).webentity_position := by
  have hH : LRU_TRIE_NODE_HEADER_BLOCKS = 1 := rfl
  rw [addPage] at h
  cases hal : addLru s x with
  | none => rw [hal] at h; cases h
  | some r0 =>
    rw [hal] at h
    have h3 : (if testFlag r0.node.data.flags FLAG_PAGE = false then
        some (⟨(nodeWrite r0.store { r0.node with data :=
            { r0.node.data with flags := setFlag r0.node.data.flags FLAG_PAGE } }).2,
          { r0.history with page_was_created := true },
          (nodeWrite r0.store { r0.node with data :=
            { r0.node.data with flags := setFlag r0.node.data.flags FLAG_PAGE } }).1,
          r0.snaps ++ [(nodeWrite r0.store { r0.node with data :=
            { r0.node.data with flags := setFlag r0.node.data.flags FLAG_PAGE } }).1]⟩ :
          AddResult)
      else some r0) = some r := h
    have hal2 : addLruGo s (nodeRead s LRU_TRIE_NODE_HEADER_BLOCKS) [] initHistory [] x =
        some r0 := hal
    have hb0 : LRU_TRIE_NODE_HEADER_BLOCKS < s.length ∨
        (LRU_TRIE_NODE_HEADER_BLOCKS = 1 ∧ s.length = 1) := by
      have hne := hInv.nonempty
      rw [hH]
      omega
    obtain ⟨hInv0, hExt0, ws0, hpv0, hreal0, hhist0, hnode0⟩ :=
      addLruGo_spec x s LRU_TRIE_NODE_HEADER_BLOCKS [] initHistory [] r0 hInv le_rfl hb0
        hal2
    have hg0 : Grows s r0.store := grows_of_extends hExt0
    by_cases hpf : testFlag r0.node.data.flags FLAG_PAGE = false
    · rw [if_pos hpf] at h3
      have hr := (Option.some.inj h3).symm
      cases x with
      | nil =>
        have h6 : some ([] : List NodeView) = some ws0 := hpv0
        cases h6
        have h5b : (⟨rootRead s, initHistory, s, []⟩ : AddResult) = r0 :=
          Option.some.inj (show some (⟨rootRead s, initHistory, s, []⟩ : AddResult) =
            some r0 from hal)
        have hstore : r0.store = s := by rw [← h5b]
        have hnd : r0.node = rootRead s := by rw [← h5b]
        have hhist : r0.history = initHistory := by rw [← h5b]
        cases hroot : s[LRU_TRIE_NODE_HEADER_BLOCKS]? with
        | some d1 =>
          have hnd2 : r0.node = ⟨some LRU_TRIE_NODE_HEADER_BLOCKS, true, d1⟩ := by
            rw [hnd, rootRead, nodeRead, hroot]
          rw [hnd2, hstore, hhist] at hr
          have hr2 : r = ⟨⟨some LRU_TRIE_NODE_HEADER_BLOCKS, true,
              { d1 with flags := setFlag d1.flags FLAG_PAGE }⟩,
            { initHistory with page_was_created := true },
            s.set LRU_TRIE_NODE_HEADER_BLOCKS
              { d1 with flags := setFlag d1.flags FLAG_PAGE },
            r0.snaps ++ [s.set LRU_TRIE_NODE_HEADER_BLOCKS
              { d1 with flags := setFlag d1.flags FLAG_PAGE }]⟩ := hr
          have hlt1 : LRU_TRIE_NODE_HEADER_BLOCKS < s.length :=
            (List.getElem?_eq_some.mp hroot).1
          have hlt1n : 1 < s.length := hlt1
          rw [hr2]
          refine ⟨?_, ?_, ?_, [], ?_, ?_, ?_, ?_⟩
          · exact inv_set_fields s LRU_TRIE_NODE_HEADER_BLOCKS d1 _ hInv hroot rfl rfl rfl
          · exact (by
              rw [List.length_set]
              exact hlt1n :
              1 < (s.set LRU_TRIE_NODE_HEADER_BLOCKS
                { d1 with flags := setFlag d1.flags FLAG_PAGE }).length)
          · exact grows_set_pageflag s LRU_TRIE_NODE_HEADER_BLOCKS d1 hroot
          · intro hxe
            exact absurd rfl hxe
          · intro hxe2
            exact ⟨rfl, { d1 with flags := setFlag d1.flags FLAG_PAGE },
              List.getElem?_set_self hlt1, testFlag_setFlag_self d1.flags FLAG_PAGE⟩
          · rfl
          · rfl
        | none =>
          have hnd2 : r0.node = ⟨none, false, defaultNode 0⟩ := by
            rw [hnd, rootRead, nodeRead, hroot]
          rw [hnd2, hstore, hhist] at hr
          have hslen : s.length = 1 := by
            have h7 := hInv.nonempty
            have h9 : s.length ≤ LRU_TRIE_NODE_HEADER_BLOCKS :=
              List.getElem?_eq_none_iff.mp hroot
            have h9n : s.length ≤ 1 := h9
            omega
          have hr2 : r = ⟨⟨some s.length, true,
              { defaultNode 0 with flags := setFlag (defaultNode 0).flags FLAG_PAGE }⟩,
            { initHistory with page_was_created := true },
            s ++ [{ defaultNode 0 with flags := setFlag (defaultNode 0).flags FLAG_PAGE }],
            r0.snaps ++
              [s ++ [{ defaultNode 0 with flags := setFlag (defaultNode 0).flags FLAG_PAGE }]]⟩ := hr
          rw [hr2]
          refine ⟨?_, ?_, ?_, [], ?_, ?_, ?_, ?_⟩
          · exact inv_append s _ hInv rfl rfl (Nat.zero_le s.length)
          · exact (by
              rw [List.length_append, List.length_singleton]
              omega :
              1 < (s ++
                [{ defaultNode 0 with flags := setFlag (defaultNode 0).flags FLAG_PAGE }]).length)
          · exact grows_of_extends (extends_append s _)
          · intro hxe
            exact absurd rfl hxe
          · intro hxe2
            refine ⟨rfl,
              { defaultNode 0 with flags := setFlag (defaultNode 0).flags FLAG_PAGE }, ?_,
              testFlag_setFlag_self (defaultNode 0).flags FLAG_PAGE⟩
            rw [hH, ← hslen]
            exact List.getElem?_concat_length s _
          · rfl
          · rfl
      | cons c cs =>
        obtain ⟨w1, ws0t, hws0e, hscan1⟩ := pathViews_cons r0.store _ c cs ws0 hpv0
        have hws0ne : ws0 ≠ [] := by
          rw [hws0e]
          simp
        have hw1real : RealView r0.store w1 := hreal0 w1 (by
          rw [hws0e]
          exact List.mem_cons_self w1 ws0t)
        have hlen0 : LRU_TRIE_NODE_HEADER_BLOCKS < r0.store.length :=
          scan_found_start_exists r0.store c (r0.store.length + 1)
            LRU_TRIE_NODE_HEADER_BLOCKS w1 hscan1 hw1real
        have hlen0n : 1 < r0.store.length := hlen0
        obtain ⟨β, hβ, hβrec, hβex⟩ :=
          hreal0 (ws0.getLastD (nodeRead s LRU_TRIE_NODE_HEADER_BLOCKS))
            (getLastD_mem ws0 (nodeRead s LRU_TRIE_NODE_HEADER_BLOCKS) hws0ne)
        rw [← hnode0] at hβ hβrec hβex
        have hnd2 : r0.node = ⟨some β, true, r0.node.data⟩ := by
          rw [← hβ, ← hβex]
        have hβlt : β < r0.store.length := (List.getElem?_eq_some.mp hβrec).1
        rw [hnd2] at hr
        have hr2 : r = ⟨⟨some β, true,
            { r0.node.data with flags := setFlag r0.node.data.flags FLAG_PAGE }⟩,
          { r0.history with page_was_created := true },
          r0.store.set β
            { r0.node.data with flags := setFlag r0.node.data.flags FLAG_PAGE },
          r0.snaps ++ [r0.store.set β
            { r0.node.data with flags := setFlag r0.node.data.flags FLAG_PAGE }]⟩ := hr
        have hgpf : Grows r0.store (r0.store.set β { r0.node.data with
            flags := setFlag r0.node.data.flags FLAG_PAGE }) :=
          grows_set_pageflag r0.store β r0.node.data hβrec
        have hlenpf : 1 < (r0.store.set β { r0.node.data with
            flags := setFlag r0.node.data.flags FLAG_PAGE }).length := by
          rw [List.length_set]
          exact hlen0n
        obtain ⟨ws2, hpv2, hfa2, hreal2⟩ := pathViews_grows r0.store
          (r0.store.set β { r0.node.data with
            flags := setFlag r0.node.data.flags FLAG_PAGE }) hInv0 hgpf (c :: cs)
          LRU_TRIE_NODE_HEADER_BLOCKS ws0 hlen0 hpv0
        have hws2ne : ws2 ≠ [] := by
          have hlws : ws0.length = ws2.length := List.Forall₂.length_eq hfa2
          intro he
          rw [he] at hlws
          exact hws0ne (List.length_eq_zero.mp hlws)
        have htermb0 : (ws0.getLastD (nodeRead r0.store
            LRU_TRIE_NODE_HEADER_BLOCKS)).block = some β := by
          rw [getLastD_ne_nil ws0 (nodeRead r0.store LRU_TRIE_NODE_HEADER_BLOCKS)
            (nodeRead s LRU_TRIE_NODE_HEADER_BLOCKS) hws0ne, ← hnode0]
          exact hβ
        have htermb2 : (ws2.getLastD (nodeRead (r0.store.set β { r0.node.data with
            flags := setFlag r0.node.data.flags FLAG_PAGE })
            LRU_TRIE_NODE_HEADER_BLOCKS)).block = some β := by
          rw [← forall₂_getLastD hfa2 (nodeRead r0.store LRU_TRIE_NODE_HEADER_BLOCKS)
            (nodeRead (r0.store.set β { r0.node.data with
              flags := setFlag r0.node.data.flags FLAG_PAGE })
              LRU_TRIE_NODE_HEADER_BLOCKS)
            (nodeRead_block_congr r0.store (r0.store.set β { r0.node.data with
              flags := setFlag r0.node.data.flags FLAG_PAGE })
              LRU_TRIE_NODE_HEADER_BLOCKS hlen0 hlenpf)]
          exact htermb0
        have hbits : List.Forall₂ (fun w w2 =>
            testFlag w2.data.flags FLAG_WEBENTITY = testFlag w.data.flags FLAG_WEBENTITY ∧
            testFlag w2.data.flags FLAG_RULE = testFlag w.data.flags FLAG_RULE ∧
            w2.data.webentity_id = w.data.webentity_id) ws0 ws2 :=
          forall₂_bits r0.store (r0.store.set β { r0.node.data with
            flags := setFlag r0.node.data.flags FLAG_PAGE })
            (set_pageflag_bits r0.store β r0.node.data hβrec) hfa2 hreal0 hreal2
        have hhist2 : histOf initHistory [] ws2 (c :: cs) =
            histOf initHistory [] ws0 (c :: cs) :=
          histOf_congrBits hbits (c :: cs) [] initHistory
        rw [hr2]
        refine ⟨?_, ?_, ?_, ws2, ?_, ?_, ?_, ?_⟩
        · exact inv_set_fields r0.store β r0.node.data _ hInv0 hβrec rfl rfl rfl
        · exact hlenpf
        · exact grows_trans hg0 hgpf
        · intro hxe
          exact ⟨hpv2, hreal2, hws2ne, β,
            { r0.node.data with flags := setFlag r0.node.data.flags FLAG_PAGE },
            htermb2, List.getElem?_set_self hβlt,
            testFlag_setFlag_self r0.node.data.flags FLAG_PAGE⟩
        · intro hxe
          exact (List.cons_ne_nil c cs hxe).elim
        · rw [hhist2]
          have hru : r0.history.rules_to_apply =
              (histOf initHistory [] ws0 (c :: cs)).rules_to_apply := by
            rw [hhist0]
          exact hru
        · rw [hhist2]
          have hpo : r0.history.webentity_position =
              (histOf initHistory [] ws0 (c :: cs)).webentity_position := by
            rw [hhist0]
          exact hpo
    · rw [if_neg hpf] at h3
      have hr := (Option.some.inj h3).symm
      have htrue : testFlag r0.node.data.flags FLAG_PAGE = true := by
        cases hx : testFlag r0.node.data.flags FLAG_PAGE
        · exact absurd hx hpf
        · rfl
      cases x with
      | nil =>
        have h6 : some ([] : List NodeView) = some ws0 := hpv0
        cases h6
        have h5b : (⟨rootRead s, initHistory, s, []⟩ : AddResult) = r0 :=
          Option.some.inj (show some (⟨rootRead s, initHistory, s, []⟩ : AddResult) =
            some r0 from hal)
        have hstore : r0.store = s := by rw [← h5b]
        have hnd : r0.node = rootRead s := by rw [← h5b]
        have hhist : r0.history = initHistory := by rw [← h5b]
        cases hroot : s[LRU_TRIE_NODE_HEADER_BLOCKS]? with
        | none =>
          exfalso
          have hnd2 : r0.node = ⟨none, false, defaultNode 0⟩ := by
            rw [hnd, rootRead, nodeRead, hroot]
          rw [hnd2] at htrue
          exact absurd htrue (by decide)
        | some d1 =>
          have hnd2 : r0.node = ⟨some LRU_TRIE_NODE_HEADER_BLOCKS, true, d1⟩ := by
            rw [hnd, rootRead, nodeRead, hroot]
          have hlt1 : LRU_TRIE_NODE_HEADER_BLOCKS < s.length :=
            (List.getElem?_eq_some.mp hroot).1
          have hflag1 : testFlag d1.flags FLAG_PAGE = true := by
            rw [hnd2] at htrue
            exact htrue
          rw [hr, hstore, hhist]
          refine ⟨hInv, hlt1, grows_refl s, [], ?_, ?_, rfl, rfl⟩
          · intro hxe
            exact absurd rfl hxe
          · intro hxe2
            exact ⟨rfl, d1, hroot, hflag1⟩
      | cons c cs =>
        obtain ⟨w1, ws0t, hws0e, hscan1⟩ := pathViews_cons r0.store _ c cs ws0 hpv0
        have hws0ne : ws0 ≠ [] := by
          rw [hws0e]
          simp
        have hw1real : RealView r0.store w1 := hreal0 w1 (by
          rw [hws0e]
          exact List.mem_cons_self w1 ws0t)
        have hlen0 : LRU_TRIE_NODE_HEADER_BLOCKS < r0.store.length :=
          scan_found_start_exists r0.store c (r0.store.length + 1)
            LRU_TRIE_NODE_HEADER_BLOCKS w1 hscan1 hw1real
        obtain ⟨β, hβ, hβrec, hβex⟩ :=
          hreal0 (ws0.getLastD (nodeRead s LRU_TRIE_NODE_HEADER_BLOCKS))
            (getLastD_mem ws0 (nodeRead s LRU_TRIE_NODE_HEADER_BLOCKS) hws0ne)
        rw [← hnode0] at hβ hβrec
        have htermb0 : (ws0.getLastD (nodeRead r0.store
            LRU_TRIE_NODE_HEADER_BLOCKS)).block = some β := by
          rw [getLastD_ne_nil ws0 (nodeRead r0.store LRU_TRIE_NODE_HEADER_BLOCKS)
            (nodeRead s LRU_TRIE_NODE_HEADER_BLOCKS) hws0ne, ← hnode0]
          exact hβ
        rw [hr]
        refine ⟨hInv0, hlen0, hg0, ws0, ?_, ?_, ?_, ?_⟩
        · intro hxe
          exact ⟨hpv0, hreal0, hws0ne, β, r0.node.data, htermb0, hβrec, htrue⟩
        · intro hxe
          exact (List.cons_ne_nil c cs hxe).elim
        · rw [hhist0]
        · rw [hhist0]

/-- On a store already holding the walked path with a page-flagged terminal
record, add_page writes nothing: it returns the terminal view, the folded
history, the unchanged store and no snapshot. -/
theorem addPage_noop2 (s : Store) (x : List Nat) (ws : List NodeView) (hInv : Inv s)
    (hlen : 1 < s.length)
    (hx1 : x ≠ [] → pathViews s (nodeRead s LRU_TRIE_NODE_HEADER_BLOCKS) x = some ws ∧
      (∀ w ∈ ws, RealView s w) ∧ ws ≠ [] ∧
      ∃ (b2 : Nat) (db2 : NodeData),
        (ws.getLastD (nodeRead s LRU_TRIE_NODE_HEADER_BLOCKS)).block = some b2 ∧
        s[b2]? = some db2 ∧ testFlag db2.flags FLAG_PAGE = true)
    (hx0 : x = [] → ws = [] ∧ ∃ d1, s[LRU_TRIE_NODE_HEADER_BLOCKS]? = some d1 ∧
      testFlag d1.flags FLAG_PAGE = true) :
    addPage s x = some ⟨ws.getLastD (nodeRead s LRU_TRIE_NODE_HEADER_BLOCKS),
      histOf initHistory [] ws x, s, []⟩ := by
  cases x with
  | nil =>
    obtain ⟨hwsnil, d1, hd1, hflag⟩ := hx0 rfl
    subst hwsnil
    have hal : addLru s [] = some (⟨rootRead s, initHistory, s, []⟩ : AddResult) := rfl
    have hfl2 : testFlag (⟨rootRead s, initHistory, s, []⟩ : AddResult).node.data.flags
        FLAG_PAGE = true := by
      show testFlag (rootRead s).data.flags FLAG_PAGE = true
      rw [rootRead, nodeRead, hd1]
      exact hflag
    rw [addPage_eq_of_flagged s [] _ hal hfl2]
    rfl
  | cons c cs =>
    obtain ⟨hpv, hreal, hwsne, b2, db2, hb2, hrec2, hflag2⟩ := hx1 (by simp)
    have hal : addLru s (c :: cs) = some
        ⟨ws.getLastD (nodeRead s LRU_TRIE_NODE_HEADER_BLOCKS),
          histOf initHistory [] ws (c :: cs), s, []⟩ := by
      show addLruGo s (rootRead s) [] initHistory [] (c :: cs) = _
      exact addLruGo_noop s hInv (c :: cs) LRU_TRIE_NODE_HEADER_BLOCKS [] initHistory []
        ws hlen hpv
    have hflagterm : testFlag
        (ws.getLastD (nodeRead s LRU_TRIE_NODE_HEADER_BLOCKS)).data.flags FLAG_PAGE
        = true := by
      obtain ⟨bb, hbb, hbrec, hbex⟩ :=
        hreal (ws.getLastD (nodeRead s LRU_TRIE_NODE_HEADER_BLOCKS))
          (getLastD_mem ws (nodeRead s LRU_TRIE_NODE_HEADER_BLOCKS) hwsne)
      rw [hb2] at hbb
      have hbe : b2 = bb := Option.some.inj hbb
      rw [← hbe] at hbrec
      rw [hrec2] at hbrec
      have hde : db2 = (ws.getLastD (nodeRead s LRU_TRIE_NODE_HEADER_BLOCKS)).data :=
        Option.some.inj hbrec
      rw [← hde]
      exact hflag2
    exact addPage_eq_of_flagged s (c :: cs) _ hal hflagterm

/-- Destructuring of a successful Traph.__add_prefixes call: the resulting
state keeps the invariant, grows the trie keeping flags except webentity
sets, installs every prefix, and leaves the other state fields alone. -/
theorem addPrefixes_spec (t0 : TraphState) (pfxs : List (List Nat))
    (pr : Nat × TraphState) (hInv : Inv t0.trie) (hlen : 1 < t0.trie.length)
    (h : addPrefixes t0 pfxs = some pr) :
    Inv pr.2.trie ∧ 1 < pr.2.trie.length ∧ Grows t0.trie pr.2.trie ∧
    FlagsEvolve t0.trie pr.2.trie ∧ (∀ p ∈ pfxs, PathDone pr.2.trie p) ∧
    pr.2.links = t0.links ∧ pr.2.rules = t0.rules ∧
    pr.2.defaultRule = t0.defaultRule ∧ pr.2.variations = t0.variations := by
  have hb : (match addPrefixesGo (t0.lastWebentityId + 1) t0.trie pfxs with
    | none => none
    | some s2 => some ((t0.lastWebentityId + 1 : Nat),
        ({ t0 with trie := s2, lastWebentityId := t0.lastWebentityId + 1 } :
          TraphState))) = some pr := h
  cases hpg : addPrefixesGo (t0.lastWebentityId + 1) t0.trie pfxs with
  | none => rw [hpg] at hb; cases hb
  | some s2 =>
    rw [hpg] at hb
    have hc : some ((t0.lastWebentityId + 1 : Nat),
        ({ t0 with trie := s2, lastWebentityId := t0.lastWebentityId + 1 } :
          TraphState)) = some pr := hb
    have hpreq := (Option.some.inj hc).symm
    obtain ⟨hInv2, hlen2, hg2, hfe2, hpd2⟩ :=
      addPrefixesGo_spec pfxs (t0.lastWebentityId + 1) t0.trie s2 hInv hlen hpg
    rw [hpreq]
    exact ⟨hInv2, hlen2, hg2, hfe2, hpd2, rfl, rfl, rfl, rfl⟩

/-- The add_page path package is preserved by any invariant growth that
keeps page flags, and the folded rule prefixes do not change. -/
theorem pathPackage_transfer (s s2 : Store) (x : List Nat) (ws : List NodeView)
    (hInv : Inv s) (hlen : 1 < s.length) (hg : Grows s s2) (hfe : FlagsEvolve s s2)
    (hx1 : x ≠ [] → pathViews s (nodeRead s LRU_TRIE_NODE_HEADER_BLOCKS) x = some ws ∧
      (∀ w ∈ ws, RealView s w) ∧ ws ≠ [] ∧
      ∃ (b2 : Nat) (db2 : NodeData),
        (ws.getLastD (nodeRead s LRU_TRIE_NODE_HEADER_BLOCKS)).block = some b2 ∧
        s[b2]? = some db2 ∧ testFlag db2.flags FLAG_PAGE = true)
    (hx0 : x = [] → ws = [] ∧ ∃ d1, s[LRU_TRIE_NODE_HEADER_BLOCKS]? = some d1 ∧
      testFlag d1.flags FLAG_PAGE = true) :
    ∃ ws2 : List NodeView,
      (x ≠ [] → pathViews s2 (nodeRead s2 LRU_TRIE_NODE_HEADER_BLOCKS) x = some ws2 ∧
        (∀ w ∈ ws2, RealView s2 w) ∧ ws2 ≠ [] ∧
        ∃ (b2 : Nat) (db2 : NodeData),
          (ws2.getLastD (nodeRead s2 LRU_TRIE_NODE_HEADER_BLOCKS)).block = some b2 ∧
          s2[b2]? = some db2 ∧ testFlag db2.flags FLAG_PAGE = true) ∧
      (x = [] → ws2 = [] ∧ ∃ d1, s2[LRU_TRIE_NODE_HEADER_BLOCKS]? = some d1 ∧
        testFlag d1.flags FLAG_PAGE = true) ∧
      (histOf initHistory [] ws2 x).rules_to_apply =
        (histOf initHistory [] ws x).rules_to_apply := by
  cases x with
  | nil =>
    obtain ⟨hwsnil, d1, hd1, hflag⟩ := hx0 rfl
    subst hwsnil
    refine ⟨[], ?_, ?_, rfl⟩
    · intro hxe
      exact absurd rfl hxe
    · intro hxe
      have hlen2 : 1 < s2.length := lt_of_lt_of_le hlen hg.1
      cases hd1c : s2[LRU_TRIE_NODE_HEADER_BLOCKS]? with
      | none =>
        exfalso
        rw [List.getElem?_eq_none_iff] at hd1c
        have hle : s2.length ≤ 1 := hd1c
        omega
      | some d1c =>
        refine ⟨rfl, d1c, rfl, ?_⟩
        rw [flagsEvolve_page hfe LRU_TRIE_NODE_HEADER_BLOCKS d1 d1c hd1 hd1c]
        exact hflag
  | cons c cs =>
    obtain ⟨hpv, hreal, hwsne, b2, db2, hb2, hrec2, hflag2⟩ := hx1 (by simp)
    obtain ⟨ws2, hpv2, hfa2, hreal2⟩ := pathViews_grows s s2 hInv hg (c :: cs)
      LRU_TRIE_NODE_HEADER_BLOCKS ws hlen hpv
    have hlen2 : 1 < s2.length := lt_of_lt_of_le hlen hg.1
    have hws2ne : ws2 ≠ [] := by
      have hlws : ws.length = ws2.length := List.Forall₂.length_eq hfa2
      intro he
      rw [he] at hlws
      exact hwsne (List.length_eq_zero.mp hlws)
    have hb2lt : b2 < s.length := (List.getElem?_eq_some.mp hrec2).1
    cases hrec2c : s2[b2]? with
    | none =>
      exfalso
      rw [List.getElem?_eq_none_iff] at hrec2c
      have hle := hg.1
      omega
    | some db2c =>
      have htermb2 : (ws2.getLastD (nodeRead s2 LRU_TRIE_NODE_HEADER_BLOCKS)).block
          = some b2 := by
        rw [← forall₂_getLastD hfa2 (nodeRead s LRU_TRIE_NODE_HEADER_BLOCKS)
          (nodeRead s2 LRU_TRIE_NODE_HEADER_BLOCKS)
          (nodeRead_block_congr s s2 LRU_TRIE_NODE_HEADER_BLOCKS hlen hlen2)]
        exact hb2
      refine ⟨ws2, ?_, ?_, ?_⟩
      · intro hxe
        refine ⟨hpv2, hreal2, hws2ne, b2, db2c, htermb2, hrec2c, ?_⟩
        rw [flagsEvolve_page hfe b2 db2 db2c hrec2 hrec2c]
        exact hflag2
      · intro hxe
        exact (List.cons_ne_nil c cs hxe).elim
      · exact histOf_rules_congr (forall₂_rulebit s s2 hg hfa2 hreal hreal2)
          (c :: cs) [] initHistory initHistory rfl

/-- A successful Traph.__add_prefixes call whose prefixes are all already
installed changes no block count, no flag and no link. -/
theorem addPrefixes_noop_total (t1 : TraphState) (pfxs : List (List Nat))
    (pr2 : Nat × TraphState) (hInv1 : Inv t1.trie) (hlen1 : 1 < t1.trie.length)
    (hpd : ∀ p ∈ pfxs, PathDone t1.trie p) (h : addPrefixes t1 pfxs = some pr2) :
    pr2.2.trie.length = t1.trie.length ∧
    (∀ (i : Nat) (di di2 : NodeData), t1.trie[i]? = some di →
      pr2.2.trie[i]? = some di2 → di2.flags = di.flags) ∧
    pr2.2.links = t1.links := by
  have hb : (match addPrefixesGo (t1.lastWebentityId + 1) t1.trie pfxs with
    | none => none
    | some s2 => some ((t1.lastWebentityId + 1 : Nat),
        ({ t1 with trie := s2, lastWebentityId := t1.lastWebentityId + 1 } :
          TraphState))) = some pr2 := h
  cases hpg : addPrefixesGo (t1.lastWebentityId + 1) t1.trie pfxs with
  | none => rw [hpg] at hb; cases hb
  | some s2f =>
    rw [hpg] at hb
    have hc : some ((t1.lastWebentityId + 1 : Nat),
        ({ t1 with trie := s2f, lastWebentityId := t1.lastWebentityId + 1 } :
          TraphState)) = some pr2 := hb
    have hpreq := (Option.some.inj hc).symm
    have hss : SameShape t1.trie s2f :=
      addPrefixesGo_noop pfxs (t1.lastWebentityId + 1) t1.trie t1.trie s2f hInv1 hlen1
        (sameShape_refl t1.trie) hpd hpg
    rw [hpreq]
    refine ⟨hss.1.symm, ?_, rfl⟩
    intro i di di2 hdi hdi2
    exact (hss.2 i di di2 hdi hdi2).2.1

/-- The Traph-level add_page on a state already holding the page-flagged
path of x changes no block count, no flag and no link, and reports zero
pages created, provided the candidate resolution of the walk repeats an
outcome whose prefixes are already installed. -/
theorem addPageT_second (t1 : TraphState) (x : List Nat) (ws1 : List NodeView)
    (n2 : NodeView) (rep2 : TraphWriteReport) (t2 : TraphState)
    (hInv1 : Inv t1.trie) (hlen1 : 1 < t1.trie.length)
    (hx1 : x ≠ [] → pathViews t1.trie (nodeRead t1.trie LRU_TRIE_NODE_HEADER_BLOCKS) x
        = some ws1 ∧
      (∀ w ∈ ws1, RealView t1.trie w) ∧ ws1 ≠ [] ∧
      ∃ (b2 : Nat) (db2 : NodeData),
        (ws1.getLastD (nodeRead t1.trie LRU_TRIE_NODE_HEADER_BLOCKS)).block = some b2 ∧
        t1.trie[b2]? = some db2 ∧ testFlag db2.flags FLAG_PAGE = true)
    (hx0 : x = [] → ws1 = [] ∧ ∃ d1, t1.trie[LRU_TRIE_NODE_HEADER_BLOCKS]? = some d1 ∧
      testFlag d1.flags FLAG_PAGE = true)
    (hbranch :
      (∃ cand1, longestCandidateGo t1 x [] (histOf initHistory [] ws1 x).rules_to_apply
          = some cand1 ∧ cand1 ≠ [] ∧
        cand1.length ≤ (histOf initHistory [] ws1 x).webentity_position + 1) ∨
      (∃ cand1, longestCandidateGo t1 x [] (histOf initHistory [] ws1 x).rules_to_apply
          = some cand1 ∧ cand1 ≠ [] ∧
        ∀ p ∈ t1.variations cand1, PathDone t1.trie p) ∨
      (∃ dcand1, longestCandidateGo t1 x [] (histOf initHistory [] ws1 x).rules_to_apply
          = some [] ∧ t1.defaultRule x = some dcand1 ∧
        ∀ p ∈ t1.variations dcand1, PathDone t1.trie p))
    (hT2 : addPageT t1 x = some (n2, rep2, t2)) :
    t2.trie.length = t1.trie.length ∧
    (∀ (i : Nat) (di di2 : NodeData), t1.trie[i]? = some di → t2.trie[i]? = some di2 →
      di2.flags = di.flags) ∧
    t2.links = t1.links ∧ rep2.pages_created = 0 := by
  rw [addPageT] at hT2
  have hnoop := addPage_noop2 t1.trie x ws1 hInv1 hlen1 hx1 hx0
  rw [hnoop] at hT2
  have hT2b : (match longestCandidateGo t1 x []
      (histOf initHistory [] ws1 x).rules_to_apply with
    | none => none
    | some cand =>
      if cand ≠ [] ∧ cand.length ≤
          (histOf initHistory [] ws1 x).webentity_position + 1 then
        some (ws1.getLastD (nodeRead t1.trie LRU_TRIE_NODE_HEADER_BLOCKS),
          emptyReport, t1)
      else if cand ≠ [] then
        match addPrefixes t1 (t1.variations cand) with
        | none => none
        | some pr =>
          some (ws1.getLastD (nodeRead t1.trie LRU_TRIE_NODE_HEADER_BLOCKS),
            { emptyReport with created_webentities := [(pr.1, t1.variations cand)] },
            pr.2)
      else
        match t1.defaultRule x with
        | none => none
        | some dcand =>
          match addPrefixes t1 (t1.variations dcand) with
          | none => none
          | some pr =>
            some (ws1.getLastD (nodeRead t1.trie LRU_TRIE_NODE_HEADER_BLOCKS),
              { emptyReport with
                created_webentities := [(pr.1, t1.variations dcand)] }, pr.2)) =
      some (n2, rep2, t2) := hT2
  cases hcand2 : longestCandidateGo t1 x []
      (histOf initHistory [] ws1 x).rules_to_apply with
  | none => rw [hcand2] at hT2b; cases hT2b
  | some cand2 =>
    rw [hcand2] at hT2b
    have hT2c : (if cand2 ≠ [] ∧ cand2.length ≤
          (histOf initHistory [] ws1 x).webentity_position + 1 then
        some (ws1.getLastD (nodeRead t1.trie LRU_TRIE_NODE_HEADER_BLOCKS),
          emptyReport, t1)
      else if cand2 ≠ [] then
        match addPrefixes t1 (t1.variations cand2) with
        | none => none
        | some pr =>
          some (ws1.getLastD (nodeRead t1.trie LRU_TRIE_NODE_HEADER_BLOCKS),
            { emptyReport with created_webentities := [(pr.1, t1.variations cand2)] },
            pr.2)
      else
        match t1.defaultRule x with
        | none => none
        | some dcand =>
          match addPrefixes t1 (t1.variations dcand) with
          | none => none
          | some pr =>
            some (ws1.getLastD (nodeRead t1.trie LRU_TRIE_NODE_HEADER_BLOCKS),
              { emptyReport with
                created_webentities := [(pr.1, t1.variations dcand)] }, pr.2)) =
      some (n2, rep2, t2) := hT2b
    by_cases hE2 : cand2 ≠ [] ∧ cand2.length ≤
        (histOf initHistory [] ws1 x).webentity_position + 1
    · rw [if_pos hE2] at hT2c
      have hA0 : some (ws1.getLastD (nodeRead t1.trie LRU_TRIE_NODE_HEADER_BLOCKS),
          emptyReport, t1) = some (n2, rep2, t2) := hT2c
      injection hA0 with hA1
      injection hA1 with hA2 hA3x
      injection hA3x with hA3 hA4
      refine ⟨?_, ?_, ?_, ?_⟩
      · rw [← hA4]
      · intro i di di2 hdi hdi2
        rw [← hA4] at hdi2
        rw [hdi] at hdi2
        cases hdi2
        rfl
      · rw [← hA4]
      · rw [← hA3]
        rfl
    · rw [if_neg hE2] at hT2c
      by_cases hNE2 : cand2 ≠ []
      · rw [if_pos hNE2] at hT2c
        have hpd : ∀ p ∈ t1.variations cand2, PathDone t1.trie p := by
          rcases hbranch with ⟨cand1, hc1, hcne, hclen⟩ | ⟨cand1, hc1, hcne, hpd1⟩ |
            ⟨dcand1, hc1, hdc, hpd1⟩
          · exfalso
            rw [hc1] at hcand2
            have hce := Option.some.inj hcand2
            subst hce
            exact hE2 ⟨hcne, hclen⟩
          · rw [hc1] at hcand2
            have hce := Option.some.inj hcand2
            subst hce
            exact hpd1
          · exfalso
            rw [hc1] at hcand2
            have hce := Option.some.inj hcand2
            exact hNE2 hce.symm
        cases hpr2 : addPrefixes t1 (t1.variations cand2) with
        | none => rw [hpr2] at hT2c; cases hT2c
        | some pr2 =>
          rw [hpr2] at hT2c
          have hB0 : some (ws1.getLastD (nodeRead t1.trie LRU_TRIE_NODE_HEADER_BLOCKS),
              ({ emptyReport with
                created_webentities := [(pr2.1, t1.variations cand2)] } :
                TraphWriteReport), pr2.2) = some (n2, rep2, t2) := hT2c
          injection hB0 with hB1
          injection hB1 with hB2 hB3x
          injection hB3x with hB3 hB4
          obtain ⟨hl, hf, hlk⟩ := addPrefixes_noop_total t1 (t1.variations cand2) pr2
            hInv1 hlen1 hpd hpr2
          refine ⟨?_, ?_, ?_, ?_⟩
          · rw [← hB4]
            exact hl
          · intro i di di2 hdi hdi2
            rw [← hB4] at hdi2
            exact hf i di di2 hdi hdi2
          · rw [← hB4]
            exact hlk
          · rw [← hB3]
            rfl
      · rw [if_neg hNE2] at hT2c
        have hc2nil : cand2 = [] := not_not.mp hNE2
        rcases hbranch with ⟨cand1, hc1, hcne, hclen⟩ | ⟨cand1, hc1, hcne, hpd1⟩ |
          ⟨dcand1, hc1, hdc, hpd1⟩
        · exfalso
          rw [hc1] at hcand2
          have hce := Option.some.inj hcand2
          subst hce
          exact hcne hc2nil
        · exfalso
          rw [hc1] at hcand2
          have hce := Option.some.inj hcand2
          subst hce
          exact hcne hc2nil
        · cases hdc2 : t1.defaultRule x with
          | none => rw [hdc2] at hT2c; cases hT2c
          | some dcand2 =>
            rw [hdc2] at hT2c
            rw [hdc] at hdc2
            have hde := Option.some.inj hdc2
            subst hde
            have hT2d : (match addPrefixes t1 (t1.variations dcand1) with
              | none => none
              | some pr =>
                some (ws1.getLastD (nodeRead t1.trie LRU_TRIE_NODE_HEADER_BLOCKS),
                  ({ emptyReport with
                    created_webentities := [(pr.1, t1.variations dcand1)] } :
                    TraphWriteReport), pr.2)) = some (n2, rep2, t2) := hT2c
            cases hpr2 : addPrefixes t1 (t1.variations dcand1) with
            | none => rw [hpr2] at hT2d; cases hT2d
            | some pr2 =>
              rw [hpr2] at hT2d
              have hC0 : some (ws1.getLastD
                  (nodeRead t1.trie LRU_TRIE_NODE_HEADER_BLOCKS),
                  ({ emptyReport with
                    created_webentities := [(pr2.1, t1.variations dcand1)] } :
                    TraphWriteReport), pr2.2) = some (n2, rep2, t2) := hT2d
              injection hC0 with hC1
              injection hC1 with hC2 hC3x
              injection hC3x with hC3 hC4
              obtain ⟨hl, hf, hlk⟩ := addPrefixes_noop_total t1 (t1.variations dcand1)
                pr2 hInv1 hlen1 hpd1 hpr2
              refine ⟨?_, ?_, ?_, ?_⟩
              · rw [← hC4]
                exact hl
              · intro i di di2 hdi hdi2
                rw [← hC4] at hdi2
                exact hf i di di2 hdi hdi2
              · rw [← hC4]
                exact hlk
              · rw [← hC3]
                rfl

/-- Claim C2: for every lru x, calling add_page(x) and then add_page(x)
again on the resulting state yields identical structural state after the
second call as after the first (same number of allocated blocks in the trie
store, same flags on every stored node, and an unchanged link store), and
the second call's write report records zero pages created. -/
theorem claim_C2 (t : TraphState) (x : List Nat) (rep1 rep2 : TraphWriteReport)
    (t1 t2 : TraphState) (hInv : Inv t.trie)
    (h1 : addPagePublic t x = some (rep1, t1))
    (h2 : addPagePublic t1 x = some (rep2, t2)) :
    t2.trie.length = t1.trie.length ∧
    (∀ (i : Nat) (di di2 : NodeData), t1.trie[i]? = some di → t2.trie[i]? = some di2 →
      di2.flags = di.flags) ∧
    t2.links = t1.links ∧ rep2.pages_created = 0 := by
  rw [addPagePublic] at h2
  cases hT2 : addPageT t1 x with
  | none => rw [hT2] at h2; cases h2
  | some trip2 =>
    obtain ⟨n2, rp2, st2⟩ := trip2
    rw [hT2] at h2
    have h2e : some (rp2, st2) = some (rep2, t2) := h2
    injection h2e with h2e2
    injection h2e2 with hrp2 hst2
    have hrp2s := hrp2.symm
    have hst2s := hst2.symm
    subst hrp2s
    subst hst2s
    rw [addPagePublic] at h1
    cases hT1 : addPageT t x with
    | none => rw [hT1] at h1; cases h1
    | some trip1 =>
      obtain ⟨n1, rp1, st1⟩ := trip1
      rw [hT1] at h1
      have h1e : some (rp1, st1) = some (rep1, t1) := h1
      injection h1e with h1e2
      injection h1e2 with hrp1 hst1
      have hrp1s := hrp1.symm
      have hst1s := hst1.symm
      subst hrp1s
      subst hst1s
      rw [addPageT] at hT1
      cases hap : addPage t.trie x with
      | none => rw [hap] at hT1; cases hT1
      | some r =>
        rw [hap] at hT1
        obtain ⟨hInvR, hlenR, hgR, wsR, hxR, hx0R, hruR, hpoR⟩ :=
          addPage_spec1 t.trie x r hInv hap
        have hT1b : (match longestCandidateGo { t with trie := r.store } x []
            r.history.rules_to_apply with
          | none => none
          | some cand =>
            if cand ≠ [] ∧ cand.length ≤ r.history.webentity_position + 1 then
              some (r.node, emptyReport, ({ t with trie := r.store } : TraphState))
            else if cand ≠ [] then
              match addPrefixes { t with trie := r.store } (t.variations cand) with
              | none => none
              | some pr =>
                some (r.node, ({ emptyReport with
                  created_webentities := [(pr.1, t.variations cand)] } :
                  TraphWriteReport), pr.2)
            else
              match t.defaultRule x with
              | none => none
              | some dcand =>
                match addPrefixes { t with trie := r.store } (t.variations dcand) with
                | none => none
                | some pr =>
                  some (r.node, ({ emptyReport with
                    created_webentities := [(pr.1, t.variations dcand)] } :
                    TraphWriteReport), pr.2)) = some (n1, rep1, t1) := hT1
        cases hcand1 : longestCandidateGo { t with trie := r.store } x []
            r.history.rules_to_apply with
        | none => rw [hcand1] at hT1b; cases hT1b
        | some cand1 =>
          rw [hcand1] at hT1b
          have hT1c : (if cand1 ≠ [] ∧
                cand1.length ≤ r.history.webentity_position + 1 then
              some (r.node, emptyReport, ({ t with trie := r.store } : TraphState))
            else if cand1 ≠ [] then
              match addPrefixes { t with trie := r.store } (t.variations cand1) with
              | none => none
              | some pr =>
                some (r.node, ({ emptyReport with
                  created_webentities := [(pr.1, t.variations cand1)] } :
                  TraphWriteReport), pr.2)
            else
              match t.defaultRule x with
              | none => none
              | some dcand =>
                match addPrefixes { t with trie := r.store } (t.variations dcand) with
                | none => none
                | some pr =>
                  some (r.node, ({ emptyReport with
                    created_webentities := [(pr.1, t.variations dcand)] } :
                    TraphWriteReport), pr.2)) = some (n1, rep1, t1) := hT1b
          by_cases hE1 : cand1 ≠ [] ∧ cand1.length ≤ r.history.webentity_position + 1
          · rw [if_pos hE1] at hT1c
            have hA0 : some (r.node, emptyReport,
                ({ t with trie := r.store } : TraphState)) = some (n1, rep1, t1) := hT1c
            injection hA0 with hA1
            injection hA1 with hA2 hA3x
            injection hA3x with hA3 hA4
            have hA4s : t1 = { t with trie := r.store } := hA4.symm
            have ht1trie : t1.trie = r.store := by rw [hA4s]
            rw [← ht1trie] at hInvR hlenR hxR hx0R
            rw [hruR] at hcand1
            rw [← hA4s] at hcand1
            rw [hpoR] at hE1
            exact addPageT_second t1 x wsR n2 rep2 t2 hInvR hlenR hxR hx0R
              (Or.inl ⟨cand1, hcand1, hE1.1, hE1.2⟩) hT2
          · rw [if_neg hE1] at hT1c
            by_cases hNE1 : cand1 ≠ []
            · rw [if_pos hNE1] at hT1c
              cases hpr1 : addPrefixes { t with trie := r.store }
                  (t.variations cand1) with
              | none => rw [hpr1] at hT1c; cases hT1c
              | some pr1 =>
                rw [hpr1] at hT1c
                have hB0 : some (r.node, ({ emptyReport with
                    created_webentities := [(pr1.1, t.variations cand1)] } :
                    TraphWriteReport), pr1.2) = some (n1, rep1, t1) := hT1c
                injection hB0 with hB1
                injection hB1 with hB2 hB3x
                injection hB3x with hB3 hB4
                obtain ⟨hInv1, hlen1, hg1, hfe1, hpd1, hlinks1, hrules1, hdef1,
                  hvar1⟩ := addPrefixes_spec { t with trie := r.store }
                  (t.variations cand1) pr1 hInvR hlenR hpr1
                rw [hB4] at hInv1 hlen1 hg1 hfe1 hpd1 hlinks1 hrules1 hdef1 hvar1
                obtain ⟨ws1, hx1T, hx0T, hruT⟩ := pathPackage_transfer r.store
                  t1.trie x wsR hInvR hlenR hg1 hfe1 hxR hx0R
                have hcand1b : longestCandidateGo t1 x []
                    (histOf initHistory [] ws1 x).rules_to_apply = some cand1 := by
                  rw [hruT, ← hruR]
                  rw [longestCandidateGo_congr { t with trie := r.store } t1 hrules1
                    r.history.rules_to_apply x []]
                  exact hcand1
                have hveq : t1.variations = t.variations := hvar1
                have hpdT : ∀ p ∈ t1.variations cand1, PathDone t1.trie p := by
                  rw [hveq]
                  exact hpd1
                exact addPageT_second t1 x ws1 n2 rep2 t2 hInv1 hlen1 hx1T hx0T
                  (Or.inr (Or.inl ⟨cand1, hcand1b, hNE1, hpdT⟩)) hT2
            · rw [if_neg hNE1] at hT1c
              have hcand1nil : cand1 = [] := not_not.mp hNE1
              cases hdc1 : t.defaultRule x with
              | none => rw [hdc1] at hT1c; cases hT1c
              | some dcand1 =>
                rw [hdc1] at hT1c
                have hT1d : (match addPrefixes { t with trie := r.store }
                    (t.variations dcand1) with
                  | none => none
                  | some pr =>
                    some (r.node, ({ emptyReport with
                      created_webentities := [(pr.1, t.variations dcand1)] } :
                      TraphWriteReport), pr.2)) = some (n1, rep1, t1) := hT1c
                cases hpr1 : addPrefixes { t with trie := r.store }
                    (t.variations dcand1) with
                | none => rw [hpr1] at hT1d; cases hT1d
                | some pr1 =>
                  rw [hpr1] at hT1d
                  have hC0 : some (r.node, ({ emptyReport with
                      created_webentities := [(pr1.1, t.variations dcand1)] } :
                      TraphWriteReport), pr1.2) = some (n1, rep1, t1) := hT1d
                  injection hC0 with hC1
                  injection hC1 with hC2 hC3x
                  injection hC3x with hC3 hC4
                  obtain ⟨hInv1, hlen1, hg1, hfe1, hpd1, hlinks1, hrules1, hdef1,
                    hvar1⟩ := addPrefixes_spec { t with trie := r.store }
                    (t.variations dcand1) pr1 hInvR hlenR hpr1
                  rw [hC4] at hInv1 hlen1 hg1 hfe1 hpd1 hlinks1 hrules1 hdef1 hvar1
                  obtain ⟨ws1, hx1T, hx0T, hruT⟩ := pathPackage_transfer r.store
                    t1.trie x wsR hInvR hlenR hg1 hfe1 hxR hx0R
                  rw [hcand1nil] at hcand1
                  have hcand1b : longestCandidateGo t1 x []
                      (histOf initHistory [] ws1 x).rules_to_apply = some [] := by
                    rw [hruT, ← hruR]
                    rw [longestCandidateGo_congr { t with trie := r.store } t1 hrules1
                      r.history.rules_to_apply x []]
                    exact hcand1
                  have hdeq : t1.defaultRule = t.defaultRule := hdef1
                  have hdcT : t1.defaultRule x = some dcand1 := by
                    rw [hdeq]
                    exact hdc1
                  have hveq : t1.variations = t.variations := hvar1
                  have hpdT : ∀ p ∈ t1.variations dcand1, PathDone t1.trie p := by
                    rw [hveq]
                    exact hpd1
                  exact addPageT_second t1 x ws1 n2 rep2 t2 hInv1 hlen1 hx1T hx0T
                    (Or.inr (Or.inr ⟨dcand1, hcand1b, hdcT, hpdT⟩)) hT2

/-- Witness for claim C2: two add_page calls for the one-byte lru 97 on the
fresh example traph; the second changes no block count and no flags and
reports zero pages created. -/
theorem claim_C2_wit :
    ∃ (t1 t2 : TraphState),
      addPagePublic exampleTraphPlain [97] =
        some (⟨0, 0, [(1, [[97]])]⟩, t1) ∧
      addPagePublic t1 [97] = some (⟨0, 0, [(2, [[97]])]⟩, t2) ∧
      t2.trie.length = t1.trie.length ∧
      (⟨0, 0, [(2, [[97]])]⟩ : TraphWriteReport).pages_created = 0 := by
  refine ⟨⟨[defaultNode 0, ⟨97, 3, 0, 0, 0, 1, 0, 0⟩], [], 1,
      fun l => some l, [], fun l => [l]⟩,
    ⟨[defaultNode 0, ⟨97, 3, 0, 0, 0, 2, 0, 0⟩], [], 2,
      fun l => some l, [], fun l => [l]⟩, rfl, rfl, ?_, ?_⟩
  · exact (claim_C2 exampleTraphPlain [97] ⟨0, 0, [(1, [[97]])]⟩
      ⟨0, 0, [(2, [[97]])]⟩
      ⟨[defaultNode 0, ⟨97, 3, 0, 0, 0, 1, 0, 0⟩], [], 1,
        fun l => some l, [], fun l => [l]⟩
      ⟨[defaultNode 0, ⟨97, 3, 0, 0, 0, 2, 0, 0⟩], [], 2,
        fun l => some l, [], fun l => [l]⟩
      inv_emptyStore rfl rfl).1
  · exact (claim_C2 exampleTraphPlain [97] ⟨0, 0, [(1, [[97]])]⟩
      ⟨0, 0, [(2, [[97]])]⟩
      ⟨[defaultNode 0, ⟨97, 3, 0, 0, 0, 1, 0, 0⟩], [], 1,
        fun l => some l, [], fun l => [l]⟩
      ⟨[defaultNode 0, ⟨97, 3, 0, 0, 0, 2, 0, 0⟩], [], 2,
        fun l => some l, [], fun l => [l]⟩
      inv_emptyStore rfl rfl).2.2.2

end HypheTraph
